import Mathlib

/-!
# Verification of the raid.golf core against its specification

Shallow embedding of the `raid` package (canonical JSON serialization,
content hashing, ledger operations, classification, validity, projections,
trends, ingestion) together with proofs that settle the frozen claims.

Sources embedded: `raid/canonical.py`, `raid/hashing.py`,
`raid/templates_loader.py`, `raid/repository.py`, `raid/ingest.py`,
`raid/projections.py`, `raid/trends.py`, `raid/validity.py`.
The SQLite schema (`raid/schema.sql`) is not part of the source tree;
where its constraints decide a claim they are modelled from the spec and
marked as such.
-/

namespace Raid

/-! ## Python `Decimal` values

`canonical.py` converts every numeric input to `decimal.Decimal` via
`Decimal(str(value))`.  A `Decimal` is a sign, a coefficient (digit
tuple, here a `Nat` with no leading zeros) and a decimal exponent, or one
of the specials NaN / ±Infinity.  `fin neg c e` denotes the value
`(-1)^neg * c * 10^e`; distinct `(c, e)` pairs with equal value model
distinct `Decimal` objects (e.g. `Decimal("0.50")` is `(50, -2)`). -/
inductive PyNum where
  | fin (neg : Bool) (c : Nat) (e : Int)
  | nan
  | inf (neg : Bool)
deriving DecidableEq, Repr

/-- Errors raised by the embedded Python code paths. -/
inductive PyErr where
  /-- `OverflowError` from `int(Decimal("Infinity"))` in `_format_decimal`. -/
  | overflow
deriving DecidableEq, Repr

/-- `(-e).toNat` power of ten divisibility: a finite decimal `c * 10^e`
is an integer iff `e ≥ 0` or `10^(-e)` divides `c`. -/
def decIsIntegral (c : Nat) (e : Int) : Bool :=
  decide (0 ≤ e) || c % (10 ^ (-e).toNat) == 0

/-- The integer value of an integral finite decimal (magnitude). -/
def decIntVal (c : Nat) (e : Int) : Nat :=
  if 0 ≤ e then c * 10 ^ e.toNat else c / 10 ^ (-e).toNat

/-- `result.rstrip('0').rstrip('.')` from `_format_decimal`, applied to a
character list in reverse order is easiest: drop trailing zeros, then a
trailing dot. -/
def stripTrailing (s : String) : String :=
  let r := s.toList.reverse.dropWhile (fun ch => ch = '0')
  let r := match r with
    | '.' :: rest => rest
    | other => other
  String.mk r.reverse

/-- Fixed-point digit string (without sign) of a non-integral finite
decimal `c * 10^e` (so `e < 0`), before trailing-zero stripping: the
digits of `c` with a decimal point inserted `-e` places from the right,
zero-padded on the left (`0.00…c`) when needed.  This is the string both
branches of `_format_decimal` (plain `str(Decimal)` and the
scientific-notation reconstruction) produce for a non-integral value. -/
def fixedBody (c : Nat) (e : Int) : String :=
  let ds := toString c
  let k := (-e).toNat
  if ds.length ≤ k then
    "0." ++ String.mk (List.replicate (k - ds.length) '0') ++ ds
  else
    String.mk (ds.toList.take (ds.length - k)) ++ "." ++
      String.mk (ds.toList.drop (ds.length - k))

/-- `_format_decimal` (`canonical.py:29`).  Traced behaviour:
* any zero (including `-0`) prints `"0"`;
* an integral value prints `str(int(dec))`;
* a non-integral value prints its fixed-point form with trailing zeros
  (and then a trailing point) stripped;
* `Decimal("NaN")` falls through every branch and is returned verbatim
  as the token `"NaN"` (no error is raised);
* `±Infinity` passes the integrality test and `int(dec)` raises
  `OverflowError`. -/
def formatDecimal : PyNum → Except PyErr String
  | .nan => .ok "NaN"
  | .inf _ => .error .overflow
  | .fin neg c e =>
    if c = 0 then .ok "0"
    else if decIsIntegral c e then
      .ok ((if neg then "-" else "") ++ toString (decIntVal c e))
    else
      .ok (stripTrailing ((if neg then "-" else "") ++ fixedBody c e))

/-! ## Value trees

The JSON-like trees `canonicalize` accepts: null, booleans, numbers
(already in their `Decimal` form, see `PyNum`), strings, lists and
mappings.  A mapping is the entry list of a Python `dict` in insertion
order; Python guarantees the keys are distinct, which theorems state as
an explicit hypothesis. -/
inductive Value where
  | null
  | bool (b : Bool)
  | num (n : PyNum)
  | str (s : String)
  | list (xs : List Value)
  | dict (entries : List (String × Value))
deriving Repr

/-- Canonicalized trees: numbers have been replaced by their
`NumericToken` strings (`canonical.py:16`). -/
inductive CValue where
  | null
  | bool (b : Bool)
  | numTok (s : String)
  | str (s : String)
  | list (xs : List CValue)
  | dict (entries : List (String × CValue))
deriving Repr

/-- Lowercase hex digit. -/
def hexDigit (n : Nat) : Char :=
  if n < 10 then Char.ofNat (48 + n) else Char.ofNat (87 + n)

/-- Four lowercase hex digits, as in Python's `'\u%04x'`. -/
def hex4 (n : Nat) : String :=
  String.mk [hexDigit (n / 4096 % 16), hexDigit (n / 256 % 16),
             hexDigit (n / 16 % 16), hexDigit (n % 16)]

/-- Escaping of one character by `json.dumps(s, ensure_ascii=False)`:
quote and backslash are escaped, the named control escapes are used for
BS/TAB/LF/FF/CR, all other control characters use `\u00XX`, and
everything else (ASCII or not) is emitted verbatim. -/
def pyEscapeChar (ch : Char) : String :=
  if ch = '"' then "\\\""
  else if ch = '\\' then "\\\\"
  else if ch = '\x08' then "\\b"
  else if ch = '\x09' then "\\t"
  else if ch = '\x0a' then "\\n"
  else if ch = '\x0c' then "\\f"
  else if ch = '\x0d' then "\\r"
  else if ch.toNat < 32 then "\\u" ++ hex4 ch.toNat
  else String.singleton ch

/-- `json.dumps(s, ensure_ascii=False)` for a string value. -/
def pyJsonQuote (s : String) : String :=
  "\"" ++ String.join (s.toList.map pyEscapeChar) ++ "\""

/-- Python string `<`: lexicographic comparison of code-point
sequences (first differing position decides; otherwise the shorter
string is smaller). -/
def lexLt : List Char → List Char → Bool
  | [], [] => false
  | [], _ :: _ => true
  | _ :: _, [] => false
  | a :: as, b :: bs =>
    a.toNat < b.toNat || (a.toNat == b.toNat && lexLt as bs)

/-- Python string `s ≤ t` as used by `sorted`, i.e. `not (t < s)`. -/
def keyLe (s t : String) : Bool := ! lexLt t.toList s.toList

/-- Insert an entry into a key-sorted entry list (`sorted` is by the
string key; values are never compared because Python dict keys are
unique). -/
def insertByKey (p : String × CValue) :
    List (String × CValue) → List (String × CValue)
  | [] => [p]
  | q :: rest =>
    if keyLe p.1 q.1 then p :: q :: rest else q :: insertByKey p rest

/-- Sort an entry list by key (Python `sorted`, restricted to the
unique-key case where only keys are compared). -/
def sortByKey : List (String × CValue) → List (String × CValue)
  | [] => []
  | p :: rest => insertByKey p (sortByKey rest)

mutual
/-- `_canonicalize_value` (`canonical.py:101`) minus the key sort:
numbers become tokens, lists and dict values are canonicalized
recursively, dict entry order is preserved here.  Both
`_canonicalize_value` and `_build_json` sort keys; with unique keys the
two sorts coincide, so the model performs the single sort in
`canonSort` below. -/
def canonValue : Value → Except PyErr CValue
  | .null => .ok .null
  | .bool b => .ok (.bool b)
  | .num n => do pure (.numTok (← formatDecimal n))
  | .str s => .ok (.str s)
  | .list xs => do pure (.list (← canonList xs))
  | .dict l => do pure (.dict (← canonEntries l))
termination_by structural v => v

def canonList : List Value → Except PyErr (List CValue)
  | [] => .ok []
  | x :: xs => do pure ((← canonValue x) :: (← canonList xs))
termination_by structural v => v

def canonEntries : List (String × Value) →
    Except PyErr (List (String × CValue))
  | [] => .ok []
  | (k, v) :: rest => do pure ((k, ← canonValue v) :: (← canonEntries rest))
termination_by structural v => v
end

mutual
/-- The key sort applied by `_canonicalize_value` and `_build_json` at
every nesting level. -/
def canonSort : CValue → CValue
  | .null => .null
  | .bool b => .bool b
  | .numTok s => .numTok s
  | .str s => .str s
  | .list xs => .list (canonSortList xs)
  | .dict l => .dict (sortByKey (canonSortEntries l))
termination_by structural v => v

def canonSortList : List CValue → List CValue
  | [] => []
  | x :: xs => canonSort x :: canonSortList xs
termination_by structural v => v

def canonSortEntries : List (String × CValue) → List (String × CValue)
  | [] => []
  | (k, v) :: rest => (k, canonSort v) :: canonSortEntries rest
termination_by structural v => v
end

/-- Comma-join, as in `','.join(items)`. -/
def joinComma : List String → String
  | [] => ""
  | [s] => s
  | s :: rest => s ++ "," ++ joinComma rest

mutual
/-- `_build_json` (`canonical.py:124`) on an already key-sorted canonical
tree: null/true/false literals, unquoted numeric tokens, quoted strings,
compact lists and objects. -/
def buildJson : CValue → String
  | .null => "null"
  | .bool true => "true"
  | .bool false => "false"
  | .numTok s => s
  | .str s => pyJsonQuote s
  | .list xs => "[" ++ joinComma (buildJsonList xs) ++ "]"
  | .dict l => "\x7b" ++ joinComma (buildJsonEntries l) ++ "\x7d"
termination_by structural v => v

def buildJsonList : List CValue → List String
  | [] => []
  | x :: xs => buildJson x :: buildJsonList xs
termination_by structural v => v

def buildJsonEntries : List (String × CValue) → List String
  | [] => []
  | (k, v) :: rest => (pyJsonQuote k ++ ":" ++ buildJson v) :: buildJsonEntries rest
termination_by structural v => v
end

/-- `canonicalize` (`canonical.py:163`): canonicalize the tree, sort keys
at every level, emit compact JSON. -/
def canonicalize (v : Value) : Except PyErr String := do
  pure (buildJson (canonSort (← canonValue v)))

end Raid

namespace Raid

/-! ## UTF-8 encoding and SHA-256 (`hashing.py`)

`compute_template_hash` is `sha256(canonical_json.encode("utf-8")).hexdigest().lower()`.
SHA-256 is implemented here over byte lists with `Nat` arithmetic mod `2^32`. -/

/-- UTF-8 encoding of one code point. -/
def utf8Char (n : Nat) : List Nat :=
  if n < 128 then [n]
  else if n < 2048 then [192 + n / 64, 128 + n % 64]
  else if n < 65536 then [224 + n / 4096, 128 + n / 64 % 64, 128 + n % 64]
  else [240 + n / 262144, 128 + n / 4096 % 64, 128 + n / 64 % 64, 128 + n % 64]

/-- `s.encode("utf-8")` (no BOM). -/
def utf8Bytes (s : String) : List Nat :=
  (s.toList.map (fun c => utf8Char c.toNat)).flatten

namespace Sha256

def w32 (n : Nat) : Nat := n % 4294967296

def rotr (k x : Nat) : Nat := w32 ((x >>> k) ||| (x <<< (32 - k)))

def bsig0 (x : Nat) : Nat := rotr 2 x ^^^ rotr 13 x ^^^ rotr 22 x
def bsig1 (x : Nat) : Nat := rotr 6 x ^^^ rotr 11 x ^^^ rotr 25 x
def ssig0 (x : Nat) : Nat := rotr 7 x ^^^ rotr 18 x ^^^ (x >>> 3)
def ssig1 (x : Nat) : Nat := rotr 17 x ^^^ rotr 19 x ^^^ (x >>> 10)
def ch (x y z : Nat) : Nat := (x &&& y) ^^^ ((4294967295 ^^^ x) &&& z)
def maj (x y z : Nat) : Nat := (x &&& y) ^^^ (x &&& z) ^^^ (y &&& z)

/-- The 64 round constants. -/
def K : List Nat :=
  [1116352408, 1899447441, 3049323471, 3921009573,
   961987163, 1508970993, 2453635748, 2870763221,
   3624381080, 310598401, 607225278, 1426881987,
   1925078388, 2162078206, 2614888103, 3248222580,
   3835390401, 4022224774, 264347078, 604807628,
   770255983, 1249150122, 1555081692, 1996064986,
   2554220882, 2821834349, 2952996808, 3210313671,
   3336571891, 3584528711, 113926993, 338241895,
   666307205, 773529912, 1294757372, 1396182291,
   1695183700, 1986661051, 2177026350, 2456956037,
   2730485921, 2820302411, 3259730800, 3345764771,
   3516065817, 3600352804, 4094571909, 275423344,
   430227734, 506948616, 659060556, 883997877,
   958139571, 1322822218, 1537002063, 1747873779,
   1955562222, 2024104815, 2227730452, 2361852424,
   2428436474, 2756734187, 3204031479, 3329325298]

/-- Initial hash state. -/
def H0 : List Nat :=
  [1779033703, 3144134277, 1013904242, 2773480762,
   1359893119, 2600822924, 528734635, 1541459225]

/-- Big-endian byte representation of `n` in `k` bytes. -/
def beBytes (n k : Nat) : List Nat :=
  (List.range k).map (fun i => n / 256 ^ (k - 1 - i) % 256)

/-- SHA-256 padding: `0x80`, zeros, 64-bit bit length. -/
def padded (msg : List Nat) : List Nat :=
  let len := msg.length
  let pad := (64 - (len + 9) % 64) % 64
  msg ++ [128] ++ List.replicate pad 0 ++ beBytes (len * 8) 8

/-- Group bytes into 32-bit big-endian words. -/
def toWords : List Nat → List Nat
  | b0 :: b1 :: b2 :: b3 :: rest =>
    (((b0 * 256 + b1) * 256 + b2) * 256 + b3) :: toWords rest
  | _ => []

/-- Split a word list into 16-word blocks (fuel-driven). -/
def chunksAux : Nat → List Nat → List (List Nat)
  | 0, _ => []
  | _ + 1, [] => []
  | n + 1, ws => ws.take 16 :: chunksAux n (ws.drop 16)

/-- Extend a 16-word block to the 64-word message schedule. -/
def msgSchedule (w16 : List Nat) : List Nat :=
  (List.range 48).foldl
    (fun w _ =>
      let n := w.length
      w ++ [w32 (ssig1 (w.getD (n - 2) 0) + w.getD (n - 7) 0 +
                 ssig0 (w.getD (n - 15) 0) + w.getD (n - 16) 0)])
    w16

/-- One compression round on the eight-word state. -/
def round (st : List Nat) (ki wi : Nat) : List Nat :=
  match st with
  | [a, b, c, d, e, f, g, h] =>
    let t1 := w32 (h + bsig1 e + ch e f g + ki + wi)
    let t2 := w32 (bsig0 a + maj a b c)
    [w32 (t1 + t2), a, b, c, w32 (d + t1), e, f, g]
  | other => other

/-- Compress one 16-word block into the running state. -/
def compressChunk (h : List Nat) (chunk : List Nat) : List Nat :=
  let w := msgSchedule chunk
  let st := (List.zip K w).foldl (fun st kw => round st kw.1 kw.2) h
  (List.zip h st).map (fun p => w32 (p.1 + p.2))

/-- SHA-256 digest of a byte list, as eight 32-bit words. -/
def sha256Words (msg : List Nat) : List Nat :=
  let ws := toWords (padded msg)
  (chunksAux (ws.length / 16 + 1) ws).foldl compressChunk H0

/-- Eight lowercase hex digits of a 32-bit word. -/
def hex8 (w : Nat) : String :=
  String.mk ((List.range 8).map (fun i => hexDigit (w / 16 ^ (7 - i) % 16)))

/-- `hashlib.sha256(bytes).hexdigest()` (already lowercase). -/
def sha256Hex (msg : List Nat) : String :=
  String.join ((sha256Words msg).map hex8)

end Sha256

/-- `compute_template_hash` (`hashing.py:16`):
`SHA-256(UTF-8(canonicalize(template)))` as a lowercase hex digest;
`.lower()` is a no-op on `hexdigest()` output. -/
def compute_template_hash (t : Value) : Except PyErr String := do
  pure (Sha256.sha256Hex (utf8Bytes (← canonicalize t)))

/-! ## Template loading (`templates_loader.py`) -/

/-- `METRIC_DIRECTIONS` (`templates_loader.py:24`). -/
def METRIC_DIRECTIONS : List (String × String) :=
  [("ball_speed", "higher_is_better"), ("smash_factor", "higher_is_better"),
   ("spin_rate", "higher_is_better"), ("descent_angle", "higher_is_better")]

/-- Association-list lookup, modelling Python `dict.get` / `dict[...]`
(and a `SELECT` by key on a keyed table). -/
def alookup {κ α : Type} [DecidableEq κ] (l : List (κ × α)) (k : κ) :
    Option α :=
  match l with
  | [] => none
  | p :: rest => if p.1 = k then some p.2 else alookup rest k

/-- Python `d[k] = v` on an insertion-ordered dict: replace in place if
the key exists, else append. -/
def aset {κ α : Type} [DecidableEq κ] (l : List (κ × α)) (k : κ) (v : α) :
    List (κ × α) :=
  match l with
  | [] => [(k, v)]
  | p :: rest => if p.1 = k then (k, v) :: rest else p :: aset rest k v

/-- `a_metric_mappings` (`templates_loader.py:161`), in dict-literal
order: `(kpi_key, metric_name, threshold_key)`. -/
def aMetricMappings : List (String × String × String) :=
  [("ball_speed_min", "ball_speed", "a_min"),
   ("smash_min", "smash_factor", "a_min"),
   ("spin_min", "spin_rate", "a_min"),
   ("descent_min", "descent_angle", "a_min")]

/-- `b_metric_mappings` (`templates_loader.py:178`). -/
def bMetricMappings : List (String × String × String) :=
  [("ball_speed_min", "ball_speed", "b_min"),
   ("ball_speed_max", "ball_speed", "b_max"),
   ("smash_min", "smash_factor", "b_min"),
   ("smash_max", "smash_factor", "b_max"),
   ("spin_min", "spin_rate", "b_min"),
   ("spin_max", "spin_rate", "b_max"),
   ("descent_min", "descent_angle", "b_min"),
   ("descent_max", "descent_angle", "b_max")]

/-- One step of the threshold-mapping loops: if `kpiKey` is present in
the threshold dict, ensure the metric entry exists (initialising it with
its direction from `METRIC_DIRECTIONS`) and set the threshold key. -/
def applyMapping (thr : List (String × PyNum))
    (ms : List (String × List (String × Value)))
    (m : String × String × String) :
    List (String × List (String × Value)) :=
  match alookup thr m.1 with
  | none => ms
  | some v =>
    let inner := match alookup ms m.2.1 with
      | none => [("direction", Value.str ((alookup METRIC_DIRECTIONS m.2.1).getD ""))]
      | some inner => inner
    aset ms m.2.1 (aset inner m.2.2 (Value.num v))

/-- `_convert_to_canonical_template` (`templates_loader.py:132`).  The
metric names produced by the fixed mapping tables are always in
`SUPPORTED_METRICS`, so the final unsupported-metric `ValueError` can
never fire and is omitted.  Threshold values come from `json.load` of
`kpis.json`, already in `Decimal(str(float))` form here. -/
def convertToCanonicalTemplate (club : String)
    (aThr bThr : List (String × PyNum))
    (schemaVersion kpiVersion : String) : Value :=
  let ms := aMetricMappings.foldl (applyMapping aThr) []
  let ms := bMetricMappings.foldl (applyMapping bThr) ms
  .dict [("schema_version", .str schemaVersion),
         ("club", .str club),
         ("metrics", .dict (ms.map (fun p => (p.1, Value.dict p.2)))),
         ("aggregation_method", .str "worst_metric"),
         ("source", .str "tools/kpis.json"),
         ("kpi_version", .str kpiVersion)]

/-- Lines 105–107 of `load_templates_from_kpis_json`
(`templates_loader.py`): the template is canonicalized, and the
resulting canonical JSON **string** is then passed to
`compute_template_hash`, whose own `canonicalize` treats it as a string
value and re-serializes it as a quoted JSON string.  This is the hash
under which the template is inserted (or matched) in the store. -/
def loaderTemplateHash (t : Value) : Except PyErr String := do
  let canonicalJson ← canonicalize t
  compute_template_hash (.str canonicalJson)

end Raid

namespace Raid

/-! ## The ledger (`repository.py`)

Rows mirror the columns written by the three insert methods.  Floats in
rows (percentages, averages) are embedded as their exact rational
values; classification and aggregation only add, divide and compare, and
the claims under test never depend on binary rounding. -/

structure SessionRow where
  session_date : String
  source_file : String
  device_type : Option String
  location : Option String
  ingested_at : String
deriving Repr, DecidableEq

structure TemplateRow where
  schema_version : String
  club : String
  canonical_json : String
  created_at : String
  imported_at : Option String
deriving Repr, DecidableEq

structure SubsessionRow where
  session_id : Nat
  club : String
  kpi_template_hash : String
  shot_count : Nat
  validity_status : String
  a_count : Nat
  b_count : Nat
  c_count : Nat
  a_percentage : Option Rat
  avg_carry : Option Rat
  avg_ball_speed : Option Rat
  avg_spin : Option Rat
  avg_descent : Option Rat
  analyzed_at : String
deriving Repr, DecidableEq

/-- The three authoritative tables (`sessions`, `kpi_templates`,
`club_subsessions`), each as an append-only list of `(key, row)`. -/
structure Store where
  sessions : List (Nat × SessionRow)
  templates : List (String × TemplateRow)
  subsessions : List (Nat × SubsessionRow)
deriving Repr, DecidableEq

/-- Database errors. -/
inductive DbErr where
  /-- Foreign-key violation (missing session or template). -/
  | referential
  /-- `UNIQUE` / primary-key violation. -/
  | uniqueness
  /-- `CHECK`-constraint violation (count sum, percentage pairing). -/
  | domainInvariant
deriving Repr, DecidableEq

/-- `Repository.insert_session` (`repository.py:81`): append a row and
return a fresh monotonically increasing rowid. -/
def insertSession (st : Store) (row : SessionRow) : Nat × Store :=
  let sid := st.sessions.length + 1
  (sid, { st with sessions := st.sessions ++ [(sid, row)] })

/-- `Repository.get_session` (`repository.py:116`). -/
def getSession (st : Store) (sid : Nat) : Option SessionRow :=
  alookup st.sessions sid

/-- `Repository.get_template` (`repository.py:179`); per RTM-04 it is a
plain lookup and never recomputes a hash. -/
def getTemplate (st : Store) (hash : String) : Option TemplateRow :=
  alookup st.templates hash

/-- `Repository.insert_template` (`repository.py:138`): a plain
`INSERT` of the row under the **caller-supplied** hash; the method never
calls the hasher.  Modelled from the spec: `template_hash` is the
primary key of `kpi_templates` (`schema.sql` is not in the source
tree), so inserting a duplicate hash is a uniqueness violation. -/
def insertTemplate (st : Store) (hash : String) (row : TemplateRow) :
    Except DbErr (String × Store) :=
  if (alookup st.templates hash).isSome then .error .uniqueness
  else .ok (hash, { st with templates := st.templates ++ [(hash, row)] })

/-- Whether a `(session_id, club, kpi_template_hash)` triple is already
present. -/
def subsessionTripleExists (st : Store) (r : SubsessionRow) : Bool :=
  st.subsessions.any fun p =>
    p.2.session_id = r.session_id && p.2.club = r.club &&
      p.2.kpi_template_hash = r.kpi_template_hash

/-- Percentage/validity-tier pairing inconsistency: non-null percentage
with the insufficient tier, or null percentage with a higher tier and a
non-zero count (§4.4/§4.5: the percentage is null exactly when the tier
is insufficient or the count is zero). -/
def pctPairingInconsistent (r : SubsessionRow) : Bool :=
  (r.a_percentage.isSome && r.validity_status = "invalid_insufficient_data") ||
  (r.a_percentage.isNone && r.validity_status ≠ "invalid_insufficient_data" &&
    r.shot_count ≠ 0)

/-- `Repository.insert_subsession` (`repository.py:221`) together with
the `club_subsessions` constraints.  Modelled from the spec: the
enforcing `schema.sql` is absent from the source tree; per §4.3 the
insert fails with a referential error if the parent session or the
template is missing, with a uniqueness violation if the
`(session_id, club, kpi_template_hash)` triple already exists, and with
a domain-invariant error if `a+b+c ≠ shot_count` or the
percentage/validity pairing is inconsistent. -/
def insertSubsession (st : Store) (r : SubsessionRow) :
    Except DbErr (Nat × Store) :=
  if (alookup st.sessions r.session_id).isNone then .error .referential
  else if (alookup st.templates r.kpi_template_hash).isNone then
    .error .referential
  else if subsessionTripleExists st r then .error .uniqueness
  else if r.a_count + r.b_count + r.c_count ≠ r.shot_count then
    .error .domainInvariant
  else if pctPairingInconsistent r then .error .domainInvariant
  else
    let sid := st.subsessions.length + 1
    .ok (sid, { st with subsessions := st.subsessions ++ [(sid, r)] })

/-- The insert as a transition on the store: SQLite write transactions
fully commit or fully abort (§5), so a failed insert leaves the store
exactly as it was. -/
def insertSubsessionAttempt (st : Store) (r : SubsessionRow) :
    Except DbErr Nat × Store :=
  match insertSubsession st r with
  | .ok (i, st') => (.ok i, st')
  | .error e => (.error e, st)

/-- `Repository.get_subsession` (`repository.py:279`). -/
def getSubsession (st : Store) (sid : Nat) : Option SubsessionRow :=
  alookup st.subsessions sid

/-! ## Validity (`validity.py`) -/

/-- `compute_validity_status` (`validity.py:12`): fixed Phase-0
thresholds. -/
def compute_validity_status (shotCount : Nat) : String :=
  if shotCount < 5 then "invalid_insufficient_data"
  else if shotCount < 15 then "valid_low_sample_warning"
  else "valid"

/-- `compute_a_percentage` (`validity.py:29`): null when the status is
the insufficient tier or the count is not positive, else
`(a_count / shot_count) * 100`. -/
def compute_a_percentage (aCount shotCount : Nat)
    (validityStatus : String) : Option Rat :=
  if validityStatus = "invalid_insufficient_data" then none
  else if shotCount = 0 then none
  else some ((aCount : Rat) / (shotCount : Rat) * 100)

/-! ## Projections (`projections.py`) -/

inductive ProjErr where
  /-- `ProjectionImportError` (`projections.py:15`). -/
  | importProhibited
  /-- `ValueError` for a missing subsession or session. -/
  | notFound
deriving Repr, DecidableEq

/-- `import_projection` (`projections.py:118`): unconditionally raises
`ProjectionImportError`; the body consists of the `raise` statement
alone and performs no repository operation. -/
def import_projection (_projectionJson : String) : Except ProjErr Unit :=
  .error .importProhibited

/-- An import attempt as a transition on the authoritative store: the
function takes no repository handle, so the store passes through
untouched. -/
def importProjectionAttempt (st : Store) (bytes : String) :
    Except ProjErr Unit × Store :=
  (import_projection bytes, st)

end Raid

namespace Raid

/-! ## Classification (`ingest.py:241`–`337`)

`_classify_shot` receives the shot as a dict of float metrics and the
template as the parsed canonical JSON dict.  The embedding uses the
fields the code reads: the `metrics` mapping (name → threshold dict) and
the `aggregation_method` tag.  Floats are embedded as exact rationals;
only order comparisons are performed on them. -/

/-- One threshold dict from a template's `metrics` mapping, holding the
keys `_grade_metric` reads via `.get`. -/
structure Thresholds where
  direction : Option String
  a_min : Option Rat
  b_min : Option Rat
  a_max : Option Rat
  b_max : Option Rat
deriving Repr, DecidableEq

/-- The template fields `_classify_shot` reads:
`template.get("metrics", {})` and
`template.get("aggregation_method", "worst_metric")`. -/
structure ClassifyTemplate where
  metrics : List (String × Thresholds)
  aggregation_method : Option String
deriving Repr, DecidableEq

/-- A shot dict: metric name → float value (`shot.get(field)` is
`alookup`). -/
def Shot : Type := List (String × Rat)

/-- Grades. -/
inductive Grade where
  | A
  | B
  | C
deriving Repr, DecidableEq

/-- Configuration errors raised by the classifier (`ValueError`). -/
inductive ClassifyErr where
  /-- Unsupported aggregation method (`ingest.py:256`). -/
  | unsupportedAggregation
  /-- Unsupported direction (`ingest.py:337`). -/
  | unsupportedDirection
deriving Repr, DecidableEq

/-- `_grade_metric` (`ingest.py:291`): grade one observed value against
one threshold dict.  A missing `direction` key defaults to
`higher_is_better`; a missing cutoff key makes its branch fall
through. -/
def gradeMetric (value : Rat) (thr : Thresholds) :
    Except ClassifyErr Grade :=
  let direction := thr.direction.getD "higher_is_better"
  if direction = "higher_is_better" then
    match thr.a_min with
    | some a => if a ≤ value then .ok .A else
        match thr.b_min with
        | some b => if b ≤ value then .ok .B else .ok .C
        | none => .ok .C
    | none =>
        match thr.b_min with
        | some b => if b ≤ value then .ok .B else .ok .C
        | none => .ok .C
  else if direction = "lower_is_better" then
    match thr.a_max with
    | some a => if value ≤ a then .ok .A else
        match thr.b_max with
        | some b => if value ≤ b then .ok .B else .ok .C
        | none => .ok .C
    | none =>
        match thr.b_max with
        | some b => if value ≤ b then .ok .B else .ok .C
        | none => .ok .C
  else .error .unsupportedDirection

/-- `metric_field_map` (`ingest.py:259`): the identity map on the four
supported metric names; any other template metric name is skipped by
the loop. -/
def metricFieldMap : List (String × String) :=
  [("ball_speed", "ball_speed"), ("smash_factor", "smash_factor"),
   ("spin_rate", "spin_rate"), ("descent_angle", "descent_angle")]

/-- The worst-grade update of `_classify_shot`'s loop body: a C forces
C; a B upgrades-downgrades to B unless the running grade is already
C. -/
def worstUpdate (worst : Grade) (g : Grade) : Grade :=
  match g with
  | .C => .C
  | .B => if worst = .C then .C else .B
  | .A => worst

/-- The loop of `_classify_shot` over the template's `metrics` entries,
threading the running worst grade. -/
def classifyLoop (shot : Shot) :
    List (String × Thresholds) → Grade → Except ClassifyErr Grade
  | [], worst => .ok worst
  | (name, thr) :: rest, worst =>
    match alookup metricFieldMap name with
    | none => classifyLoop shot rest worst
    | some fieldName =>
      match alookup shot fieldName with
      | none => classifyLoop shot rest .C
      | some value => do
        classifyLoop shot rest (worstUpdate worst (← gradeMetric value thr))

/-- `_classify_shot` (`ingest.py:241`). -/
def classifyShot (shot : Shot) (t : ClassifyTemplate) :
    Except ClassifyErr Grade :=
  if t.aggregation_method.getD "worst_metric" ≠ "worst_metric" then
    .error .unsupportedAggregation
  else classifyLoop shot t.metrics .A

/-! ## Trends (`trends.py`) -/

/-- One element of `data_points` in `compute_club_trend`. -/
structure TrendDataPoint where
  session_date : String
  a_percentage : Option Rat
  shot_count : Nat
  validity_status : String
  session_id : Nat
  subsession_id : Nat
deriving Repr, DecidableEq

/-- `TrendResult` (`trends.py:26`). -/
structure TrendResult where
  club : String
  data_points : List TrendDataPoint
  weighted_avg_a_percent : Option Rat
  total_sessions : Nat
  total_shots : Nat
  min_validity_filter : String
deriving Repr, DecidableEq

/-- `validity_order` (`repository.py:335`). -/
def validityRank (status : String) : Option Nat :=
  if status = "invalid_insufficient_data" then some 0
  else if status = "valid_low_sample_warning" then some 1
  else if status = "valid" then some 2
  else none

/-- `Repository.list_subsessions_by_club` (`repository.py:314`) on the
store: rows for the club whose validity rank is at least the rank of
`min_validity` (all rows when the filter is the lowest rank), in
`analyzed_at` order.  The embedding keeps insertion order, which the
ingestion path creates in `analyzed_at` order. -/
def listSubsessionsByClub (st : Store) (club : String) (minValidity : String) :
    List (Nat × SubsessionRow) :=
  let minRank := (validityRank minValidity).getD 0
  st.subsessions.filter fun p =>
    p.2.club = club && minRank ≤ (validityRank p.2.validity_status).getD 0

/-- The join step of `compute_club_trend` (`trends.py:74`): look up each
unit's parent session and build a data point from its date; units whose
session is missing are skipped. -/
def trendJoin (st : Store) (rows : List (Nat × SubsessionRow)) :
    List TrendDataPoint :=
  rows.foldr
    (fun p acc =>
      match getSession st p.2.session_id with
      | none => acc
      | some sess =>
        { session_date := sess.session_date
          a_percentage := p.2.a_percentage
          shot_count := p.2.shot_count
          validity_status := p.2.validity_status
          session_id := p.2.session_id
          subsession_id := p.1 } :: acc)
    []

/-- Stable insertion into a list sorted by `session_date` (Python
`list.sort(key=...)` is stable: an incoming point goes after existing
points with a `≤` date). -/
def insertByDate (x : TrendDataPoint) :
    List TrendDataPoint → List TrendDataPoint
  | [] => [x]
  | y :: rest =>
    if keyLe y.session_date x.session_date then y :: insertByDate x rest
    else x :: y :: rest

/-- `data_points.sort(key=lambda dp: dp.session_date)`
(`trends.py:92`). -/
def sortByDate (l : List TrendDataPoint) : List TrendDataPoint :=
  l.foldl (fun acc x => insertByDate x acc) []

/-- Deduplicating ascending insertion, building
`sorted(set(...))` of the session dates. -/
def insertDateSet (d : String) : List String → List String
  | [] => [d]
  | y :: rest =>
    if d = y then y :: rest
    else if keyLe y d then y :: insertDateSet d rest
    else d :: y :: rest

/-- `sorted(set(dp.session_date for dp in data_points))`
(`trends.py:97`). -/
def sortedDateSet (l : List TrendDataPoint) : List String :=
  l.foldl (fun acc dp => insertDateSet dp.session_date acc) []

/-- The windowing step (`trends.py:95`–`101`): with `window = N > 0` and
more than `N` distinct session dates, keep only points dated on or
after the `N`-th most recent distinct date (`session_dates[-window]`);
otherwise keep everything. -/
def applyWindow (window : Option Nat) (points : List TrendDataPoint) :
    List TrendDataPoint :=
  match window with
  | none => points
  | some n =>
    if n = 0 then points
    else
      let dates := sortedDateSet points
      if n < dates.length then
        let cutoff := dates.getD (dates.length - n) ""
        points.filter fun dp => keyLe cutoff dp.session_date
      else points

/-- The weighted-average step (`trends.py:104`–`112`, `weighted=True`):
count-weighted mean of the non-null percentages, null when no point has
one.  (With a valid point present the weight sum is positive, since a
non-null percentage forces a non-insufficient tier with a positive
count; the embedding keeps the code's guard.) -/
def weightedAvg (points : List TrendDataPoint) : Option Rat :=
  let valid := points.filter fun dp => dp.a_percentage.isSome
  if valid = [] then none
  else
    let num := valid.foldl
      (fun s dp => s + (dp.a_percentage.getD 0) * (dp.shot_count : Rat)) 0
    let den := valid.foldl (fun s dp => s + (dp.shot_count : Rat)) 0
    if 0 < den then some (num / den) else none

/-- Trend errors (`ValueError` on an empty filter result). -/
inductive TrendErr where
  | noData
deriving Repr, DecidableEq

/-- `compute_club_trend` (`trends.py:37`) with `weighted=True`. -/
def computeClubTrend (st : Store) (club : String) (minValidity : String)
    (window : Option Nat) : Except TrendErr TrendResult :=
  let subs := listSubsessionsByClub st club minValidity
  if subs = [] then .error .noData
  else
    let points := sortByDate (trendJoin st subs)
    let points := applyWindow window points
    .ok
      { club := club
        data_points := points
        weighted_avg_a_percent := weightedAvg points
        total_sessions := (points.map (fun dp => dp.session_id)).eraseDups.length
        total_shots := points.foldl (fun s dp => s + dp.shot_count) 0
        min_validity_filter := minValidity }

end Raid

namespace Raid

/-! ## Concrete instances used by the claim theorems -/

/-- A template built by `_convert_to_canonical_template` from the
active-version thresholds of one club (floats already in
`Decimal(str(float))` form: `108.92`, `1.32`, `106.6`, `1.29`). -/
def c1Template : Value :=
  convertToCanonicalTemplate "7i"
    [("ball_speed_min", .fin false 10892 (-2)), ("smash_min", .fin false 132 (-2))]
    [("ball_speed_min", .fin false 1066 (-1)), ("smash_min", .fin false 129 (-2))]
    "1.0" "v1.0"

end Raid

namespace Raid

/-- Outcome classification used by the template-loading path. -/
inductive LoadOutcome where
  | inserted
  | existing
deriving Repr, DecidableEq

/-- Lines 109–123 of `load_templates_from_kpis_json`
(`templates_loader.py`): the template-insert path first checks
`repo.get_template(hash)`; an existing hash is recorded as `existing`
and nothing is written, otherwise the row is inserted under the
caller-supplied hash via `repo.insert_template` (whose duplicate-key
case cannot fire after the check). -/
def loadTemplateStep (st : Store) (hash : String) (row : TemplateRow) :
    (String × LoadOutcome) × Store :=
  match getTemplate st hash with
  | some _ => ((hash, .existing), st)
  | none =>
    ((hash, .inserted),
     { st with templates := st.templates ++ [(hash, row)] })

/-- Badness order on grades: `A < B < C`. -/
def gradeBadness : Grade → Nat
  | .A => 0
  | .B => 1
  | .C => 2

/-- The worse of two grades (C dominates B dominates A). -/
def gradeMax (g1 g2 : Grade) : Grade :=
  if gradeBadness g1 < gradeBadness g2 then g2 else g1

/-- The grade of one template metric entry against the observation: a
missing observed value grades C; an observed value is graded by
`gradeMetric`. -/
def metricGrade (shot : Shot) (m : String × Thresholds) :
    Except ClassifyErr Grade :=
  match alookup shot m.1 with
  | none => .ok .C
  | some v => gradeMetric v m.2

/-- The per-metric grade list over a metric list. -/
def metricGrades (shot : Shot) :
    List (String × Thresholds) → Except ClassifyErr (List Grade)
  | [] => .ok []
  | m :: rest => do pure ((← metricGrade shot m) :: (← metricGrades shot rest))

/-- Per-metric grades of one observation against a template's metric
list, in template order, restricted to the supported metric names. -/
def perMetricGrades (shot : Shot) (ms : List (String × Thresholds)) :
    Except ClassifyErr (List Grade) :=
  metricGrades shot (ms.filter fun m => (alookup metricFieldMap m.1).isSome)

/-! ### Fixtures for the claim theorems and witnesses -/

def wSessionRow : SessionRow :=
  { session_date := "2026-01-28T17:00:00Z", source_file := "test.csv"
    device_type := some "Rapsodo MLM2Pro", location := none
    ingested_at := "2026-01-28T18:00:00Z" }

def wTemplateRow : TemplateRow :=
  { schema_version := "1.0", club := "7i"
    canonical_json := "\x7b\"club\":\"7i\"\x7d"
    created_at := "2026-01-28T18:00:00Z", imported_at := none }

/-- A store holding one session (id 1) and one template (hash `"aaaa"`). -/
def wStore : Store :=
  { sessions := [(1, wSessionRow)]
    templates := [("aaaa", wTemplateRow)]
    subsessions := [] }

/-- Unit referencing a missing session (id 2). -/
def wSubBadFk : SubsessionRow :=
  { session_id := 2, club := "7i", kpi_template_hash := "aaaa"
    shot_count := 20, validity_status := "valid"
    a_count := 10, b_count := 8, c_count := 2, a_percentage := some 50
    avg_carry := none, avg_ball_speed := none, avg_spin := none
    avg_descent := none, analyzed_at := "2026-01-28T18:05:00Z" }

/-- Unit whose grade counts do not sum to the shot count. -/
def wSubBadSum : SubsessionRow :=
  { wSubBadFk with session_id := 1, a_count := 11 }

/-- Unit with a non-null percentage paired with the insufficient
tier. -/
def wSubBadPct : SubsessionRow :=
  { wSubBadFk with
    session_id := 1, shot_count := 4,
    validity_status := "invalid_insufficient_data",
    a_count := 1, b_count := 1, c_count := 2 }

/-- C6 counterexample template: `worst_metric` aggregation and a single
metric named `club_head_speed`, which is not among the four supported
names in `metric_field_map`. -/
def c6Template : ClassifyTemplate :=
  { metrics :=
      [("club_head_speed",
        { direction := some "higher_is_better", a_min := some 100
          b_min := some 90, a_max := none, b_max := none })]
    aggregation_method := some "worst_metric" }

/-- C6 counterexample shot: reports nothing, in particular no value for
the template-defined metric. -/
def c6Shot : Shot := []

/-- Shot and template for the C6 amended-claim witness. -/
def c6WitnessShot : Shot := [("ball_speed", 95), ("carry_distance", 150)]

def c6WitnessTemplate : ClassifyTemplate :=
  { metrics :=
      [("ball_speed",
        { direction := some "higher_is_better", a_min := some 100
          b_min := some 90, a_max := none, b_max := none }),
       ("smash_factor",
        { direction := some "higher_is_better", a_min := some (132/100)
          b_min := some (129/100), a_max := none, b_max := none })]
    aggregation_method := none }

end Raid

namespace Raid

/-! ## Permutation of value trees (spec §8, order independence)

`ValuePerm v1 v2` holds when the two trees are equal except that, at
any nesting depth, a mapping's key/value pairs may appear in a
different order.  A mapping step first relates entries pointwise
(equal keys, recursively permuted values) and then permutes the entry
list. -/

mutual
def ValuePerm : Value → Value → Prop
  | .null, .null => True
  | .bool b, .bool b' => b = b'
  | .num n, .num n' => n = n'
  | .str s, .str s' => s = s'
  | .list xs, .list ys => listRel xs ys
  | .dict l1, .dict l2 => ∃ mid, entriesRel l1 mid ∧ mid.Perm l2
  | _, _ => False
termination_by structural v => v

def listRel : List Value → List Value → Prop
  | [], [] => True
  | x :: xs, y :: ys => ValuePerm x y ∧ listRel xs ys
  | _, _ => False
termination_by structural v => v

def entriesRel : List (String × Value) → List (String × Value) → Prop
  | [], [] => True
  | p :: l1, q :: l2 => p.1 = q.1 ∧ ValuePerm p.2 q.2 ∧ entriesRel l1 l2
  | _, _ => False
termination_by structural v => v
end

/-- No-duplicate check for a string list (Python dict keys are unique). -/
def nodupStr : List String → Bool
  | [] => true
  | k :: rest => !(rest.contains k) && nodupStr rest

mutual
/-- All mappings in the tree have pairwise distinct keys — true of
every tree arising from Python dicts. -/
def nodupKeysV : Value → Bool
  | .null => true
  | .bool _ => true
  | .num _ => true
  | .str _ => true
  | .list xs => nodupKeysList xs
  | .dict l => nodupStr (l.map Prod.fst) && nodupKeysEntries l
termination_by structural v => v

def nodupKeysList : List Value → Bool
  | [] => true
  | x :: xs => nodupKeysV x && nodupKeysList xs
termination_by structural v => v

def nodupKeysEntries : List (String × Value) → Bool
  | [] => true
  | p :: l => nodupKeysV p.2 && nodupKeysEntries l
termination_by structural v => v
end

/-! ### Fixtures for the C5 and C9 witnesses -/

def c9SessionRow (d : String) : SessionRow :=
  { session_date := d, source_file := "s.csv", device_type := none
    location := none, ingested_at := d }

def c9Sub (sid : Nat) : SubsessionRow :=
  { session_id := sid, club := "7i", kpi_template_hash := "aaaa"
    shot_count := 15, validity_status := "valid"
    a_count := 5, b_count := 5, c_count := 5, a_percentage := some (100 / 3)
    avg_carry := none, avg_ball_speed := none, avg_spin := none
    avg_descent := none, analyzed_at := "t" }

/-- Five sessions with distinct dates, one valid unit each. -/
def c9Store : Store :=
  { sessions :=
      [(1, c9SessionRow "2026-01-01"), (2, c9SessionRow "2026-01-02"),
       (3, c9SessionRow "2026-01-03"), (4, c9SessionRow "2026-01-04"),
       (5, c9SessionRow "2026-01-05")]
    templates := [("aaaa", wTemplateRow)]
    subsessions :=
      [(1, c9Sub 1), (2, c9Sub 2), (3, c9Sub 3), (4, c9Sub 4), (5, c9Sub 5)] }

/-- C5 witness trees: the same key/value pairs, permuted at both
levels. -/
def c5Inner1 : Value :=
  .dict [("x", .num (.fin false 1 0)), ("y", .num (.fin false 2 0))]

def c5Inner2 : Value :=
  .dict [("y", .num (.fin false 2 0)), ("x", .num (.fin false 1 0))]

def c5Tree1 : Value :=
  .dict [("a", c5Inner1), ("b", .num (.fin false 3 0))]

def c5Tree2 : Value :=
  .dict [("b", .num (.fin false 3 0)), ("a", c5Inner2)]

end Raid

namespace Raid

/-! ## Python `float` (IEEE-754 binary64) for `json.loads`

`json.loads` converts real-number tokens with `float()` and integer
tokens with `int()`.  Floats are modelled exactly: correctly-rounded
decimal-to-binary64 conversion and the shortest round-tripping decimal
of CPython's `repr`, all in integer arithmetic. -/

/-- IEEE-754 binary64 values as produced by Python `float` parsing:
zero, a finite value `(-1)^neg * m * 2^k` (with `2^52 ≤ m < 2^53` for
normals, `m < 2^52` only when `k = -1074`), or an infinity. -/
inductive PyFloat where
  | zero (neg : Bool)
  | finite (neg : Bool) (m : Nat) (k : Int)
  | inf (neg : Bool)
deriving DecidableEq, Repr

/-- `2^q ≤ num/den`? -/
def pow2le (num den : Nat) (q : Int) : Bool :=
  if 0 ≤ q then den * 2 ^ q.toNat ≤ num else den ≤ num * 2 ^ (-q).toNat

/-- Fuel-driven floor logarithm (the fuel `n` itself always
suffices). -/
def nlogAux (b : Nat) : Nat → Nat → Nat
  | 0, _ => 0
  | fuel + 1, n => if n < b then 0 else nlogAux b fuel (n / b) + 1

def nlog (b n : Nat) : Nat := nlogAux b n n

/-- `⌊log2 (num/den)⌋` for positive arguments. -/
def ilog2 (num den : Nat) : Int :=
  let q0 : Int := (nlog 2 num : Int) - (nlog 2 den : Int) - 1
  if pow2le num den (q0 + 2) then q0 + 2
  else if pow2le num den (q0 + 1) then q0 + 1
  else q0

/-- Round `num/den` to the nearest integer, ties to even. -/
def divRoundEven (num den : Nat) : Nat :=
  let q := num / den
  let r := num % den
  if 2 * r < den then q
  else if den < 2 * r then q + 1
  else if q % 2 = 0 then q else q + 1

/-- Round the positive rational `num/den` at scale `2^k`: the nearest
integer to `num/(den*2^k)`, ties to even. -/
def roundAtScale (num den : Nat) (k : Int) : Nat :=
  if 0 ≤ k then divRoundEven num (den * 2 ^ k.toNat)
  else divRoundEven (num * 2 ^ (-k).toNat) den

/-- Correctly-rounded (nearest, ties to even) conversion of the decimal
`(-1)^neg * c * 10^e` to binary64, as performed by `float()` /
`json.loads` on a real literal. -/
def strToFloat (neg : Bool) (c : Nat) (e : Int) : PyFloat :=
  if c = 0 then .zero neg
  else
    let num := if 0 ≤ e then c * 10 ^ e.toNat else c
    let den := if 0 ≤ e then 1 else 10 ^ (-e).toNat
    let q := ilog2 num den
    let k : Int := max (q - 52) (-1074)
    let m := roundAtScale num den k
    let mk : Nat × Int := if m = 2 ^ 53 then (2 ^ 52, k + 1) else (m, k)
    if mk.1 = 0 then .zero neg
    else if 971 < mk.2 then .inf neg
    else .finite neg mk.1 mk.2

/-- `⌊log10 (num/den)⌋` for positive arguments. -/
def pow10le (num den : Nat) (q : Int) : Bool :=
  if 0 ≤ q then den * 10 ^ q.toNat ≤ num else den ≤ num * 10 ^ (-q).toNat

def ilog10 (num den : Nat) : Int :=
  let q0 : Int := (nlog 10 num : Int) - (nlog 10 den : Int) - 1
  if pow10le num den (q0 + 2) then q0 + 2
  else if pow10le num den (q0 + 1) then q0 + 1
  else q0

/-- Round the positive rational `num/den` at decimal scale `10^s`. -/
def roundAtScale10 (num den : Nat) (s : Int) : Nat :=
  if 0 ≤ s then divRoundEven num (den * 10 ^ s.toNat)
  else divRoundEven (num * 10 ^ (-s).toNat) den

/-- Round the positive binary64 value `m * 2^k` to `p` significant
decimal digits; returns `(d, E)` with `10^(p-1) ≤ d < 10^p` and value
`d * 10^(E-p+1)`, `E` the decimal exponent of the leading digit. -/
def sigDigits (m : Nat) (k : Int) (p : Nat) : Nat × Int :=
  let num := if 0 ≤ k then m * 2 ^ k.toNat else m
  let den := if 0 ≤ k then 1 else 2 ^ (-k).toNat
  let E := ilog10 num den
  let s := E - (p : Int) + 1
  let d := roundAtScale10 num den s
  if d = 10 ^ p then (10 ^ (p - 1), E + 1) else (d, E)

/-- The shortest digit string (with its decimal exponent) that parses
back to the given finite binary64 — the digit-selection core of
CPython's `repr(float)`. -/
def shortestDigits (neg : Bool) (m : Nat) (k : Int) : Nat × Int :=
  let candidates := (List.range 17).map fun i =>
    sigDigits m k (i + 1)
  match candidates.find? (fun dE =>
    let p := (toString dE.1).length
    strToFloat neg dE.1 (dE.2 - (p : Int) + 1) == .finite neg m k) with
  | some dE => dE
  | none => sigDigits m k 17

/-- Strip trailing zero digits from a coefficient (fuel-driven;
`d * 10^(E-len+1)` stays fixed because `len` shrinks with `d`). -/
def stripZeroDigitsAux : Nat → Nat → Nat
  | 0, d => d
  | fuel + 1, d =>
    if d = 0 then 0
    else if d % 10 = 0 then stripZeroDigitsAux fuel (d / 10)
    else d

def stripZeroDigits (d : Nat) : Nat := stripZeroDigitsAux d d

/-- The `Decimal(str(f))` of a parsed float: value-preserving decimal
form of CPython's shortest `repr`.  (The coefficient/exponent split may
differ from CPython's by trailing zeros — e.g. `1.0` is represented as
`1·10^0` rather than `10·10^-1` — which leaves `_format_decimal`'s
output unchanged: it prints by value and strips trailing zeros.) -/
def pyNumOfFloat : PyFloat → PyNum
  | .zero neg => .fin neg 0 (-1)
  | .inf neg => .inf neg
  | .finite neg m k =>
    let dE := shortestDigits neg m k
    let d := stripZeroDigits dE.1
    let len := (toString dE.1).length
    .fin neg d (dE.2 - (len : Int) + 1 + ((toString dE.1).length - (toString d).length : Nat))


end Raid

namespace Raid

/-! ## `json.loads` (the parser used by the idempotence property and by
the ingestion path to read stored canonical templates)

Faithful to CPython's `json` for the constructs that can occur in this
system: the four whitespace characters, `null`/`true`/`false`,
`NaN`/`Infinity`/`-Infinity`, strings with the standard escapes, numbers
(integer tokens via `int`, real tokens via `float`), arrays, and objects
(later duplicate keys overwrite earlier ones in place, as in `dict`).
Lone `\uXXXX` surrogates (unrepresentable in Lean's `Char`, and never
produced by the canonicalizer, which only escapes control characters)
fall back to `Char.ofNat`'s default. -/

def isJsonWs (c : Char) : Bool :=
  c = ' ' || c = '\x09' || c = '\x0a' || c = '\x0d'

def skipWs (cs : List Char) : List Char := cs.dropWhile isJsonWs

def isDigit (c : Char) : Bool := 48 ≤ c.toNat && c.toNat ≤ 57

def hexVal (c : Char) : Option Nat :=
  if 48 ≤ c.toNat ∧ c.toNat ≤ 57 then some (c.toNat - 48)
  else if 97 ≤ c.toNat ∧ c.toNat ≤ 102 then some (c.toNat - 87)
  else if 65 ≤ c.toNat ∧ c.toNat ≤ 70 then some (c.toNat - 55)
  else none

def hexVal4 (a b c d : Char) : Option Nat := do
  pure ((((← hexVal a) * 16 + (← hexVal b)) * 16 + (← hexVal c)) * 16 +
    (← hexVal d))

/-- String-content scan after the opening quote (CPython `py_scanstring`,
`strict=True`: raw control characters are rejected).  Fuel-bounded; one
unit per produced character, so any fuel above the input length
suffices. -/
def pstr : Nat → List Char → Option (String × List Char)
  | 0, _ => none
  | _ + 1, [] => none
  | fuel + 1, c0 :: cs0 =>
    if c0 = '"' then some ("", cs0)
    else if c0 = '\\' then
      match cs0 with
      | 'u' :: a :: b :: c :: d :: rest => do
        let code ← hexVal4 a b c d
        if 0xD800 ≤ code ∧ code ≤ 0xDBFF then
          match rest with
          | '\\' :: 'u' :: e :: f :: g :: h :: rest2 => do
            let code2 ← hexVal4 e f g h
            if 0xDC00 ≤ code2 ∧ code2 ≤ 0xDFFF then
              let ch := Char.ofNat
                (0x10000 + (code - 0xD800) * 1024 + (code2 - 0xDC00))
              (pstr fuel rest2).map fun p => (String.singleton ch ++ p.1, p.2)
            else
              (pstr fuel rest).map fun p =>
                (String.singleton (Char.ofNat code) ++ p.1, p.2)
          | _ =>
            (pstr fuel rest).map fun p =>
              (String.singleton (Char.ofNat code) ++ p.1, p.2)
        else
          (pstr fuel rest).map fun p =>
            (String.singleton (Char.ofNat code) ++ p.1, p.2)
      | e :: rest =>
        let ch : Option Char :=
          if e = '"' then some '"'
          else if e = '\\' then some '\\'
          else if e = '/' then some '/'
          else if e = 'b' then some '\x08'
          else if e = 'f' then some '\x0c'
          else if e = 'n' then some '\x0a'
          else if e = 'r' then some '\x0d'
          else if e = 't' then some '\x09'
          else none
        match ch with
        | some ch => (pstr fuel rest).map fun p => (String.singleton ch ++ p.1, p.2)
        | none => none
      | [] => none
    else if c0.toNat < 32 then none
    else (pstr fuel cs0).map fun p => (String.singleton c0 ++ p.1, p.2)

/-- Maximal digit prefix. -/
def takeDigits : List Char → List Char × List Char
  | [] => ([], [])
  | c :: rest =>
    if isDigit c then
      let p := takeDigits rest
      (c :: p.1, p.2)
    else ([], c :: rest)

def natOfDigits (ds : List Char) : Nat :=
  ds.foldl (fun a d => a * 10 + (d.toNat - 48)) 0

/-- The integer part of the number grammar: `0|[1-9]\d*`. -/
def munchInt : List Char → Option (List Char × List Char)
  | [] => none
  | c :: rest =>
    if ¬ isDigit c then none
    else if c = '0' then some (['0'], rest)
    else
      let p := takeDigits rest
      some (c :: p.1, p.2)

/-- The optional fraction: `(\.\d+)?`. -/
def munchFrac : List Char → Option (List Char) × List Char
  | '.' :: c :: r =>
    if isDigit c then
      let p := takeDigits r
      (some (c :: p.1), p.2)
    else (none, '.' :: c :: r)
  | cs => (none, cs)

/-- The optional exponent: `([eE][-+]?\d+)?`. -/
def munchExp : List Char → Option (Bool × List Char) × List Char
  | e :: r =>
    if e = 'e' ∨ e = 'E' then
      match r with
      | '-' :: c :: r2 =>
        if isDigit c then
          let p := takeDigits r2
          (some (true, c :: p.1), p.2)
        else (none, e :: r)
      | '+' :: c :: r2 =>
        if isDigit c then
          let p := takeDigits r2
          (some (false, c :: p.1), p.2)
        else (none, e :: r)
      | c :: r2 =>
        if isDigit c then
          let p := takeDigits r2
          (some (false, c :: p.1), p.2)
        else (none, e :: r)
      | [] => (none, e :: r)
    else (none, e :: r)
  | [] => (none, [])

/-- The unsigned part of the number grammar
`(0|[1-9]\d*)(\.\d+)?([eE][-+]?\d+)?`, interpreted as CPython's `json`:
an integer token via `int` (exact), a real token via `float` (binary64)
and, for the value tree, the decimal of its `str` form. -/
def parseNumTail (neg : Bool) (cs : List Char) : Option (PyNum × List Char) :=
  match munchInt cs with
  | none => none
  | some ip =>
    let fr := munchFrac ip.2
    let ex := munchExp fr.2
    match fr.1, ex.1 with
    | none, none =>
      let n := natOfDigits ip.1
      some (if n = 0 then .fin false 0 0 else .fin neg n 0, ip.2)
    | frac, expo =>
      let fracDs := frac.getD []
      let coeff := natOfDigits (ip.1 ++ fracDs)
      let expVal : Int :=
        match expo with
        | some se =>
          if se.1 then -(natOfDigits se.2 : Int) else (natOfDigits se.2 : Int)
        | none => 0
      let e : Int := expVal - (fracDs.length : Int)
      some (pyNumOfFloat (strToFloat neg coeff e), ex.2)

/-- The number grammar `(-?(0|[1-9]\d*))(\.\d+)?([eE][-+]?\d+)?`: an
optional sign, then the unsigned grammar. -/
def parseNum (cs : List Char) : Option (PyNum × List Char) :=
  match cs with
  | '-' :: t => parseNumTail true t
  | _ => parseNumTail false cs

/-- Match a literal character sequence. -/
def stripChars : List Char → List Char → Option (List Char)
  | [], cs => some cs
  | p :: ps, c :: cs => if c = p then stripChars ps cs else none
  | _ :: _, [] => none

mutual
/-- One JSON value (CPython `scan_once`), fuel-bounded: literals,
strings, arrays, objects, then the number grammar and finally the
`NaN`/`Infinity`/`-Infinity` constants, in CPython's dispatch order. -/
def pv : Nat → List Char → Option (Value × List Char)
  | 0, _ => none
  | fuel + 1, cs =>
    match skipWs cs with
    | [] => none
    | c :: rest =>
      if c = 'n' then
        (stripChars ['u', 'l', 'l'] rest).map fun r => (.null, r)
      else if c = 't' then
        (stripChars ['r', 'u', 'e'] rest).map fun r => (.bool true, r)
      else if c = 'f' then
        (stripChars ['a', 'l', 's', 'e'] rest).map fun r => (.bool false, r)
      else if c = '"' then
        (pstr (rest.length + 1) rest).map fun p => (.str p.1, p.2)
      else if c = '[' then
        match skipWs rest with
        | ']' :: rest2 => some (.list [], rest2)
        | cs2 => do
          let p ← pv fuel cs2
          parr fuel [p.1] p.2
      else if c = '\x7b' then
        match skipWs rest with
        | '\x7d' :: rest2 => some (.dict [], rest2)
        | '"' :: cs2 => do
          let pk ← pstr (cs2.length + 1) cs2
          match skipWs pk.2 with
          | ':' :: cs3 => do
            let p ← pv fuel (skipWs cs3)
            pobj fuel (aset [] pk.1 p.1) p.2
          | _ => none
        | _ => none
      else
        match parseNum (c :: rest) with
        | some p => some (.num p.1, p.2)
        | none =>
          if c = 'N' then
            (stripChars ['a', 'N'] rest).map fun r => (.num .nan, r)
          else if c = 'I' then
            (stripChars ['n', 'f', 'i', 'n', 'i', 't', 'y'] rest).map
              fun r => (.num (.inf false), r)
          else if c = '-' then
            (stripChars ['I', 'n', 'f', 'i', 'n', 'i', 't', 'y'] rest).map
              fun r => (.num (.inf true), r)
          else none

/-- Array-element loop (after the first element). -/
def parr : Nat → List Value → List Char → Option (Value × List Char)
  | 0, _, _ => none
  | fuel + 1, acc, cs =>
    match skipWs cs with
    | ']' :: rest => some (.list acc, rest)
    | ',' :: rest => do
      let p ← pv fuel (skipWs rest)
      parr fuel (acc ++ [p.1]) p.2
    | _ => none

/-- Object-member loop (after the first member); duplicate keys
overwrite in place, as in a Python dict. -/
def pobj : Nat → List (String × Value) → List Char →
    Option (Value × List Char)
  | 0, _, _ => none
  | fuel + 1, acc, cs =>
    match skipWs cs with
    | '\x7d' :: rest => some (.dict acc, rest)
    | ',' :: rest =>
      (match skipWs rest with
      | '"' :: cs2 => do
        let pk ← pstr (cs2.length + 1) cs2
        match skipWs pk.2 with
        | ':' :: cs3 => do
          let p ← pv fuel (skipWs cs3)
          pobj fuel (aset acc pk.1 p.1) p.2
        | _ => none
      | _ => none)
    | _ => none
end

/-- `json.loads` on a string: parse one value, allow only trailing
whitespace. -/
def jsonLoads (s : String) : Option Value :=
  match pv (s.toList.length + 1) s.toList with
  | some (v, rest) => if skipWs rest = [] then some v else none
  | none => none

end Raid

namespace Raid

/-! ## Template extraction and ingestion (`ingest.py:17`–`112`) -/

/-- Exact rational value of a finite decimal (floats are embedded as
the exact values of their shortest decimal representations; order
comparisons then coincide with binary64 comparisons because the
float-to-shortest-decimal map is strictly monotone). -/
def decValue (neg : Bool) (c : Nat) (e : Int) : Rat :=
  (if neg then -(c : Rat) else (c : Rat)) * (10 : Rat) ^ e

/-- A numeric threshold field read from a parsed template dict
(non-finite or non-numeric values never occur in loader-built
templates and are treated as absent). -/
def numField (l : List (String × Value)) (k : String) : Option Rat :=
  match alookup l k with
  | some (.num (.fin neg c e)) => some (decValue neg c e)
  | _ => none

/-- The threshold-dict fields `_grade_metric` reads. -/
def valueAsThresholds : Value → Thresholds
  | .dict l =>
    { direction :=
        match alookup l "direction" with
        | some (.str s) => some s
        | _ => none
      a_min := numField l "a_min"
      b_min := numField l "b_min"
      a_max := numField l "a_max"
      b_max := numField l "b_max" }
  | _ =>
    { direction := none, a_min := none, b_min := none, a_max := none
      b_max := none }

/-- The fields `_classify_shot` reads from the parsed template
(`template.get("metrics", {})`, `template.get("aggregation_method",
"worst_metric")`). -/
def classifyTemplateOfValue : Value → ClassifyTemplate
  | .dict l =>
    { metrics :=
        match alookup l "metrics" with
        | some (.dict ms) => ms.map fun p => (p.1, valueAsThresholds p.2)
        | _ => []
      aggregation_method :=
        match alookup l "aggregation_method" with
        | some (.str s) => some s
        | _ => none }
  | _ => { metrics := [], aggregation_method := none }

/-- Grade counting over a shot batch (`ingest.py:70`–`81`). -/
def countGrades (t : ClassifyTemplate) :
    List Shot → Except ClassifyErr (Nat × Nat × Nat)
  | [] => .ok (0, 0, 0)
  | shot :: rest => do
    let g ← classifyShot shot t
    let counts ← countGrades t rest
    match g with
    | .A => pure (counts.1 + 1, counts.2.1, counts.2.2)
    | .B => pure (counts.1, counts.2.1 + 1, counts.2.2)
    | .C => pure (counts.1, counts.2.1, counts.2.2 + 1)

/-- `_compute_average` (`ingest.py:340`). -/
def computeAverage (shots : List Shot) (field : String) : Option Rat :=
  let values := shots.filterMap fun s => alookup s field
  if values.length = 0 then none
  else some (values.foldl (· + ·) 0 / (values.length : Rat))

inductive IngestErr where
  /-- `ValueError` when a supplied template hash is absent
  (`ingest.py:65`). -/
  | templateNotFound (club : String)
  /-- `json.JSONDecodeError` from `json.loads` (unreachable for rows
  written by the loader). -/
  | jsonDecode
  /-- A `ValueError` from the classifier. -/
  | classify (e : ClassifyErr)
  /-- An `IntegrityError` from the subsession insert. -/
  | db (e : DbErr)
deriving Repr, DecidableEq

/-- The per-club loop of `ingest_rapsodo_csv` (`ingest.py:55`–`110`):
clubs without a supplied template hash are silently skipped; a missing
template raises; otherwise the batch is classified and one subsession
row inserted.  An exception propagates at once, and the rows already
committed (each insert commits its own transaction) remain in the
store. -/
def ingestClubs (sessionId : Nat) (analyzedAt : String)
    (tmplByClub : List (String × String)) :
    Store → List (String × List Shot) → Except IngestErr Unit × Store
  | st, [] => (.ok (), st)
  | st, (club, shots) :: rest =>
    match alookup tmplByClub club with
    | none => ingestClubs sessionId analyzedAt tmplByClub st rest
    | some h =>
      match getTemplate st h with
      | none => (.error (.templateNotFound club), st)
      | some row =>
        match jsonLoads row.canonical_json with
        | none => (.error .jsonDecode, st)
        | some tv =>
          let t := classifyTemplateOfValue tv
          match countGrades t shots with
          | .error e => (.error (.classify e), st)
          | .ok counts =>
            let shotCount := shots.length
            let validity := compute_validity_status shotCount
            let r : SubsessionRow :=
              { session_id := sessionId, club := club
                kpi_template_hash := h, shot_count := shotCount
                validity_status := validity
                a_count := counts.1, b_count := counts.2.1
                c_count := counts.2.2
                a_percentage :=
                  compute_a_percentage counts.1 shotCount validity
                avg_carry := computeAverage shots "carry_distance"
                avg_ball_speed := computeAverage shots "ball_speed"
                avg_spin := computeAverage shots "spin_rate"
                avg_descent := computeAverage shots "descent_angle"
                analyzed_at := analyzedAt }
            match insertSubsession st r with
            | .error e => (.error (.db e), st)
            | .ok p => ingestClubs sessionId analyzedAt tmplByClub p.2 rest

/-- `ingest_rapsodo_csv` (`ingest.py:17`) on pre-parsed shot batches
(CSV parsing is the external ingestion collaborator): the Session row
is inserted **before** any classification, then each club batch is
processed in order. -/
def ingestRapsodoCsv (st : Store) (shotsByClub : List (String × List Shot))
    (tmplByClub : List (String × String)) (sessionDate sourceFile : String)
    (deviceType : String) (location : Option String)
    (ingestedAt analyzedAt : String) : Except IngestErr Nat × Store :=
  let p := insertSession st
    { session_date := sessionDate, source_file := sourceFile
      device_type := some deviceType, location := location
      ingested_at := ingestedAt }
  match ingestClubs p.1 analyzedAt tmplByClub p.2 shotsByClub with
  | (.ok _, st') => (.ok p.1, st')
  | (.error e, st') => (.error e, st')

/-! ### Fixtures for C4 and C10 -/

/-- C4 counterexample tree: a 17-significant-digit decimal that binary64
cannot hold. -/
def c4Tree : Value :=
  .dict [("v", .num (.fin false 30000000000000001 (-17)))]

/-- Its canonical form. -/
def c4Canonical : String := "\x7b\"v\":0.30000000000000001\x7d"

/-- What `json.loads` makes of it: the float rounds to `0.3`. -/
def c4Parsed : Value := .dict [("v", .num (.fin false 3 (-1)))]

/-- A C4-witness tree whose numbers all survive the float round-trip. -/
def c4GoodTree : Value :=
  .dict [("b", .list [.num (.fin false 1 0), .num (.fin true 25 (-1)),
                      .str "x"]),
         ("a", .num (.fin false 10892 (-2)))]

/-- C10 shot batches: two shots for the templated club, two for a club
with no supplied template. -/
def c10Shots : List Shot :=
  [[("ball_speed", 110), ("carry_distance", 150)],
   [("ball_speed", 100), ("carry_distance", 140)]]

def c10TmplByClub : List (String × String) := [("7i", "aaaa")]

end Raid

namespace Raid

/-! ## Predicates and helpers for the idempotence analysis (C4) -/

/-- Parse-stability of a canonical numeric token: it parses as one full
number token and reformatting the parsed number reproduces the token.
All tokens of integers and of floats (shortest-repr decimals) are
stable; tokens of `Decimal` values carrying more precision than
binary64 are not. -/
def tokStable (s : String) : Bool :=
  match parseNum s.toList with
  | some (n, []) =>
    match formatDecimal n with
    | .ok t => t == s
    | .error _ => false
  | _ => false

mutual
/-- No NaN or Infinity anywhere in the tree. -/
def validNums : Value → Bool
  | .null => true
  | .bool _ => true
  | .str _ => true
  | .num n =>
    match n with
    | .fin _ _ _ => true
    | _ => false
  | .list xs => validNumsList xs
  | .dict l => validNumsEntries l
termination_by structural v => v

def validNumsList : List Value → Bool
  | [] => true
  | x :: xs => validNums x && validNumsList xs
termination_by structural v => v

def validNumsEntries : List (String × Value) → Bool
  | [] => true
  | p :: l => validNums p.2 && validNumsEntries l
termination_by structural v => v
end

mutual
/-- Every numeric leaf's canonical token is parse-stable. -/
def numsStable : Value → Bool
  | .null => true
  | .bool _ => true
  | .str _ => true
  | .num n =>
    match formatDecimal n with
    | .ok tok => tokStable tok
    | .error _ => false
  | .list xs => numsStableList xs
  | .dict l => numsStableEntries l
termination_by structural v => v

def numsStableList : List Value → Bool
  | [] => true
  | x :: xs => numsStable x && numsStableList xs
termination_by structural v => v

def numsStableEntries : List (String × Value) → Bool
  | [] => true
  | p :: l => numsStable p.2 && numsStableEntries l
termination_by structural v => v
end

/-- Ascending chain check on key sequences. -/
def chainLe : List String → Bool
  | [] => true
  | [_] => true
  | k1 :: k2 :: t => keyLe k1 k2 && chainLe (k2 :: t)

mutual
/-- Well-formedness of a canonical tree for the parse round-trip:
stable numeric tokens, and sorted, duplicate-free keys at every
mapping. -/
def cOk : CValue → Bool
  | .null => true
  | .bool _ => true
  | .str _ => true
  | .numTok s => tokStable s
  | .list xs => cOkList xs
  | .dict l =>
    chainLe (l.map Prod.fst) && nodupStr (l.map Prod.fst) && cOkEntries l
termination_by structural v => v

def cOkList : List CValue → Bool
  | [] => true
  | x :: xs => cOk x && cOkList xs
termination_by structural v => v

def cOkEntries : List (String × CValue) → Bool
  | [] => true
  | p :: l => cOk p.2 && cOkEntries l
termination_by structural v => v
end

mutual
/-- Fuel cost of parsing a canonical tree: one unit per value nesting
step and per container element. -/
def costV : CValue → Nat
  | .null => 0
  | .bool _ => 0
  | .str _ => 0
  | .numTok _ => 0
  | .list [] => 0
  | .list (x :: xs) => 1 + max (costV x) (costL xs)
  | .dict [] => 0
  | .dict (p :: l) => 1 + max (costV p.2) (costE l)
termination_by structural v => v

def costL : List CValue → Nat
  | [] => 0
  | x :: xs => 1 + max (costV x) (costL xs)
termination_by structural v => v

def costE : List (String × CValue) → Nat
  | [] => 0
  | p :: l => 1 + max (costV p.2) (costE l)
termination_by structural v => v
end

/-- The number `json.loads` produces from one canonical numeric token
(CPython's dispatch order: number grammar, then the constants). -/
def numOfToken (s : String) : PyNum :=
  match parseNum s.toList with
  | some p => p.1
  | none =>
    if s = "NaN" then .nan
    else if s = "Infinity" then .inf false
    else if s = "-Infinity" then .inf true
    else .nan

mutual
/-- The value `json.loads` produces from a canonical tree's text. -/
def valueOfC : CValue → Value
  | .null => .null
  | .bool b => .bool b
  | .numTok s => .num (numOfToken s)
  | .str s => .str s
  | .list xs => .list (valueOfCList xs)
  | .dict l => .dict (valueOfCEntries l)
termination_by structural v => v

def valueOfCList : List CValue → List Value
  | [] => []
  | x :: xs => valueOfC x :: valueOfCList xs
termination_by structural v => v

def valueOfCEntries : List (String × CValue) → List (String × Value)
  | [] => []
  | p :: l => (p.1, valueOfC p.2) :: valueOfCEntries l
termination_by structural v => v
end

/-- Character sequence of a canonical tree's JSON text. -/
def bjChars (c : CValue) : List Char := (buildJson c).toList

/-- Characters of the remaining elements of a non-empty array body. -/
def tailCharsL : List CValue → List Char
  | [] => []
  | x :: xs => ',' :: bjChars x ++ tailCharsL xs

/-- Characters of the remaining members of a non-empty object body. -/
def tailCharsE : List (String × CValue) → List Char
  | [] => []
  | p :: l =>
    ',' :: (pyJsonQuote p.1).toList ++ ':' :: bjChars p.2 ++ tailCharsE l

/-- Escape-sequence characters of one source character. -/
def escChars (ch : Char) : List Char := (pyEscapeChar ch).toList

/-- Escaped content of a string. -/
def escList : List Char → List Char
  | [] => []
  | ch :: t => escChars ch ++ escList t

/-- Delimiters that may follow a value inside canonical JSON text. -/
def stopOk : List Char → Prop
  | [] => True
  | c :: _ => c = ',' ∨ c = '\x7d' ∨ c = ']'

end Raid

namespace Raid

/-! ## Orders used by the sorting proofs -/

/-- Date order on trend points. -/
def dateLe (a b : TrendDataPoint) : Prop :=
  keyLe a.session_date b.session_date = true

/-- Strict date order. -/
def dateLt (a b : String) : Prop := keyLe a b = true ∧ a ≠ b

/-- Key order on canonical entries. -/
def entryLe (p q : String × CValue) : Prop := keyLe p.1 q.1 = true

/-- Strict key order on canonical entries. -/
def entryLt (p q : String × CValue) : Prop :=
  keyLe p.1 q.1 = true ∧ p.1 ≠ q.1

end Raid

namespace Raid

/-! # Claim theorems -/

set_option maxRecDepth 100000 in
/-- **C1** (code bug evidence).  The claim states that the hash under
which the loader inserts a template equals
`SHA-256(UTF-8(canonicalize(template)))`.  The loader instead passes the
already-canonicalized JSON *string* to `compute_template_hash`
(`templates_loader.py:106`–`107`), which canonicalizes again and hashes
the JSON-quoted form of the canonical text, so the stored hash differs
from the content address of the template's canonical bytes. -/
theorem claim1_loader_hash_double_canonicalized :
    loaderTemplateHash c1Template =
      .ok "909be977f2242c68e00a73be20903c225c8ffe7e87fc5ee2fcefd07a0555ba7e" ∧
    compute_template_hash c1Template =
      .ok "f0c1a8021bb8b3db69f4feccf7cae7d7c9d69debbc74885ffb8ea33f232be901" ∧
    loaderTemplateHash c1Template ≠ compute_template_hash c1Template ∧
    loaderTemplateHash c1Template =
      (do pure (Sha256.sha256Hex (utf8Bytes (pyJsonQuote (← canonicalize c1Template))))) := by
  refine ⟨rfl, rfl, ?_, rfl⟩
  intro h
  rw [show loaderTemplateHash c1Template =
        .ok "909be977f2242c68e00a73be20903c225c8ffe7e87fc5ee2fcefd07a0555ba7e" from rfl,
      show compute_template_hash c1Template =
        .ok "f0c1a8021bb8b3db69f4feccf7cae7d7c9d69debbc74885ffb8ea33f232be901" from rfl] at h
  exact absurd (Except.ok.inj h) (by decide)

/-- **C2** (confirmed).  `import_projection` raises
`ProjectionImportError` on every input, and an import attempt leaves the
session, template and analysis-unit tables untouched (identical
contents, hence identical row counts). -/
theorem claim2_import_projection_always_fails (bytes : String) (st : Store) :
    import_projection bytes = .error .importProhibited ∧
    (importProjectionAttempt st bytes).1 = .error .importProhibited ∧
    (importProjectionAttempt st bytes).2.sessions = st.sessions ∧
    (importProjectionAttempt st bytes).2.templates = st.templates ∧
    (importProjectionAttempt st bytes).2.subsessions = st.subsessions :=
  ⟨rfl, rfl, rfl, rfl, rfl⟩

/-- **C3** (code bug evidence).  The claim states that `canonicalize`
rejects NaN and ±Infinity with a validation error before producing any
output.  Instead, a NaN value flows through `_format_decimal` and is
emitted as a bare `NaN` token in the output, and ±Infinity crashes with
`OverflowError` from `int(Decimal("Infinity"))` rather than being
rejected by validation. -/
theorem claim3_nan_emitted_not_rejected :
    canonicalize (.dict [("v", .num .nan)]) = .ok "\x7b\"v\":NaN\x7d" ∧
    canonicalize (.dict [("v", .num (.inf false))]) = .error .overflow ∧
    canonicalize (.dict [("v", .num (.inf true))]) = .error .overflow :=
  ⟨rfl, rfl, rfl⟩

end Raid

namespace Raid

/-- **C7** (confirmed, schema modelled from the spec).
`insertAnalysisUnit` rejects invalid units: a missing referenced session
or template fails with a referential error, and (with references and
uniqueness satisfied) a count-sum mismatch or an inconsistent
percentage/validity pairing fails with a domain-invariant error; in
every failing case the store is returned unchanged, so no row is
inserted. -/
theorem claim7_insert_subsession_rejects_invalid (st : Store)
    (r : SubsessionRow) :
    ((alookup st.sessions r.session_id = none ∨
      alookup st.templates r.kpi_template_hash = none) →
      insertSubsessionAttempt st r = (.error .referential, st)) ∧
    (alookup st.sessions r.session_id ≠ none →
     alookup st.templates r.kpi_template_hash ≠ none →
     subsessionTripleExists st r = false →
     (r.a_count + r.b_count + r.c_count ≠ r.shot_count ∨
      pctPairingInconsistent r = true) →
      insertSubsessionAttempt st r = (.error .domainInvariant, st)) := by
  constructor
  · rintro (h | h)
    · simp [insertSubsessionAttempt, insertSubsession, h]
    · by_cases hs : (alookup st.sessions r.session_id).isNone
      · simp [insertSubsessionAttempt, insertSubsession, hs]
      · simp [insertSubsessionAttempt, insertSubsession, hs, h]
  · intro hs ht hdup hbad
    have hs' : (alookup st.sessions r.session_id).isNone = false := by
      simp only [Option.isNone_eq_false_iff, Option.isSome_iff_ne_none]
      exact hs
    have ht' : (alookup st.templates r.kpi_template_hash).isNone = false := by
      simp only [Option.isNone_eq_false_iff, Option.isSome_iff_ne_none]
      exact ht
    rcases hbad with h | h
    · simp [insertSubsessionAttempt, insertSubsession, hs', ht', hdup, h]
    · by_cases hsum : r.a_count + r.b_count + r.c_count = r.shot_count
      · simp [insertSubsessionAttempt, insertSubsession, hs', ht', hdup, hsum, h]
      · simp [insertSubsessionAttempt, insertSubsession, hs', ht', hdup, hsum]

/-- Witness for C7 at concrete inputs: a unit referencing a missing
session, a unit with `10+8+2 ≠ 21`... (counts not summing), and a unit
pairing a non-null percentage with the insufficient tier; each attempt
fails and leaves the store unchanged. -/
theorem claim7_insert_subsession_rejects_invalid_witness :
    insertSubsessionAttempt wStore wSubBadFk = (.error .referential, wStore) ∧
    insertSubsessionAttempt wStore wSubBadSum = (.error .domainInvariant, wStore) ∧
    insertSubsessionAttempt wStore wSubBadPct = (.error .domainInvariant, wStore) := by
  refine ⟨(claim7_insert_subsession_rejects_invalid wStore wSubBadFk).1
      (Or.inl (by decide)),
    (claim7_insert_subsession_rejects_invalid wStore wSubBadSum).2
      (by decide) (by decide) (by decide) (Or.inl (by decide)),
    (claim7_insert_subsession_rejects_invalid wStore wSubBadPct).2
      (by decide) (by decide) (by decide) (Or.inr (by decide))⟩

/-- **C8** (confirmed).  The template-insert path is idempotent: when
the hash already exists, the step is a no-op that reports the existing
hash (no error is possible: the outcome type has no error case), the
store — in particular the existing row — is unchanged; and in the
insert case the row is stored under exactly the caller-supplied hash
with the caller-supplied content, the store never recomputing a hash
(the hash argument is arbitrary and unconstrained by the content). -/
theorem claim8_insert_template_idempotent (st : Store) (h : String)
    (row existingRow : TemplateRow)
    (hex : alookup st.templates h = some existingRow) :
    loadTemplateStep st h row = ((h, .existing), st) ∧
    alookup (loadTemplateStep st h row).2.templates h = some existingRow ∧
    ∀ (st' : Store) (h' : String) (row' : TemplateRow),
      alookup st'.templates h' = none →
      loadTemplateStep st' h' row' =
        ((h', .inserted),
         { st' with templates := st'.templates ++ [(h', row')] }) := by
  refine ⟨?_, ?_, ?_⟩
  · simp [loadTemplateStep, getTemplate, hex]
  · simp [loadTemplateStep, getTemplate, hex]
  · intro st' h' row' habs
    simp [loadTemplateStep, getTemplate, habs]

/-- Witness for C8: re-loading the template stored under `"aaaa"` is a
no-op returning `existing`, and inserting under a fresh hash stores the
row under exactly that hash. -/
theorem claim8_insert_template_idempotent_witness :
    loadTemplateStep wStore "aaaa" wTemplateRow = (("aaaa", .existing), wStore) ∧
    alookup (loadTemplateStep wStore "aaaa" wTemplateRow).2.templates "aaaa" =
      some wTemplateRow ∧
    loadTemplateStep wStore "bbbb" wTemplateRow =
      (("bbbb", .inserted),
       { wStore with templates := wStore.templates ++ [("bbbb", wTemplateRow)] }) := by
  have h := claim8_insert_template_idempotent wStore "aaaa" wTemplateRow
    wTemplateRow (by decide)
  exact ⟨h.1, h.2.1, h.2.2 wStore "bbbb" wTemplateRow (by decide)⟩

/-- **C6 counterexample**.  The claim grades every template-defined
metric, with a missing observed value counting as C.  Here the template
defines the single metric `club_head_speed` under `worst_metric`
aggregation and the observation reports no value for it, so the claim
requires overall grade C; the code skips any metric name outside its
four-name `metric_field_map` and returns A. -/
theorem claim6_unsupported_metric_skipped_counterexample :
    classifyShot c6Shot c6Template = .ok .A ∧ Grade.A ≠ Grade.C :=
  ⟨rfl, by decide⟩

end Raid

namespace Raid

/-- `metric_field_map` maps each supported name to itself. -/
theorem metricFieldMap_self (name f : String)
    (h : alookup metricFieldMap name = some f) : f = name := by
  simp only [metricFieldMap, alookup] at h
  split at h
  · cases h; simp_all
  · split at h
    · cases h; simp_all
    · split at h
      · cases h; simp_all
      · split at h
        · cases h; simp_all
        · cases h

/-- C forces the worse-of to C. -/
theorem gradeMax_C (w : Grade) : gradeMax w .C = .C := by
  cases w <;> rfl

/-- The loop's running update equals the worse-of. -/
theorem worstUpdate_eq_gradeMax (w g : Grade) :
    worstUpdate w g = gradeMax w g := by
  cases w <;> cases g <;> rfl

/-- Unfolding of the retained-entry case of `perMetricGrades`. -/
theorem perMetricGrades_cons_keep (shot : Shot) (m : String × Thresholds)
    (rest : List (String × Thresholds))
    (hmap : (alookup metricFieldMap m.1).isSome = true) :
    perMetricGrades shot (m :: rest) =
      (metricGrade shot m).bind fun g =>
        (perMetricGrades shot rest).map fun gs => g :: gs := by
  simp only [perMetricGrades, List.filter_cons, hmap, if_true, metricGrades]
  cases metricGrade shot m with
  | error e => rfl
  | ok g =>
    cases metricGrades shot (rest.filter fun m => (alookup metricFieldMap m.1).isSome) with
    | error e => rfl
    | ok gs => rfl

/-- Dropped-entry case of `perMetricGrades`. -/
theorem perMetricGrades_cons_drop (shot : Shot) (m : String × Thresholds)
    (rest : List (String × Thresholds))
    (hmap : (alookup metricFieldMap m.1).isSome = false) :
    perMetricGrades shot (m :: rest) = perMetricGrades shot rest := by
  simp only [perMetricGrades, List.filter_cons, hmap, if_false]
  rfl

/-- The classification loop computes the fold of the per-metric grades
over the running worst grade. -/
theorem classifyLoop_eq (shot : Shot) :
    ∀ (ms : List (String × Thresholds)) (worst : Grade),
      classifyLoop shot ms worst =
        (perMetricGrades shot ms).map (fun gs => gs.foldl gradeMax worst) := by
  intro ms
  induction ms with
  | nil => intro worst; rfl
  | cons m rest ih =>
    intro worst
    obtain ⟨name, thr⟩ := m
    cases hmap : alookup metricFieldMap name with
    | none =>
      rw [classifyLoop, hmap,
        perMetricGrades_cons_drop shot (name, thr) rest (by simp [hmap])]
      exact ih worst
    | some f =>
      have hf : f = name := metricFieldMap_self name f hmap
      subst hf
      rw [classifyLoop, hmap,
        perMetricGrades_cons_keep shot (f, thr) rest (by simp [hmap])]
      cases hv : alookup shot f with
      | none =>
        have hg : metricGrade shot (f, thr) = .ok .C := by
          simp [metricGrade, hv]
        simp only [hv]
        rw [ih, hg]
        cases hrest : perMetricGrades shot rest with
        | ok gs => simp [Except.map, Except.bind, gradeMax_C]
        | error e => simp [Except.map, Except.bind]
      | some v =>
        have hg : metricGrade shot (f, thr) = gradeMetric v thr := by
          simp [metricGrade, hv]
        simp only [hv]
        rw [hg]
        cases hgr : gradeMetric v thr with
        | ok g =>
          rw [show (do
              let g2 ← (Except.ok g : Except ClassifyErr Grade)
              classifyLoop shot rest (worstUpdate worst g2)) =
            classifyLoop shot rest (worstUpdate worst g) from rfl, ih]
          cases hrest : perMetricGrades shot rest with
          | ok gs => simp [Except.map, Except.bind, worstUpdate_eq_gradeMax]
          | error e => simp [Except.map, Except.bind]
        | error e => rfl

/-- Agreement on the template's metric names fixes the per-metric
grades. -/
theorem perMetricGrades_congr (shot shot' : Shot)
    (ms : List (String × Thresholds))
    (h : ∀ m ∈ ms, alookup shot' m.1 = alookup shot m.1) :
    perMetricGrades shot' ms = perMetricGrades shot ms := by
  induction ms with
  | nil => rfl
  | cons m rest ih =>
    have hm := h m (List.mem_cons_self m rest)
    have hrest := ih fun x hx => h x (List.mem_cons_of_mem m hx)
    simp only [perMetricGrades, List.filter_cons] at hrest ⊢
    cases hmap : (alookup metricFieldMap m.1).isSome with
    | false => simpa [hmap] using hrest
    | true =>
      have hgr : metricGrade shot' m = metricGrade shot m := by
        simp [metricGrade, hm]
      simp [hmap, metricGrades, hgr, hrest]

/-- **C6 amended** (corrected).  For a template using `worst_metric`
aggregation, `classify` returns the worst (C dominates B dominates A)
individual grade over the template's metrics **that bear one of the
four supported names** (`ball_speed`, `smash_factor`, `spin_rate`,
`descent_angle`); among those, a metric with no observed value grades C
rather than being skipped, while template metrics with other names are
skipped entirely; and observation metrics not defined in the template
never affect the grade. -/
theorem claim6_worst_metric_over_supported_metrics (shot : Shot)
    (t : ClassifyTemplate)
    (hAgg : t.aggregation_method.getD "worst_metric" = "worst_metric") :
    classifyShot shot t =
      (perMetricGrades shot t.metrics).map (fun gs => gs.foldl gradeMax .A) ∧
    ∀ shot' : Shot,
      (∀ m ∈ t.metrics, alookup shot' m.1 = alookup shot m.1) →
      classifyShot shot' t = classifyShot shot t := by
  constructor
  · simp [classifyShot, hAgg, classifyLoop_eq]
  · intro shot' hagree
    simp [classifyShot, hAgg, classifyLoop_eq,
      perMetricGrades_congr shot shot' t.metrics hagree]

/-- Witness for the C6 amended claim: a two-metric `worst_metric`
template (no explicit aggregation tag, defaulting to `worst_metric`)
and an observation with `ball_speed = 95` (grade B) and no
`smash_factor` (grade C): the overall grade is the worst, C. -/
theorem claim6_worst_metric_over_supported_metrics_witness :
    (c6WitnessTemplate.aggregation_method.getD "worst_metric" = "worst_metric") ∧
    classifyShot c6WitnessShot c6WitnessTemplate =
      (perMetricGrades c6WitnessShot c6WitnessTemplate.metrics).map
        (fun gs => gs.foldl gradeMax .A) ∧
    classifyShot c6WitnessShot c6WitnessTemplate = .ok .C := by
  refine ⟨by decide, (claim6_worst_metric_over_supported_metrics
    c6WitnessShot c6WitnessTemplate (by decide)).1, rfl⟩

end Raid

namespace Raid

/-! ### Order theory for the Python string comparison -/

theorem char_toNat_inj {a b : Char} (h : a.toNat = b.toNat) : a = b := by
  rw [← Char.ofNat_toNat a, ← Char.ofNat_toNat b, h]

theorem lexLt_irrefl : ∀ l : List Char, lexLt l l = false := by
  intro l
  induction l with
  | nil => rfl
  | cons a as ih => simp [lexLt, ih]

theorem lexLt_asymm : ∀ a b : List Char,
    lexLt a b = true → lexLt b a = false := by
  intro a
  induction a with
  | nil => intro b _; cases b <;> rfl
  | cons x xs ih =>
    intro b h
    cases b with
    | nil => simp [lexLt] at h
    | cons y ys =>
      simp only [lexLt, Bool.or_eq_true, Bool.and_eq_true, beq_iff_eq,
        decide_eq_true_eq] at h ⊢
      simp only [Bool.or_eq_false_iff, Bool.and_eq_false_iff,
        decide_eq_false_iff_not]
      rcases h with h | ⟨he, h⟩
      · constructor
        · omega
        · left; simp; omega
      · constructor
        · omega
        · right; exact ih ys h

theorem lexLt_connex : ∀ a b : List Char,
    lexLt a b = false → lexLt b a = false → a = b := by
  intro a
  induction a with
  | nil =>
    intro b h _
    cases b with
    | nil => rfl
    | cons y ys => simp [lexLt] at h
  | cons x xs ih =>
    intro b h h'
    cases b with
    | nil => simp [lexLt] at h'
    | cons y ys =>
      simp only [lexLt, Bool.or_eq_false_iff, Bool.and_eq_false_iff,
        decide_eq_false_iff_not, beq_eq_false_iff_ne, ne_eq] at h h'
      obtain ⟨h1, h2⟩ := h
      obtain ⟨h1', h2'⟩ := h'
      have hx : x.toNat = y.toNat := by omega
      have hxy : x = y := char_toNat_inj hx
      subst hxy
      rcases h2 with h2 | h2
      · omega
      · rcases h2' with h2' | h2'
        · omega
        · rw [ih ys h2 h2']

theorem lexLt_trans : ∀ a b c : List Char,
    lexLt a b = true → lexLt b c = true → lexLt a c = true := by
  intro a
  induction a with
  | nil =>
    intro b c h h'
    cases b with
    | nil => simp [lexLt] at h
    | cons y ys => cases c with
      | nil => simp [lexLt] at h'
      | cons z zs => rfl
  | cons x xs ih =>
    intro b c h h'
    cases b with
    | nil => simp [lexLt] at h
    | cons y ys =>
      cases c with
      | nil => simp [lexLt] at h'
      | cons z zs =>
        simp only [lexLt, Bool.or_eq_true, Bool.and_eq_true, beq_iff_eq,
          decide_eq_true_eq] at h h' ⊢
        rcases h with h | ⟨he, h⟩
        · rcases h' with h' | ⟨he', h'⟩
          · left; omega
          · left; omega
        · rcases h' with h' | ⟨he', h'⟩
          · left; omega
          · right; exact ⟨by omega, ih ys zs h h'⟩

/-- Totality of the string order: if `a ≤ b` fails then `b ≤ a`. -/
theorem keyLe_total {a b : String} (h : keyLe a b = false) :
    keyLe b a = true := by
  have h2 : lexLt b.toList a.toList = true := by
    revert h; unfold keyLe; cases lexLt b.toList a.toList <;> simp
  unfold keyLe
  rw [lexLt_asymm _ _ h2]
  rfl

/-- Reflexivity. -/
theorem keyLe_refl (a : String) : keyLe a a = true := by
  unfold keyLe
  rw [lexLt_irrefl]
  rfl

/-- Antisymmetry of the string order. -/
theorem keyLe_antisymm {a b : String} (h : keyLe a b = true)
    (h' : keyLe b a = true) : a = b := by
  have h2 : lexLt b.toList a.toList = false := by
    revert h; unfold keyLe; cases lexLt b.toList a.toList <;> simp
  have h2' : lexLt a.toList b.toList = false := by
    revert h'; unfold keyLe; cases lexLt a.toList b.toList <;> simp
  exact String.toList_inj.mp (lexLt_connex _ _ h2' h2)

/-- Transitivity of the string order. -/
theorem keyLe_trans {a b c : String} (h : keyLe a b = true)
    (h' : keyLe b c = true) : keyLe a c = true := by
  have h2 : lexLt b.toList a.toList = false := by
    revert h; unfold keyLe; cases lexLt b.toList a.toList <;> simp
  have h2' : lexLt c.toList b.toList = false := by
    revert h'; unfold keyLe; cases lexLt c.toList b.toList <;> simp
  have hgoal : lexLt c.toList a.toList = false := by
    cases hca : lexLt c.toList a.toList with
    | false => rfl
    | true =>
      exfalso
      cases hbc : lexLt b.toList c.toList with
      | false =>
        have hb : b = c := String.toList_inj.mp (lexLt_connex _ _ hbc h2')
        subst hb
        rw [hca] at h2; cases h2
      | true =>
        have := lexLt_trans _ _ _ hbc hca
        rw [this] at h2; cases h2
  unfold keyLe
  rw [hgoal]
  rfl

end Raid

namespace Raid

/-! ### Sorting lemmas for the trend pipeline -/

theorem insertByDate_perm (x : TrendDataPoint) :
    ∀ l : List TrendDataPoint, (insertByDate x l).Perm (x :: l) := by
  intro l
  induction l with
  | nil => simp [insertByDate]
  | cons y rest ih =>
    unfold insertByDate
    split
    · exact ((ih.cons y).trans (List.Perm.swap x y rest)).symm.symm
    · exact List.Perm.refl _

theorem mem_insertByDate {z x : TrendDataPoint} {l : List TrendDataPoint}
    (h : z ∈ insertByDate x l) : z = x ∨ z ∈ l := by
  have := (insertByDate_perm x l).mem_iff.mp h
  simpa using this

theorem insertByDate_sorted (x : TrendDataPoint) :
    ∀ l : List TrendDataPoint, l.Pairwise dateLe →
      (insertByDate x l).Pairwise dateLe := by
  intro l
  induction l with
  | nil => intro _; simp [insertByDate, List.Pairwise]
  | cons y rest ih =>
    intro hs
    rw [List.pairwise_cons] at hs
    obtain ⟨hy, hrest⟩ := hs
    unfold insertByDate
    split
    · rename_i hyx
      rw [List.pairwise_cons]
      refine ⟨?_, ih hrest⟩
      intro z hz
      rcases mem_insertByDate hz with rfl | hz
      · exact hyx
      · exact hy z hz
    · rename_i hyx
      have hxy : keyLe x.session_date y.session_date = true :=
        keyLe_total (by revert hyx; cases keyLe y.session_date x.session_date <;> simp)
      rw [List.pairwise_cons]
      constructor
      · intro z hz
        rcases List.mem_cons.mp hz with rfl | hz
        · exact hxy
        · exact keyLe_trans hxy (hy z hz)
      · exact List.pairwise_cons.mpr ⟨hy, hrest⟩

theorem sortByDate_perm (l : List TrendDataPoint) :
    (sortByDate l).Perm l := by
  suffices h : ∀ (l acc : List TrendDataPoint),
      (l.foldl (fun acc x => insertByDate x acc) acc).Perm (acc ++ l) by
    simpa using h l []
  intro l
  induction l with
  | nil => intro acc; simp
  | cons x xs ih =>
    intro acc
    have h1 : (List.foldl (fun acc x => insertByDate x acc) (insertByDate x acc) xs).Perm
        ((insertByDate x acc) ++ xs) := ih (insertByDate x acc)
    have h2 : ((insertByDate x acc) ++ xs).Perm ((x :: acc) ++ xs) :=
      (insertByDate_perm x acc).append_right xs
    have h3 : ((x :: acc) ++ xs).Perm (acc ++ (x :: xs)) := by
      rw [List.cons_append]
      exact List.perm_middle.symm
    simpa [List.foldl_cons] using (h1.trans h2).trans h3

theorem sortByDate_sorted (l : List TrendDataPoint) :
    (sortByDate l).Pairwise dateLe := by
  suffices h : ∀ (l acc : List TrendDataPoint), acc.Pairwise dateLe →
      (l.foldl (fun acc x => insertByDate x acc) acc).Pairwise dateLe by
    exact h l [] (by simp)
  intro l
  induction l with
  | nil => intro acc hacc; simpa using hacc
  | cons x xs ih =>
    intro acc hacc
    exact ih (insertByDate x acc) (insertByDate_sorted x acc hacc)

/-! ### The deduplicated date list -/

theorem mem_insertDateSet {x d : String} {l : List String} :
    x ∈ insertDateSet d l ↔ x = d ∨ x ∈ l := by
  induction l with
  | nil => simp [insertDateSet]
  | cons y rest ih =>
    unfold insertDateSet
    split
    · rename_i hdy
      subst hdy
      constructor
      · intro h; right; exact h
      · rintro (rfl | h)
        · exact List.mem_cons_self _ _
        · exact h
    · split
      · rename_i hdy hyd
        constructor
        · intro h
          rcases List.mem_cons.mp h with rfl | h
          · right; exact List.mem_cons_self _ _
          · rcases ih.mp h with h | h
            · left; exact h
            · right; exact List.mem_cons_of_mem _ h
        · rintro (rfl | h)
          · exact List.mem_cons_of_mem _ (ih.mpr (Or.inl rfl))
          · rcases List.mem_cons.mp h with rfl | h
            · exact List.mem_cons_self _ _
            · exact List.mem_cons_of_mem _ (ih.mpr (Or.inr h))
      · simp [List.mem_cons]

theorem insertDateSet_sorted (d : String) :
    ∀ l : List String, l.Pairwise dateLt →
      (insertDateSet d l).Pairwise dateLt := by
  intro l
  induction l with
  | nil => intro _; simp [insertDateSet, dateLt, List.Pairwise]
  | cons y rest ih =>
    intro hs
    rw [List.pairwise_cons] at hs
    obtain ⟨hy, hrest⟩ := hs
    unfold insertDateSet
    split
    · rename_i hdy
      exact List.pairwise_cons.mpr ⟨hy, hrest⟩
    · split
      · rename_i hdy hyd
        rw [List.pairwise_cons]
        refine ⟨?_, ih hrest⟩
        intro z hz
        rcases mem_insertDateSet.mp hz with rfl | hz
        · exact ⟨hyd, fun hc => hdy hc.symm⟩
        · exact hy z hz
      · rename_i hdy hyd
        have hdyle : keyLe d y = true :=
          keyLe_total (by revert hyd; cases keyLe y d <;> simp)
        rw [List.pairwise_cons]
        constructor
        · intro z hz
          rcases List.mem_cons.mp hz with rfl | hz
          · exact ⟨hdyle, hdy⟩
          · have hyz := hy z hz
            refine ⟨keyLe_trans hdyle hyz.1, ?_⟩
            rintro rfl
            exact hyz.2 (keyLe_antisymm hyz.1 hdyle)
        · exact List.pairwise_cons.mpr ⟨hy, hrest⟩

theorem sortedDateSet_spec (pts : List TrendDataPoint) :
    (sortedDateSet pts).Pairwise dateLt ∧
    ∀ x, x ∈ sortedDateSet pts ↔ ∃ dp ∈ pts, dp.session_date = x := by
  suffices h : ∀ (l : List TrendDataPoint) (acc : List String),
      acc.Pairwise dateLt →
      (l.foldl (fun acc dp => insertDateSet dp.session_date acc) acc).Pairwise dateLt ∧
      ∀ x, x ∈ l.foldl (fun acc dp => insertDateSet dp.session_date acc) acc ↔
        (∃ dp ∈ l, dp.session_date = x) ∨ x ∈ acc by
    have := h pts [] (by simp)
    constructor
    · simpa [sortedDateSet] using this.1
    · intro x
      have h2 := this.2 x
      simpa [sortedDateSet] using h2
  intro l
  induction l with
  | nil => intro acc hacc; simpa using hacc
  | cons dp rest ih =>
    intro acc hacc
    have := ih (insertDateSet dp.session_date acc)
      (insertDateSet_sorted dp.session_date acc hacc)
    refine ⟨this.1, fun x => ?_⟩
    rw [List.foldl_cons, (this.2 x), mem_insertDateSet]
    constructor
    · rintro (⟨dp', hdp', rfl⟩ | (rfl | hx))
      · exact Or.inl ⟨dp', List.mem_cons_of_mem _ hdp', rfl⟩
      · exact Or.inl ⟨dp, List.mem_cons_self _ _, rfl⟩
      · exact Or.inr hx
    · rintro (⟨dp', hdp', rfl⟩ | hx)
      · rcases List.mem_cons.mp hdp' with rfl | hdp'
        · exact Or.inr (Or.inl rfl)
        · exact Or.inl ⟨dp', hdp', rfl⟩
      · exact Or.inr (Or.inr hx)

end Raid

namespace Raid

/-- **C9** (confirmed).  For a club with at least one unit passing the
tier filter, `trend` with `window = N` sorts the retained units
ascending by session timestamp; `dates` below is the strictly ascending
enumeration of their distinct session timestamps, so `dates[len-N]` is
the timestamp of the `N`-th most recent distinct session timestamp.
With more than `N` distinct timestamps the result keeps exactly the
units dated on or after that cutoff (all units tying on a timestamp
kept together); with at most `N` distinct timestamps every unit is
kept. -/
theorem claim9_trend_windowing (st : Store) (club minValidity : String)
    (n : Nat) (hn : 0 < n)
    (hne : listSubsessionsByClub st club minValidity ≠ []) :
    ∃ r : TrendResult,
      computeClubTrend st club minValidity (some n) = .ok r ∧
      (let pts := sortByDate (trendJoin st (listSubsessionsByClub st club minValidity))
       let dates := sortedDateSet pts
       pts.Perm (trendJoin st (listSubsessionsByClub st club minValidity)) ∧
       pts.Pairwise dateLe ∧
       dates.Pairwise dateLt ∧
       (∀ x, x ∈ dates ↔ ∃ dp ∈ pts, dp.session_date = x) ∧
       (if dates.length ≤ n then r.data_points = pts
        else r.data_points =
          pts.filter fun dp =>
            keyLe (dates.getD (dates.length - n) "") dp.session_date) ∧
       r.data_points.Pairwise dateLe) := by
  have hwin :
      ∀ pts : List TrendDataPoint,
        applyWindow (some n) pts =
          if (sortedDateSet pts).length ≤ n then pts
          else pts.filter fun dp =>
            keyLe ((sortedDateSet pts).getD ((sortedDateSet pts).length - n) "")
              dp.session_date := by
    intro pts
    rw [show applyWindow (some n) pts =
        (if n = 0 then pts
         else
           let dates := sortedDateSet pts
           if n < dates.length then
             let cutoff := dates.getD (dates.length - n) ""
             pts.filter fun dp => keyLe cutoff dp.session_date
           else pts) from rfl]
    rw [if_neg (Nat.pos_iff_ne_zero.mp hn)]
    rcases Nat.lt_or_ge n (sortedDateSet pts).length with hlt | hge
    · simp only []
      rw [if_pos hlt, if_neg (by omega)]
    · simp only []
      rw [if_neg (by omega), if_pos (by omega)]
  cases hcomp : computeClubTrend st club minValidity (some n) with
  | error e =>
    exfalso
    simp only [computeClubTrend] at hcomp
    rw [if_neg hne] at hcomp
    cases hcomp
  | ok r =>
    have hcomp' := hcomp
    simp only [computeClubTrend] at hcomp'
    rw [if_neg hne] at hcomp'
    have hrec := Except.ok.inj hcomp'
    refine ⟨r, rfl, ?_⟩
    intro pts dates
    have hdata : r.data_points =
        applyWindow (some n)
          (sortByDate (trendJoin st (listSubsessionsByClub st club minValidity))) := by
      rw [← hrec]
    refine ⟨sortByDate_perm _, sortByDate_sorted _,
      (sortedDateSet_spec pts).1, (sortedDateSet_spec pts).2, ?_, ?_⟩
    · rw [hdata, hwin]
      split
      · rfl
      · rfl
    · rw [hdata, hwin]
      split
      · exact sortByDate_sorted _
      · exact List.Pairwise.filter _ (sortByDate_sorted _)

end Raid

namespace Raid

/-! ### Sorting lemmas for `sortByKey` (C5) -/

theorem insertByKey_perm (p : String × CValue) :
    ∀ l, (insertByKey p l).Perm (p :: l) := by
  intro l
  induction l with
  | nil => simp [insertByKey]
  | cons q rest ih =>
    unfold insertByKey
    split
    · exact List.Perm.refl _
    · exact (ih.cons q).trans (List.Perm.swap p q rest)

theorem mem_insertByKey {z p : String × CValue} {l : List (String × CValue)}
    (h : z ∈ insertByKey p l) : z = p ∨ z ∈ l := by
  have := (insertByKey_perm p l).mem_iff.mp h
  simpa using this

theorem insertByKey_sorted (p : String × CValue) :
    ∀ l, l.Pairwise entryLe → (insertByKey p l).Pairwise entryLe := by
  intro l
  induction l with
  | nil => intro _; simp [insertByKey, entryLe, List.Pairwise]
  | cons q rest ih =>
    intro hs
    rw [List.pairwise_cons] at hs
    obtain ⟨hq, hrest⟩ := hs
    unfold insertByKey
    split
    · rename_i hpq
      rw [List.pairwise_cons]
      constructor
      · intro z hz
        rcases List.mem_cons.mp hz with rfl | hz
        · exact hpq
        · exact keyLe_trans hpq (hq z hz)
      · exact List.pairwise_cons.mpr ⟨hq, hrest⟩
    · rename_i hpq
      have hqp : keyLe q.1 p.1 = true :=
        keyLe_total (by revert hpq; cases keyLe p.1 q.1 <;> simp)
      rw [List.pairwise_cons]
      refine ⟨?_, ih hrest⟩
      intro z hz
      rcases mem_insertByKey hz with rfl | hz
      · exact hqp
      · exact hq z hz

theorem sortByKey_perm : ∀ l, (sortByKey l).Perm l := by
  intro l
  induction l with
  | nil => simp [sortByKey]
  | cons p rest ih =>
    exact (insertByKey_perm p (sortByKey rest)).trans (ih.cons p)

theorem sortByKey_sorted : ∀ l, (sortByKey l).Pairwise entryLe := by
  intro l
  induction l with
  | nil => simp [sortByKey, List.Pairwise]
  | cons p rest ih => exact insertByKey_sorted p (sortByKey rest) ih

/-- Two key-sorted permutations with duplicate-free keys are equal. -/
theorem sortByKey_eq_of_perm {l1 l2 : List (String × CValue)}
    (hperm : l1.Perm l2) (hnd : (l1.map Prod.fst).Nodup) :
    sortByKey l1 = sortByKey l2 := by
  haveI : IsAntisymm (String × CValue) entryLt :=
    ⟨fun a b hab hba => absurd (keyLe_antisymm hab.1 hba.1) hab.2⟩
  have hp : (sortByKey l1).Perm (sortByKey l2) :=
    ((sortByKey_perm l1).trans hperm).trans (sortByKey_perm l2).symm
  have hnd1 : ((sortByKey l1).map Prod.fst).Nodup :=
    (((sortByKey_perm l1).map Prod.fst).nodup_iff).mpr hnd
  have hndl2 : (l2.map Prod.fst).Nodup := ((hperm.map Prod.fst).nodup_iff).mp hnd
  have hnd2 : ((sortByKey l2).map Prod.fst).Nodup :=
    (((sortByKey_perm l2).map Prod.fst).nodup_iff).mpr hndl2
  have hs1 : (sortByKey l1).Pairwise entryLt := by
    have hne := List.pairwise_map.mp hnd1
    exact ((sortByKey_sorted l1).and hne).imp fun h => ⟨h.1, h.2⟩
  have hs2 : (sortByKey l2).Pairwise entryLt := by
    have hne := List.pairwise_map.mp hnd2
    exact ((sortByKey_sorted l2).and hne).imp fun h => ⟨h.1, h.2⟩
  exact List.eq_of_perm_of_sorted hp hs1 hs2

end Raid

namespace Raid

/-! ### Canonicalization and permutation (C5) -/

theorem exceptMap_ok {α β : Type} (f : α → β) (a : α) :
    (Except.ok a : Except PyErr α).map f = .ok (f a) := rfl

theorem exceptMap_err {α β : Type} (f : α → β) (e : PyErr) :
    (Except.error e : Except PyErr α).map f = .error e := rfl

/-- The only possible error is the overflow from ±Infinity. -/
theorem exceptCases {α : Type} (r : Except PyErr α) :
    r = .error .overflow ∨ ∃ c, r = .ok c := by
  cases r with
  | error e => cases e; exact Or.inl rfl
  | ok c => exact Or.inr ⟨c, rfl⟩

theorem canonEntries_cons_err {k : String} {v : Value}
    {l : List (String × Value)} (h : canonValue v = .error .overflow) :
    canonEntries ((k, v) :: l) = .error .overflow := by
  unfold canonEntries
  rw [h]
  rfl

theorem canonEntries_cons_ok {k : String} {v : Value} {cv : CValue}
    {l : List (String × Value)} (h : canonValue v = .ok cv) :
    canonEntries ((k, v) :: l) =
      (canonEntries l).map fun c => (k, cv) :: c := by
  cases hl : canonEntries l with
  | error e =>
    unfold canonEntries
    rw [h, hl]
    rfl
  | ok c =>
    unfold canonEntries
    rw [h, hl]
    rfl

theorem canonList_cons_err {v : Value} {l : List Value}
    (h : canonValue v = .error .overflow) :
    canonList (v :: l) = .error .overflow := by
  unfold canonList
  rw [h]
  rfl

theorem canonList_cons_ok {v : Value} {cv : CValue} {l : List Value}
    (h : canonValue v = .ok cv) :
    canonList (v :: l) = (canonList l).map fun c => cv :: c := by
  cases hl : canonList l with
  | error e =>
    unfold canonList
    rw [h, hl]
    rfl
  | ok c =>
    unfold canonList
    rw [h, hl]
    rfl

theorem canonValue_list (xs : List Value) :
    canonValue (.list xs) = (canonList xs).map .list := by
  cases h : canonList xs with
  | error e =>
    unfold canonValue
    rw [h]
    rfl
  | ok c =>
    unfold canonValue
    rw [h]
    rfl

theorem canonValue_dict (l : List (String × Value)) :
    canonValue (.dict l) = (canonEntries l).map .dict := by
  cases h : canonEntries l with
  | error e =>
    unfold canonValue
    rw [h]
    rfl
  | ok c =>
    unfold canonValue
    rw [h]
    rfl

/-- `canonSortEntries` is a per-entry map. -/
theorem canonSortEntries_eq_map (l : List (String × CValue)) :
    canonSortEntries l = l.map fun p => (p.1, canonSort p.2) := by
  induction l with
  | nil => rfl
  | cons p rest ih =>
    obtain ⟨k, v⟩ := p
    simp [canonSortEntries, ih]

/-- `canonEntries` preserves the key sequence. -/
theorem canonEntries_keys :
    ∀ {l : List (String × Value)} {c : List (String × CValue)},
      canonEntries l = .ok c → c.map Prod.fst = l.map Prod.fst := by
  intro l
  induction l with
  | nil => intro c h; cases h; rfl
  | cons p rest ih =>
    intro c h
    obtain ⟨k, v⟩ := p
    rcases exceptCases (canonValue v) with hv | ⟨cv, hv⟩
    · rw [canonEntries_cons_err hv] at h; cases h
    · rw [canonEntries_cons_ok hv] at h
      cases hrest : canonEntries rest with
      | error e => rw [hrest] at h; cases h
      | ok crest =>
        rw [hrest] at h
        cases h
        simp [ih hrest]

/-- Pointwise-related entry lists have the same key sequence. -/
theorem entriesRel_keys :
    ∀ {l1 l2 : List (String × Value)}, entriesRel l1 l2 →
      l1.map Prod.fst = l2.map Prod.fst := by
  intro l1
  induction l1 with
  | nil => intro l2 h; cases l2 with
    | nil => rfl
    | cons q t => simp [entriesRel] at h
  | cons p rest ih =>
    intro l2 h
    cases l2 with
    | nil => simp [entriesRel] at h
    | cons q t =>
      obtain ⟨hk, _, ht⟩ := h
      simp [hk, ih ht]

/-- `nodupStr` decides `List.Nodup`. -/
theorem nodupStr_iff : ∀ ks : List String, nodupStr ks = true ↔ ks.Nodup := by
  intro ks
  induction ks with
  | nil => simp [nodupStr]
  | cons k rest ih =>
    simp [nodupStr, List.nodup_cons, ih]

/-- Permuting an entry list permutes its canonical image (and preserves
failure). -/
theorem canonEntries_perm {mid l2 : List (String × Value)}
    (hperm : mid.Perm l2) :
    (canonEntries mid = .error .overflow ↔ canonEntries l2 = .error .overflow) ∧
    ∀ cm, canonEntries mid = .ok cm →
      ∃ cl, canonEntries l2 = .ok cl ∧ cm.Perm cl := by
  induction hperm with
  | nil => exact ⟨Iff.rfl, fun cm h => ⟨cm, h, List.Perm.refl _⟩⟩
  | cons p t ih =>
    rename_i la lb
    obtain ⟨k, v⟩ := p
    rcases exceptCases (canonValue v) with hv | ⟨cv, hv⟩
    · rw [canonEntries_cons_err hv, canonEntries_cons_err hv]
      exact ⟨Iff.rfl, fun cm h => by cases h⟩
    · rw [canonEntries_cons_ok hv, canonEntries_cons_ok hv]
      constructor
      · rcases exceptCases (canonEntries la) with ha | ⟨ca, ha⟩ <;>
          rcases exceptCases (canonEntries lb) with hb | ⟨cb, hb⟩
        · simp [ha, hb, exceptMap_err]
        · rw [ih.1] at ha; rw [ha] at hb; cases hb
        · rw [← ih.1] at hb; rw [hb] at ha; cases ha
        · simp [ha, hb, exceptMap_ok]
      · intro cm h
        cases ha : canonEntries la with
        | error e => rw [ha] at h; cases h
        | ok ca =>
          rw [ha] at h
          cases h
          obtain ⟨cb, hb, hpb⟩ := ih.2 ca ha
          exact ⟨(k, cv) :: cb, by rw [hb]; rfl, hpb.cons _⟩
  | swap p q t =>
    obtain ⟨kp, vp⟩ := p
    obtain ⟨kq, vq⟩ := q
    rcases exceptCases (canonValue vp) with hp | ⟨cp, hp⟩ <;>
      rcases exceptCases (canonValue vq) with hq | ⟨cq, hq⟩
    · rw [canonEntries_cons_err hq, canonEntries_cons_err hp]
      exact ⟨Iff.rfl, fun cm h => by cases h⟩
    · rw [canonEntries_cons_ok hq, canonEntries_cons_err hp,
        canonEntries_cons_err hp]
      exact ⟨by simp [exceptMap_err], fun cm h => by simp [exceptMap_err] at h⟩
    · rw [canonEntries_cons_err hq, canonEntries_cons_ok hp,
        canonEntries_cons_err hq]
      exact ⟨by simp [exceptMap_err], fun cm h => by simp [exceptMap_err] at h⟩
    · rw [canonEntries_cons_ok hq, canonEntries_cons_ok hp,
        canonEntries_cons_ok hp, canonEntries_cons_ok hq]
      rcases exceptCases (canonEntries t) with ht | ⟨ct, ht⟩
      · rw [ht]
        exact ⟨by simp [exceptMap_err], fun cm h => by simp [exceptMap_err] at h⟩
      · rw [ht]
        refine ⟨by simp [exceptMap_ok], fun cm h => ?_⟩
        simp only [exceptMap_ok, Except.ok.injEq] at h
        subst h
        exact ⟨(kp, cp) :: (kq, cq) :: ct, by simp [exceptMap_ok],
          List.Perm.swap _ _ _⟩
  | trans h12 h23 ih12 ih23 =>
    constructor
    · exact ih12.1.trans ih23.1
    · intro cm h
      obtain ⟨cb, hb, hpb⟩ := ih12.2 cm h
      obtain ⟨cc, hc, hpc⟩ := ih23.2 cb hb
      exact ⟨cc, hc, hpb.trans hpc⟩

end Raid

namespace Raid

theorem exceptMap_eq_err {α β : Type} {f : α → β} {x : Except PyErr α}
    {e : PyErr} (h : x.map f = .error e) : x = .error e := by
  cases x with
  | error e' => cases h; rfl
  | ok a => cases h

theorem exceptMap_eq_ok {α β : Type} {f : α → β} {x : Except PyErr α}
    {b : β} (h : x.map f = .ok b) : ∃ a, x = .ok a ∧ f a = b := by
  cases x with
  | error e => cases h
  | ok a => exact ⟨a, rfl, Except.ok.inj h⟩

/-- Core of the order-independence proof: permuting a value tree (with
unique mapping keys) leaves the key-sorted canonical tree — and hence
the canonical bytes — unchanged.  Strong induction on the tree size,
with one statement per mutual level. -/
theorem canonPermAux : ∀ n : Nat,
    (∀ v1 v2 : Value, sizeOf v1 ≤ n → ValuePerm v1 v2 →
      nodupKeysV v1 = true →
      Except.map canonSort (canonValue v1) =
        Except.map canonSort (canonValue v2)) ∧
    (∀ xs ys : List Value, sizeOf xs ≤ n → listRel xs ys →
      nodupKeysList xs = true →
      Except.map canonSortList (canonList xs) =
        Except.map canonSortList (canonList ys)) ∧
    (∀ l1 l2 : List (String × Value), sizeOf l1 ≤ n → entriesRel l1 l2 →
      nodupKeysEntries l1 = true →
      Except.map canonSortEntries (canonEntries l1) =
        Except.map canonSortEntries (canonEntries l2)) := by
  intro n
  induction n using Nat.strong_induction_on with
  | _ n ih =>
  refine ⟨?_, ?_, ?_⟩
  · -- value level
    intro v1 v2 hsz hperm hnd
    cases v1 <;> cases v2 <;> simp only [ValuePerm] at hperm
    · rfl
    · subst hperm; rfl
    · subst hperm; rfl
    · subst hperm; rfl
    · -- lists
      rename_i xs ys
      have hsz' : sizeOf xs < n := by
        have h := hsz
        simp only [Value.list.sizeOf_spec] at h
        omega
      have hnd' : nodupKeysList xs = true := by
        simpa [nodupKeysV] using hnd
      have := (ih (sizeOf xs) hsz').2.1 xs ys (Nat.le_refl _) hperm hnd'
      rw [canonValue_list, canonValue_list]
      rcases exceptCases (canonList xs) with hx | ⟨cx, hx⟩
      · rw [hx] at this ⊢
        simp only [exceptMap_err] at this ⊢
        rw [exceptMap_eq_err this.symm]
        rfl
      · rw [hx] at this ⊢
        simp only [exceptMap_ok] at this
        obtain ⟨cy, hy, hcy⟩ := exceptMap_eq_ok this.symm
        rw [hy]
        simp only [exceptMap_ok, canonSort]
        rw [hcy]
    · -- dicts
      rename_i l1 l2
      obtain ⟨mid, hrel, hmid⟩ := hperm
      have hsz' : sizeOf l1 < n := by
        have h := hsz
        simp only [Value.dict.sizeOf_spec] at h
        omega
      simp only [nodupKeysV, Bool.and_eq_true] at hnd
      have E1 := (ih (sizeOf l1) hsz').2.2 l1 mid (Nat.le_refl _) hrel hnd.2
      have hkeys1 : l1.map Prod.fst = mid.map Prod.fst := entriesRel_keys hrel
      rw [canonValue_dict, canonValue_dict]
      rcases exceptCases (canonEntries l1) with h1 | ⟨c1, h1⟩
      · rw [h1] at E1 ⊢
        simp only [exceptMap_err] at E1 ⊢
        have hm := exceptMap_eq_err E1.symm
        have h2 := ((canonEntries_perm hmid).1).mp hm
        rw [h2]
        rfl
      · rw [h1] at E1 ⊢
        simp only [exceptMap_ok] at E1
        obtain ⟨cmid, hm, hcm⟩ := exceptMap_eq_ok E1.symm
        obtain ⟨cl2, h2, hp2⟩ := (canonEntries_perm hmid).2 cmid hm
        rw [h2]
        simp only [exceptMap_ok, canonSort]
        have hsorteq : sortByKey (canonSortEntries c1) =
            sortByKey (canonSortEntries cl2) := by
          rw [← hcm]
          apply sortByKey_eq_of_perm
          · rw [canonSortEntries_eq_map, canonSortEntries_eq_map]
            exact hp2.map _
          · rw [canonSortEntries_eq_map]
            have : ((canonSortEntries cmid).map Prod.fst) = l1.map Prod.fst := by
              rw [canonSortEntries_eq_map]
              have h3 := canonEntries_keys hm
              calc ((cmid.map fun p => (p.1, canonSort p.2)).map Prod.fst)
                  = cmid.map Prod.fst := by
                    rw [List.map_map]
                    rfl
                _ = mid.map Prod.fst := h3
                _ = l1.map Prod.fst := hkeys1.symm
            rw [← canonSortEntries_eq_map, this]
            exact (nodupStr_iff _).mp hnd.1
        rw [hsorteq]
  · -- list level
    intro xs ys hsz hrel hnd
    cases xs <;> cases ys <;> simp only [listRel] at hrel
    · rfl
    · rename_i x xs y ys
      obtain ⟨hxy, htail⟩ := hrel
      simp only [nodupKeysList, Bool.and_eq_true] at hnd
      have hszx : sizeOf x < n := by
        have h := hsz
        simp only [List.cons.sizeOf_spec] at h
        omega
      have hszxs : sizeOf xs < n := by
        have h := hsz
        simp only [List.cons.sizeOf_spec] at h
        omega
      have hhead := (ih (sizeOf x) hszx).1 x y (Nat.le_refl _) hxy hnd.1
      have htl := (ih (sizeOf xs) hszxs).2.1 xs ys (Nat.le_refl _) htail hnd.2
      rcases exceptCases (canonValue x) with hx | ⟨cx, hx⟩
      · rw [hx] at hhead
        simp only [exceptMap_err] at hhead
        have hy := exceptMap_eq_err hhead.symm
        rw [canonList_cons_err hx, canonList_cons_err hy]
      · rw [hx] at hhead
        simp only [exceptMap_ok] at hhead
        obtain ⟨cy, hy, hcy⟩ := exceptMap_eq_ok hhead.symm
        rw [canonList_cons_ok hx, canonList_cons_ok hy]
        rcases exceptCases (canonList xs) with ht | ⟨ct, ht⟩
        · rw [ht] at htl
          simp only [exceptMap_err] at htl
          have ht2 := exceptMap_eq_err htl.symm
          rw [ht, ht2]
          rfl
        · rw [ht] at htl
          simp only [exceptMap_ok] at htl
          obtain ⟨ct2, ht2, hct⟩ := exceptMap_eq_ok htl.symm
          rw [ht, ht2]
          simp only [exceptMap_ok, canonSortList]
          rw [hcy, hct]
  · -- entries level
    intro l1 l2 hsz hrel hnd
    cases l1 <;> cases l2 <;> simp only [entriesRel] at hrel
    · rfl
    · rename_i p l1 q l2
      obtain ⟨hk, hv, htail⟩ := hrel
      obtain ⟨kp, vp⟩ := p
      obtain ⟨kq, vq⟩ := q
      simp only at hk
      subst hk
      simp only [nodupKeysEntries, Bool.and_eq_true] at hnd
      have hszv : sizeOf vp < n := by
        have h := hsz
        simp only [List.cons.sizeOf_spec, Prod.mk.sizeOf_spec] at h
        omega
      have hszl : sizeOf l1 < n := by
        have h := hsz
        simp only [List.cons.sizeOf_spec] at h
        omega
      have hhead := (ih (sizeOf vp) hszv).1 vp vq (Nat.le_refl _) hv hnd.1
      have htl := (ih (sizeOf l1) hszl).2.2 l1 l2 (Nat.le_refl _) htail hnd.2
      rcases exceptCases (canonValue vp) with hx | ⟨cx, hx⟩
      · rw [hx] at hhead
        simp only [exceptMap_err] at hhead
        have hy := exceptMap_eq_err hhead.symm
        rw [canonEntries_cons_err hx, canonEntries_cons_err hy]
      · rw [hx] at hhead
        simp only [exceptMap_ok] at hhead
        obtain ⟨cy, hy, hcy⟩ := exceptMap_eq_ok hhead.symm
        rw [canonEntries_cons_ok hx, canonEntries_cons_ok hy]
        rcases exceptCases (canonEntries l1) with ht | ⟨ct, ht⟩
        · rw [ht] at htl
          simp only [exceptMap_err] at htl
          have ht2 := exceptMap_eq_err htl.symm
          rw [ht, ht2]
          rfl
        · rw [ht] at htl
          simp only [exceptMap_ok] at htl
          obtain ⟨ct2, ht2, hct⟩ := exceptMap_eq_ok htl.symm
          rw [ht, ht2]
          simp only [exceptMap_ok, canonSortEntries]
          rw [hcy, hct]

end Raid

namespace Raid

theorem canonicalize_err {v : Value} {e : PyErr}
    (h : canonValue v = .error e) : canonicalize v = .error e := by
  unfold canonicalize
  rw [h]
  rfl

theorem canonicalize_ok {v : Value} {c : CValue}
    (h : canonValue v = .ok c) :
    canonicalize v = .ok (buildJson (canonSort c)) := by
  unfold canonicalize
  rw [h]
  rfl

/-- **C5** (confirmed).  The content hash is order independent: for any
two mapping value trees that are permutations of the same key/value
pairs at any nesting depth (`ValuePerm`), with the unique keys Python
dicts guarantee, the template hashes coincide. -/
theorem claim5_hash_order_independent (v1 v2 : Value)
    (hperm : ValuePerm v1 v2) (hnd : nodupKeysV v1 = true) :
    compute_template_hash v1 = compute_template_hash v2 := by
  have h := (canonPermAux (sizeOf v1)).1 v1 v2 (Nat.le_refl _) hperm hnd
  have hc : canonicalize v1 = canonicalize v2 := by
    rcases exceptCases (canonValue v1) with h1 | ⟨c1, h1⟩
    · rw [h1] at h
      simp only [exceptMap_err] at h
      have h2 := exceptMap_eq_err h.symm
      rw [canonicalize_err h1, canonicalize_err h2]
    · rw [h1] at h
      simp only [exceptMap_ok] at h
      obtain ⟨c2, h2, hc2⟩ := exceptMap_eq_ok h.symm
      rw [canonicalize_ok h1, canonicalize_ok h2, hc2]
  unfold compute_template_hash
  rw [hc]

/-- Witness for C5: two concrete two-level mappings holding the same
key/value pairs in different orders at both levels hash identically. -/
theorem claim5_hash_order_independent_witness :
    ValuePerm c5Tree1 c5Tree2 ∧ nodupKeysV c5Tree1 = true ∧
    compute_template_hash c5Tree1 = compute_template_hash c5Tree2 := by
  have hinner : ValuePerm c5Inner1 c5Inner2 := by
    show ∃ mid, entriesRel
        [("x", .num (.fin false 1 0)), ("y", .num (.fin false 2 0))] mid ∧
      mid.Perm [("y", .num (.fin false 2 0)), ("x", .num (.fin false 1 0))]
    exact ⟨[("x", .num (.fin false 1 0)), ("y", .num (.fin false 2 0))],
      ⟨rfl, rfl, rfl, rfl, trivial⟩, List.Perm.swap _ _ _⟩
  have hperm : ValuePerm c5Tree1 c5Tree2 := by
    show ∃ mid, entriesRel [("a", c5Inner1), ("b", .num (.fin false 3 0))] mid ∧
      mid.Perm [("b", .num (.fin false 3 0)), ("a", c5Inner2)]
    exact ⟨[("a", c5Inner2), ("b", .num (.fin false 3 0))],
      ⟨rfl, hinner, rfl, rfl, trivial⟩, List.Perm.swap _ _ _⟩
  exact ⟨hperm, by decide,
    claim5_hash_order_independent c5Tree1 c5Tree2 hperm (by decide)⟩

end Raid

namespace Raid

/-- Witness for C9: five sessions with distinct dates, one valid unit
each, `window = 3`. -/
theorem claim9_trend_windowing_witness :
    0 < 3 ∧
    listSubsessionsByClub c9Store "7i" "valid_low_sample_warning" ≠ [] ∧
    (∃ r : TrendResult,
      computeClubTrend c9Store "7i" "valid_low_sample_warning" (some 3) =
        .ok r ∧
      (let pts := sortByDate (trendJoin c9Store
        (listSubsessionsByClub c9Store "7i" "valid_low_sample_warning"))
       let dates := sortedDateSet pts
       pts.Perm (trendJoin c9Store
         (listSubsessionsByClub c9Store "7i" "valid_low_sample_warning")) ∧
       pts.Pairwise dateLe ∧
       dates.Pairwise dateLt ∧
       (∀ x, x ∈ dates ↔ ∃ dp ∈ pts, dp.session_date = x) ∧
       (if dates.length ≤ 3 then r.data_points = pts
        else r.data_points =
          pts.filter fun dp =>
            keyLe (dates.getD (dates.length - 3) "") dp.session_date) ∧
       r.data_points.Pairwise dateLe)) :=
  ⟨by decide, by decide,
    claim9_trend_windowing c9Store "7i" "valid_low_sample_warning" 3
      (by decide) (by decide)⟩

end Raid

namespace Raid

/-- A successful subsession insert touches only the `club_subsessions`
table. -/
theorem insertSubsession_tables {st : Store} {r : SubsessionRow} {i : Nat}
    {st' : Store} (h : insertSubsession st r = .ok (i, st')) :
    st'.sessions = st.sessions ∧ st'.templates = st.templates := by
  unfold insertSubsession at h
  split at h
  · cases h
  · split at h
    · cases h
    · split at h
      · cases h
      · split at h
        · cases h
        · split at h
          · cases h
          · cases h
            exact ⟨rfl, rfl⟩

/-- The per-club loop never writes to the `sessions` table. -/
theorem ingestClubs_sessions (sid : Nat) (aa : String)
    (tm : List (String × String)) :
    ∀ (l : List (String × List Shot)) (st : Store),
      ((ingestClubs sid aa tm st l).2).sessions = st.sessions := by
  intro l
  induction l with
  | nil => intro st; rfl
  | cons cb rest ih =>
    intro st
    obtain ⟨club, shots⟩ := cb
    unfold ingestClubs
    cases halo : alookup tm club with
    | none =>
      simp only [halo]
      exact ih st
    | some h =>
      simp only [halo]
      cases hget : getTemplate st h with
      | none => simp only [hget]
      | some row =>
        simp only [hget]
        cases hjson : jsonLoads row.canonical_json with
        | none => simp only [hjson]
        | some tv =>
          simp only [hjson]
          cases hcnt : countGrades (classifyTemplateOfValue tv) shots with
          | error e => simp only [hcnt]
          | ok counts =>
            simp only [hcnt]
            split
            · rfl
            · rename_i p heq
              rw [ih p.2]
              exact (insertSubsession_tables heq).1

/-- **C10** (confirmed, implicit claim).  The ingestion batch is not
atomic: the Session row is inserted before any classification and
persists regardless of later failures.  Concretely, a two-club batch
whose second club's supplied template hash is absent from the store
fails with the template-not-found error while the Session row and the
first club's AnalysisUnit remain durably stored — a Session can
therefore own fewer units than requested (including zero) — and a club
with no supplied template hash is silently skipped (no unit, no
error). -/
theorem claim10_ingest_not_atomic :
    (∀ (st : Store) (sbc : List (String × List Shot))
       (tmap : List (String × String)) (sd sf dt : String)
       (loc : Option String) (ia aa : String),
      ((ingestRapsodoCsv st sbc tmap sd sf dt loc ia aa).2).sessions =
        st.sessions ++
          [(st.sessions.length + 1,
            { session_date := sd, source_file := sf
              device_type := some dt, location := loc
              ingested_at := ia })]) ∧
    (let out := ingestRapsodoCsv wStore [("7i", c10Shots), ("pw", c10Shots)]
        [("7i", "aaaa"), ("pw", "cccc")] "d" "f.csv" "Rapsodo MLM2Pro"
        none "t0" "t1"
     out.1 = .error (.templateNotFound "pw") ∧
     out.2.sessions.length = wStore.sessions.length + 1 ∧
     out.2.subsessions.length = 1 ∧
     (out.2.subsessions.map fun p => p.2.club) = ["7i"]) ∧
    (let out2 := ingestRapsodoCsv wStore [("pw", c10Shots)] c10TmplByClub
        "d" "f.csv" "Rapsodo MLM2Pro" none "t0" "t1"
     ∃ sid, out2.1 = .ok sid ∧ out2.2.subsessions = [] ∧
       out2.2.sessions.length = wStore.sessions.length + 1) := by
  refine ⟨?_, ⟨rfl, rfl, rfl, rfl⟩, ⟨2, rfl, rfl, rfl⟩⟩
  intro st sbc tmap sd sf dt loc ia aa
  unfold ingestRapsodoCsv
  simp only []
  split
  · rename_i st' heq
    have h2 := congrArg Prod.snd heq
    simp only [] at h2
    rw [← h2, ingestClubs_sessions]
    rfl
  · rename_i e st' heq
    have h2 := congrArg Prod.snd heq
    simp only [] at h2
    rw [← h2, ingestClubs_sessions]
    rfl

end Raid

namespace Raid

set_option maxRecDepth 100000 in
/-- **C4 counterexample**.  Idempotence as claimed fails for a valid
value tree holding a 17-significant-digit decimal: its canonical form
parses back through `json.loads`'s binary64 `float`, which rounds
`0.30000000000000001` to the double nearest `0.3`, so re-canonicalizing
the parsed tree yields different bytes. -/
theorem claim4_idempotence_counterexample :
    canonicalize c4Tree = .ok c4Canonical ∧
    jsonLoads c4Canonical = some c4Parsed ∧
    canonicalize c4Parsed = .ok "\x7b\"v\":0.3\x7d" ∧
    ("\x7b\"v\":0.3\x7d" : String) ≠ c4Canonical :=
  ⟨rfl, rfl, rfl, by decide⟩

end Raid

namespace Raid

/-! ### Character and string plumbing for the parse round-trip (C4) -/

theorem toList_append (a b : String) :
    (a ++ b).toList = a.toList ++ b.toList := rfl

theorem mk_toList (s : String) : String.mk s.toList = s := rfl

theorem toList_mk (l : List Char) : (String.mk l).toList = l := rfl

theorem singleton_append_mk (ch : Char) (l : List Char) :
    String.singleton ch ++ String.mk l = String.mk (ch :: l) := rfl

theorem skipWs_cons {c : Char} (cs : List Char) (h : isJsonWs c = false) :
    skipWs (c :: cs) = c :: cs := by
  simp [skipWs, List.dropWhile, h]

theorem stripChars_prefix : ∀ (ps cs : List Char),
    stripChars ps (ps ++ cs) = some cs := by
  intro ps
  induction ps with
  | nil => intro cs; rfl
  | cons p ps ih => intro cs; simp [stripChars, ih]

theorem isDigit_toNat {c : Char} (h : isDigit c = true) :
    48 ≤ c.toNat ∧ c.toNat ≤ 57 := by
  simpa [isDigit, Bool.and_eq_true, decide_eq_true_iff] using h

theorem digit_ne {c : Char} (h : isDigit c = true) (d : Char)
    (hd : d.toNat < 48 ∨ 57 < d.toNat) : c ≠ d := by
  obtain ⟨h1, h2⟩ := isDigit_toNat h
  intro hc
  subst hc
  omega

theorem digit_not_ws {c : Char} (h : isDigit c = true) : isJsonWs c = false := by
  have h1 := digit_ne h ' ' (by decide)
  have h2 := digit_ne h '\x09' (by decide)
  have h3 := digit_ne h '\x0a' (by decide)
  have h4 := digit_ne h '\x0d' (by decide)
  simp [isJsonWs, h1, h2, h3, h4]

end Raid

namespace Raid

/-! ### String escaping round-trips through the scanner -/

theorem hexVal_hexDigit (n : Nat) (h : n < 16) :
    hexVal (hexDigit n) = some n := by
  interval_cases n <;> decide

theorem hexVal4_hex4 {n : Nat} (h : n < 65536) :
    hexVal4 (hexDigit (n / 4096 % 16)) (hexDigit (n / 256 % 16))
      (hexDigit (n / 16 % 16)) (hexDigit (n % 16)) = some n := by
  rw [hexVal4, hexVal_hexDigit _ (Nat.mod_lt _ (by omega)),
    hexVal_hexDigit _ (Nat.mod_lt _ (by omega)),
    hexVal_hexDigit _ (Nat.mod_lt _ (by omega)),
    hexVal_hexDigit _ (Nat.mod_lt _ (by omega))]
  show some _ = some n
  congr 1
  omega

theorem hex4_toList (n : Nat) :
    (hex4 n).toList = [hexDigit (n / 4096 % 16), hexDigit (n / 256 % 16),
      hexDigit (n / 16 % 16), hexDigit (n % 16)] := rfl

end Raid

namespace Raid

theorem pstr_u_low (fuel : Nat) (a b c d : Char) (cs : List Char) (code : Nat)
    (h : hexVal4 a b c d = some code) (hlow : code < 0xD800) :
    pstr (fuel + 1) ('\\' :: 'u' :: a :: b :: c :: d :: cs) =
      (pstr fuel cs).map fun p => (String.singleton (Char.ofNat code) ++ p.1, p.2) := by
  simp only [pstr]
  rw [if_neg (by decide), if_pos (by trivial), h]
  have hif : ¬(55296 ≤ code ∧ code ≤ 56319) := by omega
  simp [hif]

theorem pstr_plain (fuel : Nat) (c0 : Char) (cs : List Char)
    (h1 : c0 ≠ '"') (h2 : c0 ≠ '\\') (h3 : ¬ c0.toNat < 32) :
    pstr (fuel + 1) (c0 :: cs) =
      (pstr fuel cs).map fun p => (String.singleton c0 ++ p.1, p.2) := by
  simp only [pstr]
  rw [if_neg h1, if_neg h2, if_neg h3]

theorem pstr_esc (ch : Char) (cs : List Char) (fuel : Nat) :
    pstr (fuel + 1) (escChars ch ++ cs) =
      (pstr fuel cs).map fun p => (String.singleton ch ++ p.1, p.2) := by
  by_cases h1 : ch = '"'
  · subst h1; rfl
  by_cases h2 : ch = '\\'
  · subst h2; rfl
  by_cases h3 : ch = '\x08'
  · subst h3; rfl
  by_cases h4 : ch = '\x09'
  · subst h4; rfl
  by_cases h5 : ch = '\x0a'
  · subst h5; rfl
  by_cases h6 : ch = '\x0c'
  · subst h6; rfl
  by_cases h7 : ch = '\x0d'
  · subst h7; rfl
  by_cases h8 : ch.toNat < 32
  · have hlist : escChars ch = '\\' :: 'u' :: (hex4 ch.toNat).toList := by
      simp [escChars, pyEscapeChar, h1, h2, h3, h4, h5, h6, h7, h8,
        toList_append]
    rw [hlist, hex4_toList]
    simp only [List.cons_append, List.nil_append]
    rw [pstr_u_low fuel _ _ _ _ cs ch.toNat (hexVal4_hex4 (by omega)) (by omega)]
    rw [Char.ofNat_toNat]
  · have hlist : escChars ch = [ch] := by
      simp [escChars, pyEscapeChar, h1, h2, h3, h4, h5, h6, h7, h8]
    rw [hlist]
    exact pstr_plain fuel ch cs h1 h2 h8

end Raid

namespace Raid

theorem pstr_rt : ∀ (l : List Char) (fuel : Nat) (rest : List Char),
    l.length < fuel →
    pstr fuel (escList l ++ '"' :: rest) = some (String.mk l, rest) := by
  intro l
  induction l with
  | nil =>
    intro fuel rest h
    match fuel, h with
    | fuel + 1, _ =>
      show pstr (fuel + 1) ('"' :: rest) = some (String.mk [], rest)
      simp [pstr]

  | cons ch t ih =>
    intro fuel rest h
    match fuel, h with
    | fuel + 1, h =>
      rw [show escList (ch :: t) = escChars ch ++ escList t from rfl,
        List.append_assoc, pstr_esc,
        ih fuel rest (Nat.lt_of_succ_lt_succ h)]
      simp [singleton_append_mk]

theorem escChars_len (ch : Char) : 1 ≤ (escChars ch).length := by
  unfold escChars pyEscapeChar
  split_ifs <;> simp [toList_append, hex4_toList]

theorem escList_len : ∀ l : List Char, l.length ≤ (escList l).length := by
  intro l
  induction l with
  | nil => simp [escList]
  | cons ch t ih =>
    have := escChars_len ch
    simp only [escList, List.length_append, List.length_cons]
    omega

theorem join_esc_toList : ∀ (l : List Char) (acc : String),
    (List.foldl (fun a b => a ++ b) acc (l.map pyEscapeChar)).toList =
      acc.toList ++ escList l := by
  intro l
  induction l with
  | nil => intro acc; simp [escList]
  | cons ch t ih =>
    intro acc
    simp only [List.map_cons, List.foldl_cons, ih, toList_append]
    simp [escList, escChars, List.append_assoc]

theorem quote_toList (s : String) :
    (pyJsonQuote s).toList = '"' :: escList s.toList ++ ['"'] := by
  show ("\"" ++ String.join (s.toList.map pyEscapeChar) ++ "\"").toList = _
  rw [toList_append, toList_append]
  rw [show String.join (s.toList.map pyEscapeChar) =
    List.foldl (fun a b => a ++ b) "" (s.toList.map pyEscapeChar) from rfl]
  rw [join_esc_toList]
  rfl

end Raid

namespace Raid

/-! ### A canonical numeric token parses the same with a delimiter after it -/

theorem stopOk_cases {cs : List Char} (h : stopOk cs) :
    cs = [] ∨ (∃ r, cs = ',' :: r) ∨ (∃ r, cs = '\x7d' :: r) ∨
      (∃ r, cs = ']' :: r) := by
  cases cs with
  | nil => exact Or.inl rfl
  | cons c r =>
    simp only [stopOk] at h
    rcases h with rfl | rfl | rfl
    · exact Or.inr (Or.inl ⟨r, rfl⟩)
    · exact Or.inr (Or.inr (Or.inl ⟨r, rfl⟩))
    · exact Or.inr (Or.inr (Or.inr ⟨r, rfl⟩))

theorem takeDigits_stop {cs : List Char} (h : stopOk cs) :
    takeDigits cs = ([], cs) := by
  rcases stopOk_cases h with rfl | ⟨r, rfl⟩ | ⟨r, rfl⟩ | ⟨r, rfl⟩ <;> rfl

theorem munchFrac_stop {cs : List Char} (h : stopOk cs) :
    munchFrac cs = (none, cs) := by
  rcases stopOk_cases h with rfl | ⟨r, rfl⟩ | ⟨r, rfl⟩ | ⟨r, rfl⟩ <;> rfl

theorem munchExp_stop {cs : List Char} (h : stopOk cs) :
    munchExp cs = (none, cs) := by
  rcases stopOk_cases h with rfl | ⟨r, rfl⟩ | ⟨r, rfl⟩ | ⟨r, rfl⟩ <;> rfl

theorem stopOk_not_digit {c : Char} {r : List Char} (h : stopOk (c :: r)) :
    isDigit c = false := by
  simp only [stopOk] at h
  rcases h with rfl | rfl | rfl <;> rfl

theorem takeDigits_ext {rest : List Char} (hs : stopOk rest) :
    ∀ (l : List Char) {a t}, takeDigits l = (a, t) →
      takeDigits (l ++ rest) = (a, t ++ rest) := by
  intro l
  induction l with
  | nil =>
    intro a t h
    rw [show takeDigits [] = ([], []) from rfl] at h
    cases h
    simpa using takeDigits_stop hs
  | cons c l' ih =>
    intro a t h
    by_cases hd : isDigit c = true
    · rw [takeDigits, if_pos hd] at h
      cases hp : takeDigits l' with
      | mk p1 p2 =>
        rw [hp] at h
        cases h
        rw [List.cons_append, takeDigits, if_pos hd, ih hp]
    · rw [takeDigits, if_neg hd] at h
      cases h
      rw [List.cons_append, takeDigits, if_neg hd]

theorem munchInt_ext {rest : List Char} (hs : stopOk rest)
    {l : List Char} {a t} (h : munchInt l = some (a, t)) :
    munchInt (l ++ rest) = some (a, t ++ rest) := by
  cases l with
  | nil => simp [munchInt] at h
  | cons c l' =>
    by_cases hd : isDigit c = true
    · by_cases h0 : c = '0'
      · subst h0
        rw [munchInt, if_neg (by decide), if_pos rfl] at h
        cases h
        rw [List.cons_append, munchInt, if_neg (by decide), if_pos rfl]
      · rw [munchInt, if_neg (by simp [hd]), if_neg h0] at h
        cases hp : takeDigits l' with
        | mk p1 p2 =>
          rw [hp] at h
          simp only [] at h
          cases h
          rw [List.cons_append, munchInt, if_neg (by simp [hd]), if_neg h0,
            takeDigits_ext hs l' hp]
    · rw [munchInt, if_pos (by simp [hd])] at h
      exact Option.noConfusion h

theorem munchFrac_ext {rest : List Char} (hs : stopOk rest) :
    ∀ {l : List Char} {fo t}, munchFrac l = (fo, t) →
      munchFrac (l ++ rest) = (fo, t ++ rest) := by
  intro l fo t h
  rw [munchFrac.eq_def] at h
  split at h
  · rename_i c r
    by_cases hd : isDigit c = true
    · rw [if_pos hd] at h
      cases hp : takeDigits r with
      | mk p1 p2 =>
        rw [hp] at h
        simp only [] at h
        cases h
        rw [List.cons_append, List.cons_append]
        simp only [munchFrac]
        rw [if_pos hd, takeDigits_ext hs r hp]
    · rw [if_neg hd] at h
      cases h
      rw [List.cons_append, List.cons_append]
      simp only [munchFrac]
      rw [if_neg hd]
  · rename_i hne
    cases h
    cases l with
    | nil => simpa using munchFrac_stop hs
    | cons c l2 =>
      cases l2 with
      | nil =>
        by_cases hc : c = '.'
        · subst hc
          rcases stopOk_cases hs with rfl | ⟨r, rfl⟩ | ⟨r, rfl⟩ | ⟨r, rfl⟩ <;> rfl
        · rw [List.cons_append, List.nil_append, munchFrac.eq_def]
          split
          · rename_i c2 r2 heq
            injection heq with hh _
            exact absurd hh hc
          · rfl
      | cons c2 r2 =>
        by_cases hc : c = '.'
        · subst hc
          exact absurd rfl (hne c2 r2)
        · rw [List.cons_append, munchFrac.eq_def]
          split
          · rename_i c3 r3 heq
            injection heq with hh _
            exact absurd hh hc
          · rfl

theorem munchExp_single {e : Char} (he : e = 'e' ∨ e = 'E') :
    munchExp [e] = (none, [e]) := by
  rcases he with rfl | rfl <;> rfl

theorem munchExp_m1 {e : Char} (he : e = 'e' ∨ e = 'E') :
    munchExp [e, '-'] = (none, [e, '-']) := by
  rcases he with rfl | rfl <;> rfl

theorem munchExp_p1 {e : Char} (he : e = 'e' ∨ e = 'E') :
    munchExp [e, '+'] = (none, [e, '+']) := by
  rcases he with rfl | rfl <;> rfl

theorem munchExp_minus {e c2 : Char} (he : e = 'e' ∨ e = 'E') (r3 : List Char) :
    munchExp (e :: '-' :: c2 :: r3) =
      if isDigit c2 = true then
        (some (true, c2 :: (takeDigits r3).1), (takeDigits r3).2)
      else (none, e :: '-' :: c2 :: r3) := by
  rcases he with rfl | rfl <;> rfl

theorem munchExp_plus {e c2 : Char} (he : e = 'e' ∨ e = 'E') (r3 : List Char) :
    munchExp (e :: '+' :: c2 :: r3) =
      if isDigit c2 = true then
        (some (false, c2 :: (takeDigits r3).1), (takeDigits r3).2)
      else (none, e :: '+' :: c2 :: r3) := by
  rcases he with rfl | rfl <;> rfl

theorem munchExp_note {e : Char} (he : ¬(e = 'e' ∨ e = 'E')) (r : List Char) :
    munchExp (e :: r) = (none, e :: r) := by
  simp only [munchExp, if_neg he]

theorem munchExp_other {e c : Char} (he : e = 'e' ∨ e = 'E')
    (hc1 : c ≠ '-') (hc2 : c ≠ '+') (r2 : List Char) :
    munchExp (e :: c :: r2) =
      if isDigit c = true then
        (some (false, c :: (takeDigits r2).1), (takeDigits r2).2)
      else (none, e :: c :: r2) := by
  simp only [munchExp, if_pos he]
  split
  · rename_i c3 r3 heq
    injection heq with h1 _
    exact absurd h1 hc1
  · rename_i c3 r3 heq
    injection heq with h1 _
    exact absurd h1 hc2
  · rename_i hov1 hov2 c3 r3 heq
    injection heq with h1 h2
    subst h1
    subst h2
    rfl
  · rename_i heq
    exact List.noConfusion heq

theorem munchExp_ext {rest : List Char} (hs : stopOk rest) :
    ∀ {l : List Char} {eo t}, munchExp l = (eo, t) →
      munchExp (l ++ rest) = (eo, t ++ rest) := by
  intro l eo t h
  cases l with
  | nil =>
    rw [show munchExp [] = (none, []) from rfl] at h
    cases h
    simpa using munchExp_stop hs
  | cons e r =>
    rw [List.cons_append]
    by_cases he : e = 'e' ∨ e = 'E'
    · cases r with
      | nil =>
        rw [munchExp_single he] at h
        cases h
        rw [List.nil_append]
        rcases stopOk_cases hs with rfl | ⟨r2, rfl⟩ | ⟨r2, rfl⟩ | ⟨r2, rfl⟩
        · exact munchExp_single he
        · rw [munchExp_other he (by decide) (by decide), if_neg (by decide)]; rfl
        · rw [munchExp_other he (by decide) (by decide), if_neg (by decide)]; rfl
        · rw [munchExp_other he (by decide) (by decide), if_neg (by decide)]; rfl

      | cons c r2 =>
        by_cases hc1 : c = '-'
        · subst hc1
          cases r2 with
          | nil =>
            rw [munchExp_m1 he] at h
            cases h
            rw [List.cons_append, List.nil_append]
            rcases stopOk_cases hs with rfl | ⟨r3, rfl⟩ | ⟨r3, rfl⟩ | ⟨r3, rfl⟩
            · exact munchExp_m1 he
            · rw [munchExp_minus he, if_neg (by decide)]; rfl
            · rw [munchExp_minus he, if_neg (by decide)]; rfl
            · rw [munchExp_minus he, if_neg (by decide)]; rfl
          | cons c2 r3 =>
            rw [munchExp_minus he] at h
            rw [List.cons_append, List.cons_append, munchExp_minus he]
            by_cases hd : isDigit c2 = true
            · rw [if_pos hd] at h
              cases hp : takeDigits r3 with
              | mk p1 p2 =>
                rw [hp] at h
                cases h
                rw [if_pos hd, takeDigits_ext hs r3 hp]
            · rw [if_neg hd] at h
              cases h
              rw [if_neg hd]
              rfl
        · by_cases hc2 : c = '+'
          · subst hc2
            cases r2 with
            | nil =>
              rw [munchExp_p1 he] at h
              cases h
              rw [List.cons_append, List.nil_append]
              rcases stopOk_cases hs with rfl | ⟨r3, rfl⟩ | ⟨r3, rfl⟩ | ⟨r3, rfl⟩
              · exact munchExp_p1 he
              · rw [munchExp_plus he, if_neg (by decide)]; rfl
              · rw [munchExp_plus he, if_neg (by decide)]; rfl
              · rw [munchExp_plus he, if_neg (by decide)]; rfl
            | cons c2 r3 =>
              rw [munchExp_plus he] at h
              rw [List.cons_append, List.cons_append, munchExp_plus he]
              by_cases hd : isDigit c2 = true
              · rw [if_pos hd] at h
                cases hp : takeDigits r3 with
                | mk p1 p2 =>
                  rw [hp] at h
                  cases h
                  rw [if_pos hd, takeDigits_ext hs r3 hp]
              · rw [if_neg hd] at h
                cases h
                rw [if_neg hd]
                rfl
          · rw [munchExp_other he hc1 hc2] at h
            rw [List.cons_append, munchExp_other he hc1 hc2]
            by_cases hd : isDigit c = true
            · rw [if_pos hd] at h
              cases hp : takeDigits r2 with
              | mk p1 p2 =>
                rw [hp] at h
                cases h
                rw [if_pos hd, takeDigits_ext hs r2 hp]
            · rw [if_neg hd] at h
              cases h
              rw [if_neg hd]
              rfl
    · rw [munchExp_note he] at h
      cases h
      rw [munchExp_note he]
      rfl

end Raid

namespace Raid

theorem parseNumTail_ext {rest : List Char} (hs : stopOk rest)
    {neg : Bool} {l : List Char} {n : PyNum}
    (h : parseNumTail neg l = some (n, [])) :
    parseNumTail neg (l ++ rest) = some (n, rest) := by
  cases hmi : munchInt l with
  | none => rw [parseNumTail, hmi] at h; exact Option.noConfusion h
  | some ip =>
    cases ip with
    | mk a t =>
      rw [parseNumTail, hmi] at h
      simp only [] at h
      cases hfr : munchFrac t with
      | mk fo ft =>
        cases hex : munchExp ft with
        | mk eo et =>
          rw [hfr, hex] at h
          rw [parseNumTail, munchInt_ext hs hmi]
          simp only []
          rw [munchFrac_ext hs hfr, munchExp_ext hs hex]
          cases fo with
          | none =>
            cases eo with
            | none =>
              simp only [] at h ⊢
              cases h
              rfl
            | some se =>
              simp only [] at h ⊢
              cases h
              rfl
          | some fd =>
            simp only [] at h ⊢
            cases h
            rfl

theorem parseNum_cons_nonneg {c : Char} (hc : c ≠ '-') (cs : List Char) :
    parseNum (c :: cs) = parseNumTail false (c :: cs) := by
  rw [parseNum.eq_def]
  split
  · rename_i t heq
    injection heq with h1 _
    exact absurd h1 hc
  · rfl

theorem parseNum_ext {rest : List Char} (hs : stopOk rest)
    {l : List Char} {n : PyNum} (h : parseNum l = some (n, [])) :
    parseNum (l ++ rest) = some (n, rest) := by
  cases l with
  | nil =>
    rw [show parseNum [] = parseNumTail false [] from rfl] at h
    rw [parseNumTail, show munchInt [] = none from rfl] at h
    exact Option.noConfusion h
  | cons c l2 =>
    by_cases hc : c = '-'
    · subst hc
      have h2 : parseNumTail true l2 = some (n, []) := h
      exact parseNumTail_ext hs h2
    · rw [parseNum_cons_nonneg hc] at h
      rw [List.cons_append, parseNum_cons_nonneg hc]
      exact parseNumTail_ext hs h

theorem parseNum_head {c : Char} {cs : List Char} {p}
    (h : parseNum (c :: cs) = some p) : c = '-' ∨ isDigit c = true := by
  by_cases hc : c = '-'
  · exact Or.inl hc
  · right
    rw [parseNum_cons_nonneg hc] at h
    by_cases hd : isDigit c = true
    · exact hd
    · rw [parseNumTail, munchInt, if_pos (by simp [hd])] at h
      exact Option.noConfusion h

theorem tokStable_spec {s : String} (h : tokStable s = true) :
    ∃ n, parseNum s.toList = some (n, []) ∧ formatDecimal n = .ok s := by
  rw [tokStable.eq_def] at h
  split at h
  · rename_i n heq
    refine ⟨n, heq, ?_⟩
    split at h
    · rename_i t hfmt
      rw [hfmt]
      congr 1
      exact eq_of_beq h
    · exact Bool.noConfusion h
  · exact Bool.noConfusion h

theorem numOfToken_eq {s : String} {n : PyNum}
    (h : parseNum s.toList = some (n, [])) : numOfToken s = n := by
  rw [numOfToken, h]

end Raid

namespace Raid

/-! ### Shape of the canonical JSON text -/

theorem bjChars_num (s : String) : bjChars (.numTok s) = s.toList := rfl

theorem bjChars_str (s : String) :
    bjChars (.str s) = '"' :: escList s.toList ++ ['"'] := quote_toList s

theorem joinL : ∀ (xs : List CValue) (x : CValue),
    (joinComma (buildJsonList (x :: xs))).toList = bjChars x ++ tailCharsL xs := by
  intro xs
  induction xs with
  | nil =>
    intro x
    show (joinComma [buildJson x]).toList = bjChars x ++ tailCharsL []
    simp [joinComma, tailCharsL, bjChars]
  | cons y ys ih =>
    intro x
    show (joinComma (buildJson x :: buildJsonList (y :: ys))).toList = _
    rw [show buildJsonList (y :: ys) = buildJson y :: buildJsonList ys from rfl]
    rw [show joinComma (buildJson x :: buildJson y :: buildJsonList ys) =
      buildJson x ++ "," ++ joinComma (buildJson y :: buildJsonList ys) from rfl]
    rw [toList_append, toList_append]
    rw [show buildJson y :: buildJsonList ys = buildJsonList (y :: ys) from rfl]
    rw [ih y]
    simp [tailCharsL, bjChars, List.append_assoc]

theorem joinE : ∀ (l : List (String × CValue)) (k : String) (v : CValue),
    (joinComma (buildJsonEntries ((k, v) :: l))).toList =
      (pyJsonQuote k).toList ++ (':' :: bjChars v) ++ tailCharsE l := by
  intro l
  induction l with
  | nil =>
    intro k v
    show (joinComma [pyJsonQuote k ++ ":" ++ buildJson v]).toList = _
    simp [joinComma, tailCharsE, bjChars, toList_append]
  | cons q l2 ih =>
    intro k v
    cases q with
    | mk k2 v2 =>
      show (joinComma ((pyJsonQuote k ++ ":" ++ buildJson v) ::
        buildJsonEntries ((k2, v2) :: l2))).toList = _
      rw [show buildJsonEntries ((k2, v2) :: l2) =
        (pyJsonQuote k2 ++ ":" ++ buildJson v2) :: buildJsonEntries l2 from rfl]
      rw [show joinComma ((pyJsonQuote k ++ ":" ++ buildJson v) ::
          (pyJsonQuote k2 ++ ":" ++ buildJson v2) :: buildJsonEntries l2) =
        (pyJsonQuote k ++ ":" ++ buildJson v) ++ "," ++
          joinComma ((pyJsonQuote k2 ++ ":" ++ buildJson v2) ::
            buildJsonEntries l2) from rfl]
      rw [toList_append, toList_append]
      rw [show (pyJsonQuote k2 ++ ":" ++ buildJson v2) :: buildJsonEntries l2 =
        buildJsonEntries ((k2, v2) :: l2) from rfl]
      rw [ih k2 v2]
      simp [tailCharsE, bjChars, toList_append, List.append_assoc]

theorem bjChars_list_nil (rest : List Char) :
    bjChars (.list []) ++ rest = '[' :: ']' :: rest := rfl

theorem bjChars_list_cons (x : CValue) (xs : List CValue) (rest : List Char) :
    bjChars (.list (x :: xs)) ++ rest =
      '[' :: (bjChars x ++ (tailCharsL xs ++ (']' :: rest))) := by
  show ("[" ++ joinComma (buildJsonList (x :: xs)) ++ "]").toList ++ rest = _
  rw [toList_append, toList_append, joinL]
  simp [List.append_assoc]

theorem bjChars_dict_nil (rest : List Char) :
    bjChars (.dict []) ++ rest = '\x7b' :: '\x7d' :: rest := rfl

theorem bjChars_dict_cons (k : String) (v : CValue)
    (l : List (String × CValue)) (rest : List Char) :
    bjChars (.dict ((k, v) :: l)) ++ rest =
      '\x7b' :: '"' :: (escList k.toList ++ ('"' :: ':' ::
        (bjChars v ++ (tailCharsE l ++ ('\x7d' :: rest))))) := by
  show ("\x7b" ++ joinComma (buildJsonEntries ((k, v) :: l)) ++ "\x7d").toList
      ++ rest = _
  rw [toList_append, toList_append, joinE, quote_toList]
  simp [List.append_assoc]

theorem stopOk_tailL (xs : List CValue) (r : List Char) :
    stopOk (tailCharsL xs ++ ']' :: r) := by
  cases xs <;> simp [tailCharsL, stopOk]

theorem stopOk_tailE (l : List (String × CValue)) (r : List Char) :
    stopOk (tailCharsE l ++ '\x7d' :: r) := by
  cases l <;> simp [tailCharsE, stopOk]

theorem bjHead : ∀ (c : CValue) (r : List Char), cOk c = true →
    ∃ ch t, bjChars c ++ r = ch :: t ∧ isJsonWs ch = false ∧ ch ≠ ']' := by
  intro c r hok
  cases c with
  | null => exact ⟨'n', _, rfl, by decide, by decide⟩
  | bool b =>
    cases b
    · exact ⟨'f', _, rfl, by decide, by decide⟩
    · exact ⟨'t', _, rfl, by decide, by decide⟩
  | numTok s =>
    have hst : tokStable s = true := hok
    obtain ⟨n, hp, _⟩ := tokStable_spec hst
    cases hsl : s.toList with
    | nil =>
      rw [hsl, show parseNum [] = parseNumTail false [] from rfl,
        parseNumTail, show munchInt [] = none from rfl] at hp
      exact Option.noConfusion hp
    | cons ch t =>
      rw [hsl] at hp
      have hh := parseNum_head hp
      refine ⟨ch, t ++ r, by rw [bjChars_num, hsl, List.cons_append], ?_, ?_⟩
      · rcases hh with rfl | hd
        · decide
        · exact digit_not_ws hd
      · rcases hh with rfl | hd
        · decide
        · exact digit_ne hd ']' (by decide)
  | str s =>
    refine ⟨'"', escList s.toList ++ ('"' :: r), ?_, by decide, by decide⟩
    rw [bjChars_str]
    simp
  | list xs =>
    cases xs with
    | nil => exact ⟨'[', _, bjChars_list_nil r, by decide, by decide⟩
    | cons x xs2 => exact ⟨'[', _, bjChars_list_cons x xs2 r, by decide, by decide⟩
  | dict l =>
    cases l with
    | nil => exact ⟨'\x7b', _, bjChars_dict_nil r, by decide, by decide⟩
    | cons p l2 =>
      cases p with
      | mk k v =>
        exact ⟨'\x7b', _, bjChars_dict_cons k v l2 r, by decide, by decide⟩

theorem skipWs_bj {c : CValue} {r : List Char} (h : cOk c = true) :
    skipWs (bjChars c ++ r) = bjChars c ++ r := by
  obtain ⟨ch, t, heq, hws, _⟩ := bjHead c r h
  rw [heq, skipWs_cons _ hws]

end Raid

namespace Raid

/-! ### Branch-reduction lemmas for the scanner -/

theorem pv_null (fuel : Nat) (X : List Char) :
    pv (fuel + 1) ('n' :: X) =
      (stripChars ['u', 'l', 'l'] X).map fun r => (Value.null, r) := rfl

theorem pv_true (fuel : Nat) (X : List Char) :
    pv (fuel + 1) ('t' :: X) =
      (stripChars ['r', 'u', 'e'] X).map fun r => (Value.bool true, r) := rfl

theorem pv_false (fuel : Nat) (X : List Char) :
    pv (fuel + 1) ('f' :: X) =
      (stripChars ['a', 'l', 's', 'e'] X).map fun r => (Value.bool false, r) := rfl

theorem pv_quote (fuel : Nat) (X : List Char) :
    pv (fuel + 1) ('"' :: X) =
      (pstr (X.length + 1) X).map fun p => (Value.str p.1, p.2) := rfl

theorem pv_list_nil (fuel : Nat) (rest : List Char) :
    pv (fuel + 1) ('[' :: ']' :: rest) = some (.list [], rest) := rfl

theorem pv_dict_nil (fuel : Nat) (rest : List Char) :
    pv (fuel + 1) ('\x7b' :: '\x7d' :: rest) = some (.dict [], rest) := rfl

theorem parr_close (fuel : Nat) (acc : List Value) (rest : List Char) :
    parr (fuel + 1) acc (']' :: rest) = some (.list acc, rest) := rfl

theorem parr_comma (fuel : Nat) (acc : List Value) (X : List Char) :
    parr (fuel + 1) acc (',' :: X) =
      (pv fuel (skipWs X)).bind fun p => parr fuel (acc ++ [p.1]) p.2 := rfl

theorem pobj_close (fuel : Nat) (acc : List (String × Value)) (rest : List Char) :
    pobj (fuel + 1) acc ('\x7d' :: rest) = some (.dict acc, rest) := rfl

theorem pv_lbrack_go (fuel : Nat) (ch : Char) (t : List Char)
    (hws : isJsonWs ch = false) (hne : ch ≠ ']') :
    pv (fuel + 1) ('[' :: ch :: t) =
      (pv fuel (ch :: t)).bind fun p => parr fuel [p.1] p.2 := by
  simp only [pv]
  rw [skipWs_cons _ (by decide)]
  simp only []
  rw [if_neg (by decide), if_neg (by decide), if_neg (by decide),
    if_neg (by decide), if_pos trivial]
  rw [skipWs_cons _ hws]
  split
  · rename_i rest2 heq
    injection heq with h1 _
    exact absurd h1 hne
  · rfl

theorem pv_lbrace_go (fuel : Nat) (Y cs3 : List Char) (k : String)
    (hp : pstr (Y.length + 1) Y = some (k, ':' :: cs3)) :
    pv (fuel + 1) ('\x7b' :: '"' :: Y) =
      (pv fuel (skipWs cs3)).bind fun p => pobj fuel (aset [] k p.1) p.2 := by
  simp only [pv]
  rw [skipWs_cons _ (by decide)]
  simp only []
  rw [if_neg (by decide), if_neg (by decide), if_neg (by decide),
    if_neg (by decide), if_neg (by decide), if_pos trivial]
  rw [skipWs_cons _ (by decide)]
  simp only []
  rw [hp]
  rfl

theorem pobj_comma (fuel : Nat) (acc : List (String × Value)) (Y cs3 : List Char)
    (k : String) (hp : pstr (Y.length + 1) Y = some (k, ':' :: cs3)) :
    pobj (fuel + 1) acc (',' :: '"' :: Y) =
      (pv fuel (skipWs cs3)).bind fun p => pobj fuel (aset acc k p.1) p.2 := by
  simp only [pobj]
  rw [skipWs_cons _ (by decide)]
  simp only []
  rw [skipWs_cons _ (by decide)]
  simp only []
  rw [hp]
  rfl

end Raid

namespace Raid

/-! ### Helpers for the round-trip induction -/

theorem obind_some {α β : Type} (a : α) (f : α → Option β) :
    (some a).bind f = f a := rfl

theorem numStart_props {c : Char} (h : c = '-' ∨ isDigit c = true) :
    isJsonWs c = false ∧ c ≠ 'n' ∧ c ≠ 't' ∧ c ≠ 'f' ∧ c ≠ '"' ∧
      c ≠ '[' ∧ c ≠ '\x7b' := by
  rcases h with rfl | hd
  · exact ⟨by decide, by decide, by decide, by decide, by decide, by decide,
      by decide⟩
  · exact ⟨digit_not_ws hd, digit_ne hd 'n' (by decide),
      digit_ne hd 't' (by decide), digit_ne hd 'f' (by decide),
      digit_ne hd '"' (by decide), digit_ne hd '[' (by decide),
      digit_ne hd '\x7b' (by decide)⟩

theorem tok_nonempty {s : String} {n : PyNum}
    (hp : parseNum s.toList = some (n, [])) : ∃ ch t, s.toList = ch :: t := by
  cases hsl : s.toList with
  | nil =>
    rw [hsl, show parseNum [] = parseNumTail false [] from rfl, parseNumTail,
      show munchInt [] = none from rfl] at hp
    exact Option.noConfusion hp
  | cons ch t => exact ⟨ch, t, rfl⟩

theorem cOkList_cons_spec {x : CValue} {xs : List CValue}
    (h : cOkList (x :: xs) = true) : cOk x = true ∧ cOkList xs = true := by
  simpa [cOkList, Bool.and_eq_true] using h

theorem cOkEntries_cons_spec {p : String × CValue} {l : List (String × CValue)}
    (h : cOkEntries (p :: l) = true) :
    cOk p.2 = true ∧ cOkEntries l = true := by
  simpa [cOkEntries, Bool.and_eq_true] using h

theorem cOk_dict_spec {l : List (String × CValue)} (h : cOk (.dict l) = true) :
    chainLe (l.map Prod.fst) = true ∧ nodupStr (l.map Prod.fst) = true ∧
      cOkEntries l = true := by
  simpa [cOk, Bool.and_eq_true, and_assoc] using h

theorem nodupStr_cons_spec {k : String} {ks : List String}
    (h : nodupStr (k :: ks) = true) : k ∉ ks ∧ nodupStr ks = true := by
  have h2 := (nodupStr_iff _).mp h
  rw [List.nodup_cons] at h2
  exact ⟨h2.1, (nodupStr_iff _).mpr h2.2⟩

theorem aset_fresh {κ α : Type} [DecidableEq κ] {k : κ} {v : α} :
    ∀ {l : List (κ × α)}, k ∉ l.map Prod.fst →
      aset l k v = l ++ [(k, v)] := by
  intro l
  induction l with
  | nil => intro _; rfl
  | cons p rest ih =>
    intro h
    simp only [List.map_cons, List.mem_cons] at h
    push_neg at h
    rw [aset, if_neg (fun hc => h.1 hc.symm), ih h.2]
    rfl

theorem costV_list_cons {x : CValue} {xs : List CValue} {fuel : Nat}
    (h : costV (.list (x :: xs)) < fuel + 1) :
    costV x < fuel ∧ costL xs < fuel := by
  rw [show costV (.list (x :: xs)) = 1 + max (costV x) (costL xs) from rfl]
    at h
  have h1 := Nat.le_max_left (costV x) (costL xs)
  have h2 := Nat.le_max_right (costV x) (costL xs)
  exact ⟨by omega, by omega⟩

theorem costV_dict_cons {k : String} {v : CValue}
    {l : List (String × CValue)} {fuel : Nat}
    (h : costV (.dict ((k, v) :: l)) < fuel + 1) :
    costV v < fuel ∧ costE l < fuel := by
  rw [show costV (.dict ((k, v) :: l)) = 1 + max (costV v) (costE l) from rfl]
    at h
  have h1 := Nat.le_max_left (costV v) (costE l)
  have h2 := Nat.le_max_right (costV v) (costE l)
  exact ⟨by omega, by omega⟩

theorem costL_cons {x : CValue} {xs : List CValue} {fuel : Nat}
    (h : costL (x :: xs) < fuel + 1) :
    costV x < fuel ∧ costL xs < fuel := by
  rw [show costL (x :: xs) = 1 + max (costV x) (costL xs) from rfl] at h
  have h1 := Nat.le_max_left (costV x) (costL xs)
  have h2 := Nat.le_max_right (costV x) (costL xs)
  exact ⟨by omega, by omega⟩

theorem costE_cons {k : String} {v : CValue} {l : List (String × CValue)}
    {fuel : Nat} (h : costE ((k, v) :: l) < fuel + 1) :
    costV v < fuel ∧ costE l < fuel := by
  rw [show costE ((k, v) :: l) = 1 + max (costV v) (costE l) from rfl] at h
  have h1 := Nat.le_max_left (costV v) (costE l)
  have h2 := Nat.le_max_right (costV v) (costE l)
  exact ⟨by omega, by omega⟩

theorem tailL_cons (x : CValue) (xs : List CValue) (rest : List Char) :
    tailCharsL (x :: xs) ++ ']' :: rest =
      ',' :: (bjChars x ++ (tailCharsL xs ++ (']' :: rest))) := by
  simp [tailCharsL, List.append_assoc]

theorem tailE_cons (k : String) (v : CValue) (l : List (String × CValue))
    (rest : List Char) :
    tailCharsE ((k, v) :: l) ++ '\x7d' :: rest =
      ',' :: '"' :: (escList k.toList ++ ('"' :: ':' ::
        (bjChars v ++ (tailCharsE l ++ ('\x7d' :: rest))))) := by
  show (',' :: (pyJsonQuote k).toList ++ ':' :: bjChars v ++ tailCharsE l)
      ++ '\x7d' :: rest = _
  rw [quote_toList]
  simp [List.append_assoc]

end Raid

namespace Raid

/-- The scanner reads back exactly the canonical text of a well-formed
canonical tree, leaving any delimiter-headed remainder untouched, at
every level (value, array tail, object tail). -/
theorem pvRT : ∀ fuel : Nat,
    (∀ (c : CValue) (rest : List Char), costV c < fuel → cOk c = true →
      stopOk rest → pv fuel (bjChars c ++ rest) = some (valueOfC c, rest)) ∧
    (∀ (xs : List CValue) (acc : List Value) (rest : List Char),
      costL xs < fuel → cOkList xs = true → stopOk rest →
      parr fuel acc (tailCharsL xs ++ ']' :: rest) =
        some (.list (acc ++ valueOfCList xs), rest)) ∧
    (∀ (l : List (String × CValue)) (acc : List (String × Value))
      (rest : List Char), costE l < fuel → cOkEntries l = true →
      nodupStr (l.map Prod.fst) = true →
      (∀ k2, k2 ∈ l.map Prod.fst → k2 ∉ acc.map Prod.fst) → stopOk rest →
      pobj fuel acc (tailCharsE l ++ '\x7d' :: rest) =
        some (.dict (acc ++ valueOfCEntries l), rest)) := by
  intro fuel
  induction fuel with
  | zero =>
    exact ⟨fun c rest h _ _ => absurd h (Nat.not_lt_zero _),
      fun xs acc rest h _ _ => absurd h (Nat.not_lt_zero _),
      fun l acc rest h _ _ _ _ => absurd h (Nat.not_lt_zero _)⟩
  | succ fuel ih =>
    obtain ⟨ihV, ihL, ihE⟩ := ih
    refine ⟨?_, ?_, ?_⟩
    · intro c rest hcost hok hstop
      cases c with
      | null => rfl
      | bool b => cases b <;> rfl
      | numTok s =>
        have hst : tokStable s = true := hok
        obtain ⟨n, hp, _⟩ := tokStable_spec hst
        obtain ⟨ch, t, hsl⟩ := tok_nonempty hp
        have hp2 : parseNum (ch :: t) = some (n, []) := hsl ▸ hp
        have hh := parseNum_head hp2
        obtain ⟨hws, hn, htt, hf, hq, hbrk, hbrc⟩ := numStart_props hh
        rw [bjChars_num, hsl, List.cons_append]
        simp only [pv]
        rw [skipWs_cons _ hws]
        simp only []
        rw [if_neg hn, if_neg htt, if_neg hf, if_neg hq, if_neg hbrk,
          if_neg hbrc]
        have hext : parseNum (ch :: (t ++ rest)) = some (n, rest) := by
          have h3 := parseNum_ext hstop hp2
          rwa [List.cons_append] at h3
        rw [hext, show valueOfC (.numTok s) = Value.num (numOfToken s)
          from rfl, numOfToken_eq hp]
      | str s =>
        rw [bjChars_str, show ('"' :: escList s.toList ++ ['"']) ++ rest =
          '"' :: (escList s.toList ++ ('"' :: rest)) from by simp]
        rw [pv_quote]
        have hlen : s.toList.length <
            (escList s.toList ++ ('"' :: rest)).length + 1 := by
          have h2 := escList_len s.toList
          simp only [List.length_append, List.length_cons]
          omega
        rw [pstr_rt s.toList _ rest hlen]
        rfl
      | list xs =>
        cases xs with
        | nil => rw [bjChars_list_nil, pv_list_nil]; rfl
        | cons x xs2 =>
          obtain ⟨hokx, hokxs⟩ :=
            cOkList_cons_spec (show cOkList (x :: xs2) = true from hok)
          obtain ⟨hcx, hcxs⟩ := costV_list_cons hcost
          rw [bjChars_list_cons]
          obtain ⟨ch, t, hxeq, hws, hne⟩ :=
            bjHead x (tailCharsL xs2 ++ (']' :: rest)) hokx
          rw [hxeq, pv_lbrack_go fuel ch t hws hne, ← hxeq]
          rw [ihV x _ hcx hokx (stopOk_tailL xs2 rest), obind_some]
          simp only []
          rw [ihL xs2 [valueOfC x] rest hcxs hokxs hstop]
          rfl
      | dict l =>
        cases l with
        | nil => rw [bjChars_dict_nil, pv_dict_nil]; rfl
        | cons p l2 =>
          cases p with
          | mk k v =>
            obtain ⟨hchain, hnd, hentries⟩ := cOk_dict_spec hok
            obtain ⟨hokv, hokl2⟩ := cOkEntries_cons_spec hentries
            obtain ⟨hcv, hcl2⟩ := costV_dict_cons hcost
            rw [bjChars_dict_cons]
            have hplen : k.toList.length < (escList k.toList ++ ('"' :: ':' ::
                (bjChars v ++ (tailCharsE l2 ++ ('\x7d' :: rest))))).length
                  + 1 := by
              have h2 := escList_len k.toList
              simp only [List.length_append, List.length_cons]
              omega
            have hpk := pstr_rt k.toList
              ((escList k.toList ++ ('"' :: ':' :: (bjChars v ++
                (tailCharsE l2 ++ ('\x7d' :: rest))))).length + 1)
              (':' :: (bjChars v ++ (tailCharsE l2 ++ ('\x7d' :: rest))))
              hplen
            rw [pv_lbrace_go fuel _ _ _ hpk]
            rw [skipWs_bj hokv]
            rw [ihV v _ hcv hokv (stopOk_tailE l2 rest), obind_some]
            simp only []
            rw [mk_toList]
            rw [show aset ([] : List (String × Value)) k (valueOfC v) =
              [(k, valueOfC v)] from rfl]
            have hnds := nodupStr_cons_spec
              (show nodupStr (k :: l2.map Prod.fst) = true from by
                simpa using hnd)
            have hdisj : ∀ k2, k2 ∈ l2.map Prod.fst →
                k2 ∉ ([(k, valueOfC v)].map Prod.fst) := by
              intro k2 hk2 hk2in
              simp only [List.map_cons, List.map_nil, List.mem_singleton]
                at hk2in
              subst hk2in
              exact hnds.1 hk2
            rw [ihE l2 [(k, valueOfC v)] rest hcl2 hokl2 hnds.2 hdisj hstop]
            rfl
    · intro xs acc rest hcost hokl hstop
      cases xs with
      | nil =>
        rw [show tailCharsL [] ++ ']' :: rest = ']' :: rest from rfl,
          parr_close]
        simp [valueOfCList]
      | cons x xs2 =>
        obtain ⟨hokx, hokxs⟩ := cOkList_cons_spec hokl
        obtain ⟨hcx, hcxs⟩ := costL_cons hcost
        rw [tailL_cons, parr_comma, skipWs_bj hokx]
        rw [ihV x _ hcx hokx (stopOk_tailL xs2 rest), obind_some]
        simp only []
        rw [ihL xs2 (acc ++ [valueOfC x]) rest hcxs hokxs hstop]
        simp [valueOfCList, List.append_assoc]
    · intro l acc rest hcost hokE hnd hdisj hstop
      cases l with
      | nil =>
        rw [show tailCharsE [] ++ '\x7d' :: rest = '\x7d' :: rest from rfl,
          pobj_close]
        simp [valueOfCEntries]
      | cons p l2 =>
        cases p with
        | mk k v =>
          obtain ⟨hokv, hokl2⟩ := cOkEntries_cons_spec hokE
          obtain ⟨hcv, hcl2⟩ := costE_cons hcost
          rw [tailE_cons]
          have hplen : k.toList.length < (escList k.toList ++ ('"' :: ':' ::
              (bjChars v ++ (tailCharsE l2 ++ ('\x7d' :: rest))))).length
                + 1 := by
            have h2 := escList_len k.toList
            simp only [List.length_append, List.length_cons]
            omega
          have hpk := pstr_rt k.toList
            ((escList k.toList ++ ('"' :: ':' :: (bjChars v ++
              (tailCharsE l2 ++ ('\x7d' :: rest))))).length + 1)
            (':' :: (bjChars v ++ (tailCharsE l2 ++ ('\x7d' :: rest))))
            hplen
          rw [pobj_comma fuel acc _ _ _ hpk]
          rw [skipWs_bj hokv]
          rw [ihV v _ hcv hokv (stopOk_tailE l2 rest), obind_some]
          simp only []
          rw [mk_toList]
          have hndk := nodupStr_cons_spec
            (show nodupStr (k :: l2.map Prod.fst) = true from by
              simpa using hnd)
          have hkfresh : k ∉ acc.map Prod.fst := by
            exact hdisj k (by simp)
          rw [aset_fresh hkfresh]
          have hdisj2 : ∀ k2, k2 ∈ l2.map Prod.fst →
              k2 ∉ ((acc ++ [(k, valueOfC v)]).map Prod.fst) := by
            intro k2 hk2 hk2in
            rw [List.map_append] at hk2in
            rcases List.mem_append.mp hk2in with hz | hz
            · exact hdisj k2 (by simp [hk2]) hz
            · simp only [List.map_cons, List.map_nil, List.mem_singleton]
                at hz
              subst hz
              exact hndk.1 hk2
          rw [ihE l2 (acc ++ [(k, valueOfC v)]) rest hcl2 hokl2 hndk.2
            hdisj2 hstop]
          simp [valueOfCEntries, List.append_assoc]

end Raid

namespace Raid

/-! ### Canonicalizing the parsed value reproduces the canonical tree -/

theorem chainLe_pairwise : ∀ ks : List String, chainLe ks = true →
    ks.Pairwise fun a b => keyLe a b = true := by
  intro ks
  induction ks with
  | nil => intro _; exact List.Pairwise.nil
  | cons k1 t ih =>
    intro h
    cases t with
    | nil => simp
    | cons k2 t2 =>
      rw [chainLe, Bool.and_eq_true] at h
      have hrest := ih h.2
      rw [List.pairwise_cons]
      refine ⟨?_, hrest⟩
      intro b hb
      rcases List.mem_cons.mp hb with rfl | hb2
      · exact h.1
      · exact keyLe_trans h.1 ((List.pairwise_cons.mp hrest).1 b hb2)

theorem insertByKey_sorted_id {p : String × CValue} :
    ∀ {l : List (String × CValue)}, (∀ q ∈ l, keyLe p.1 q.1 = true) →
      insertByKey p l = p :: l := by
  intro l h
  cases l with
  | nil => rfl
  | cons q t => rw [insertByKey, if_pos (h q (by simp))]

theorem sortByKey_sorted_id : ∀ {l : List (String × CValue)},
    l.Pairwise entryLe → sortByKey l = l := by
  intro l
  induction l with
  | nil => intro _; rfl
  | cons p t ih =>
    intro h
    rw [List.pairwise_cons] at h
    rw [sortByKey, ih h.2]
    exact insertByKey_sorted_id h.1

theorem pairwise_keys_entries : ∀ {l : List (String × CValue)},
    (l.map Prod.fst).Pairwise (fun a b => keyLe a b = true) →
    l.Pairwise entryLe := by
  intro l
  induction l with
  | nil => intro _; exact List.Pairwise.nil
  | cons p t ih =>
    intro h
    rw [List.map_cons, List.pairwise_cons] at h
    rw [List.pairwise_cons]
    refine ⟨?_, ih h.2⟩
    intro q hq
    exact h.1 q.1 (List.mem_map_of_mem _ hq)

theorem canonRT : ∀ n : Nat,
    (∀ c : CValue, sizeOf c ≤ n → cOk c = true →
      canonValue (valueOfC c) = .ok c ∧ canonSort c = c) ∧
    (∀ xs : List CValue, sizeOf xs ≤ n → cOkList xs = true →
      canonList (valueOfCList xs) = .ok xs ∧ canonSortList xs = xs) ∧
    (∀ l : List (String × CValue), sizeOf l ≤ n → cOkEntries l = true →
      canonEntries (valueOfCEntries l) = .ok l ∧ canonSortEntries l = l) := by
  intro n
  induction n using Nat.strong_induction_on with
  | _ n ih =>
  refine ⟨?_, ?_, ?_⟩
  · intro c hsz hok
    cases c with
    | null => exact ⟨rfl, rfl⟩
    | bool b => exact ⟨rfl, rfl⟩
    | str s => exact ⟨rfl, rfl⟩
    | numTok s =>
      obtain ⟨nn, hp, hfmt⟩ := tokStable_spec (show tokStable s = true from hok)
      constructor
      · show canonValue (.num (numOfToken s)) = .ok (.numTok s)
        rw [numOfToken_eq hp]
        simp [canonValue, hfmt]
      · rfl
    | list xs =>
      have hszxs : sizeOf xs < n := by
        have h := hsz
        simp only [CValue.list.sizeOf_spec] at h
        omega
      obtain ⟨h1, h2⟩ := (ih (sizeOf xs) hszxs).2.1 xs (Nat.le_refl _)
        (show cOkList xs = true from hok)
      constructor
      · show canonValue (.list (valueOfCList xs)) = .ok (.list xs)
        rw [canonValue_list, h1]
        rfl
      · show CValue.list (canonSortList xs) = .list xs
        rw [h2]
    | dict l =>
      obtain ⟨hchain, hnd, hentries⟩ := cOk_dict_spec hok
      have hszl : sizeOf l < n := by
        have h := hsz
        simp only [CValue.dict.sizeOf_spec] at h
        omega
      obtain ⟨h1, h2⟩ := (ih (sizeOf l) hszl).2.2 l (Nat.le_refl _) hentries
      constructor
      · show canonValue (.dict (valueOfCEntries l)) = .ok (.dict l)
        rw [canonValue_dict, h1]
        rfl
      · show CValue.dict (sortByKey (canonSortEntries l)) = .dict l
        rw [h2]
        have hpw : l.Pairwise entryLe :=
          pairwise_keys_entries (chainLe_pairwise _ hchain)
        rw [sortByKey_sorted_id hpw]
  · intro xs hsz hok
    cases xs with
    | nil => exact ⟨rfl, rfl⟩
    | cons x t =>
      obtain ⟨hokx, hokt⟩ := cOkList_cons_spec hok
      have hszx : sizeOf x < n := by
        have h := hsz
        simp only [List.cons.sizeOf_spec] at h
        omega
      have hszt : sizeOf t < n := by
        have h := hsz
        simp only [List.cons.sizeOf_spec] at h
        omega
      obtain ⟨hx1, hx2⟩ := (ih (sizeOf x) hszx).1 x (Nat.le_refl _) hokx
      obtain ⟨ht1, ht2⟩ := (ih (sizeOf t) hszt).2.1 t (Nat.le_refl _) hokt
      constructor
      · show canonList (valueOfC x :: valueOfCList t) = .ok (x :: t)
        rw [canonList_cons_ok hx1, ht1]
        rfl
      · show canonSort x :: canonSortList t = x :: t
        rw [hx2, ht2]
  · intro l hsz hok
    cases l with
    | nil => exact ⟨rfl, rfl⟩
    | cons p t =>
      cases p with
      | mk k v =>
        obtain ⟨hokv, hokt⟩ := cOkEntries_cons_spec hok
        have hszv : sizeOf v < n := by
          have h := hsz
          simp only [List.cons.sizeOf_spec, Prod.mk.sizeOf_spec] at h
          omega
        have hszt : sizeOf t < n := by
          have h := hsz
          simp only [List.cons.sizeOf_spec] at h
          omega
        obtain ⟨hv1, hv2⟩ := (ih (sizeOf v) hszv).1 v (Nat.le_refl _) hokv
        obtain ⟨ht1, ht2⟩ := (ih (sizeOf t) hszt).2.2 t (Nat.le_refl _) hokt
        constructor
        · show canonEntries ((k, valueOfC v) :: valueOfCEntries t) =
            .ok ((k, v) :: t)
          rw [canonEntries_cons_ok hv1, ht1]
          rfl
        · show (k, canonSort v) :: canonSortEntries t = (k, v) :: t
          rw [hv2, ht2]

end Raid

namespace Raid

/-! ### Totality of canonicalization on NaN/Infinity-free trees -/

theorem formatDecimal_fin_ok (neg : Bool) (c : Nat) (e : Int) :
    ∃ s, formatDecimal (.fin neg c e) = .ok s := by
  rw [formatDecimal]
  split_ifs <;> exact ⟨_, rfl⟩

theorem validNumsList_cons_spec {x : Value} {xs : List Value}
    (h : validNumsList (x :: xs) = true) :
    validNums x = true ∧ validNumsList xs = true := by
  simpa [validNumsList, Bool.and_eq_true] using h

theorem validNumsEntries_cons_spec {p : String × Value}
    {l : List (String × Value)} (h : validNumsEntries (p :: l) = true) :
    validNums p.2 = true ∧ validNumsEntries l = true := by
  simpa [validNumsEntries, Bool.and_eq_true] using h

theorem numsStableList_cons_spec {x : Value} {xs : List Value}
    (h : numsStableList (x :: xs) = true) :
    numsStable x = true ∧ numsStableList xs = true := by
  simpa [numsStableList, Bool.and_eq_true] using h

theorem numsStableEntries_cons_spec {p : String × Value}
    {l : List (String × Value)} (h : numsStableEntries (p :: l) = true) :
    numsStable p.2 = true ∧ numsStableEntries l = true := by
  simpa [numsStableEntries, Bool.and_eq_true] using h

theorem nodupKeysList_cons_spec {x : Value} {xs : List Value}
    (h : nodupKeysList (x :: xs) = true) :
    nodupKeysV x = true ∧ nodupKeysList xs = true := by
  simpa [nodupKeysList, Bool.and_eq_true] using h

theorem nodupKeysEntries_cons_spec {p : String × Value}
    {l : List (String × Value)} (h : nodupKeysEntries (p :: l) = true) :
    nodupKeysV p.2 = true ∧ nodupKeysEntries l = true := by
  simpa [nodupKeysEntries, Bool.and_eq_true] using h

theorem nodupKeysV_dict_spec {l : List (String × Value)}
    (h : nodupKeysV (.dict l) = true) :
    nodupStr (l.map Prod.fst) = true ∧ nodupKeysEntries l = true := by
  simpa [nodupKeysV, Bool.and_eq_true] using h

theorem canonTotal : ∀ n : Nat,
    (∀ x : Value, sizeOf x ≤ n → validNums x = true →
      ∃ c, canonValue x = .ok c) ∧
    (∀ xs : List Value, sizeOf xs ≤ n → validNumsList xs = true →
      ∃ cs, canonList xs = .ok cs) ∧
    (∀ l : List (String × Value), sizeOf l ≤ n →
      validNumsEntries l = true → ∃ cl, canonEntries l = .ok cl) := by
  intro n
  induction n using Nat.strong_induction_on with
  | _ n ih =>
  refine ⟨?_, ?_, ?_⟩
  · intro x hsz hv
    cases x with
    | null => exact ⟨.null, rfl⟩
    | bool b => exact ⟨.bool b, rfl⟩
    | str s => exact ⟨.str s, rfl⟩
    | num nn =>
      cases nn with
      | fin neg c e =>
        obtain ⟨s, hfmt⟩ := formatDecimal_fin_ok neg c e
        exact ⟨.numTok s, by simp [canonValue, hfmt]⟩
      | nan => simp [validNums] at hv
      | inf neg => simp [validNums] at hv
    | list xs =>
      have hszxs : sizeOf xs < n := by
        have h := hsz
        simp only [Value.list.sizeOf_spec] at h
        omega
      obtain ⟨cs, hcs⟩ := (ih (sizeOf xs) hszxs).2.1 xs (Nat.le_refl _)
        (show validNumsList xs = true from hv)
      exact ⟨.list cs, by rw [canonValue_list, hcs]; rfl⟩
    | dict l =>
      have hszl : sizeOf l < n := by
        have h := hsz
        simp only [Value.dict.sizeOf_spec] at h
        omega
      obtain ⟨cl, hcl⟩ := (ih (sizeOf l) hszl).2.2 l (Nat.le_refl _)
        (show validNumsEntries l = true from hv)
      exact ⟨.dict cl, by rw [canonValue_dict, hcl]; rfl⟩
  · intro xs hsz hv
    cases xs with
    | nil => exact ⟨[], rfl⟩
    | cons x t =>
      obtain ⟨hvx, hvt⟩ := validNumsList_cons_spec hv
      have hszx : sizeOf x < n := by
        have h := hsz
        simp only [List.cons.sizeOf_spec] at h
        omega
      have hszt : sizeOf t < n := by
        have h := hsz
        simp only [List.cons.sizeOf_spec] at h
        omega
      obtain ⟨cx, hcx⟩ := (ih (sizeOf x) hszx).1 x (Nat.le_refl _) hvx
      obtain ⟨ct, hct⟩ := (ih (sizeOf t) hszt).2.1 t (Nat.le_refl _) hvt
      exact ⟨cx :: ct, by rw [canonList_cons_ok hcx, hct]; rfl⟩
  · intro l hsz hv
    cases l with
    | nil => exact ⟨[], rfl⟩
    | cons p t =>
      cases p with
      | mk k v =>
        obtain ⟨hvv, hvt⟩ := validNumsEntries_cons_spec hv
        have hszv : sizeOf v < n := by
          have h := hsz
          simp only [List.cons.sizeOf_spec, Prod.mk.sizeOf_spec] at h
          omega
        have hszt : sizeOf t < n := by
          have h := hsz
          simp only [List.cons.sizeOf_spec] at h
          omega
        obtain ⟨cv, hcv⟩ := (ih (sizeOf v) hszv).1 v (Nat.le_refl _) hvv
        obtain ⟨ct, hct⟩ := (ih (sizeOf t) hszt).2.2 t (Nat.le_refl _) hvt
        exact ⟨(k, cv) :: ct, by rw [canonEntries_cons_ok hcv, hct]; rfl⟩

end Raid

namespace Raid

/-! ### The sorted canonical tree of a stable input is well-formed -/

theorem canonValue_num_inv {nn : PyNum} {c : CValue}
    (h : canonValue (.num nn) = .ok c) :
    ∃ tok, formatDecimal nn = .ok tok ∧ c = .numTok tok := by
  cases hf : formatDecimal nn with
  | error e =>
    rw [show canonValue (.num nn) =
      (formatDecimal nn).bind (fun t => .ok (.numTok t)) from rfl, hf] at h
    exact Except.noConfusion h
  | ok tok =>
    rw [show canonValue (.num nn) =
      (formatDecimal nn).bind (fun t => .ok (.numTok t)) from rfl, hf] at h
    exact ⟨tok, rfl, (Except.ok.inj h).symm⟩

theorem canonList_cons_inv {v : Value} {t : List Value} {cl : List CValue}
    (h : canonList (v :: t) = .ok cl) :
    ∃ cv ct, canonValue v = .ok cv ∧ canonList t = .ok ct ∧
      cl = cv :: ct := by
  rcases exceptCases (canonValue v) with hv | ⟨cv, hv⟩
  · rw [canonList_cons_err hv] at h
    exact Except.noConfusion h
  · rw [canonList_cons_ok hv] at h
    obtain ⟨ct, hct, hcl⟩ := exceptMap_eq_ok h
    exact ⟨cv, ct, hv, hct, hcl.symm⟩

theorem canonEntries_cons_inv {k : String} {v : Value}
    {t : List (String × Value)} {cl : List (String × CValue)}
    (h : canonEntries ((k, v) :: t) = .ok cl) :
    ∃ cv ct, canonValue v = .ok cv ∧ canonEntries t = .ok ct ∧
      cl = (k, cv) :: ct := by
  rcases exceptCases (canonValue v) with hv | ⟨cv, hv⟩
  · rw [canonEntries_cons_err hv] at h
    exact Except.noConfusion h
  · rw [canonEntries_cons_ok hv] at h
    obtain ⟨ct, hct, hcl⟩ := exceptMap_eq_ok h
    exact ⟨cv, ct, hv, hct, hcl.symm⟩

theorem numsStable_num {nn : PyNum} {tok : String}
    (hf : formatDecimal nn = .ok tok) (h : numsStable (.num nn) = true) :
    tokStable tok = true := by
  rw [numsStable, hf] at h
  exact h

theorem cOkEntries_iff_forall : ∀ L : List (String × CValue),
    cOkEntries L = true ↔ ∀ p ∈ L, cOk p.2 = true := by
  intro L
  induction L with
  | nil => simp [cOkEntries]
  | cons p t ih =>
    rw [cOkEntries, Bool.and_eq_true, ih]
    constructor
    · rintro ⟨h1, h2⟩ q hq
      rcases List.mem_cons.mp hq with rfl | hq2
      · exact h1
      · exact h2 q hq2
    · intro h
      exact ⟨h p (by simp), fun q hq => h q (List.mem_cons_of_mem _ hq)⟩

theorem pairwise_entries_keys {l : List (String × CValue)}
    (h : l.Pairwise entryLe) :
    (l.map Prod.fst).Pairwise (fun a b => keyLe a b = true) := by
  induction l with
  | nil => exact List.Pairwise.nil
  | cons p t ih =>
    rw [List.pairwise_cons] at h
    rw [List.map_cons, List.pairwise_cons]
    refine ⟨?_, ih h.2⟩
    intro b hb
    obtain ⟨q, hq, rfl⟩ := List.mem_map.mp hb
    exact h.1 q hq

theorem pairwise_chainLe : ∀ {ks : List String},
    ks.Pairwise (fun a b => keyLe a b = true) → chainLe ks = true := by
  intro ks
  induction ks with
  | nil => intro _; rfl
  | cons k t ih =>
    intro h
    rw [List.pairwise_cons] at h
    cases t with
    | nil => rfl
    | cons k2 t2 =>
      rw [chainLe, Bool.and_eq_true]
      exact ⟨h.1 k2 (by simp), ih h.2⟩

theorem canonSortEntries_keys (cl : List (String × CValue)) :
    (canonSortEntries cl).map Prod.fst = cl.map Prod.fst := by
  rw [canonSortEntries_eq_map, List.map_map]
  rfl

theorem canonSort_cOk : ∀ n : Nat,
    (∀ (x : Value) (c : CValue), sizeOf x ≤ n → canonValue x = .ok c →
      numsStable x = true → nodupKeysV x = true →
      cOk (canonSort c) = true) ∧
    (∀ (xs : List Value) (cs : List CValue), sizeOf xs ≤ n →
      canonList xs = .ok cs → numsStableList xs = true →
      nodupKeysList xs = true → cOkList (canonSortList cs) = true) ∧
    (∀ (l : List (String × Value)) (cl : List (String × CValue)),
      sizeOf l ≤ n → canonEntries l = .ok cl →
      numsStableEntries l = true → nodupKeysEntries l = true →
      cOkEntries (canonSortEntries cl) = true) := by
  intro n
  induction n using Nat.strong_induction_on with
  | _ n ih =>
  refine ⟨?_, ?_, ?_⟩
  · intro x c hsz hc hns hnd
    cases x with
    | null => cases hc; rfl
    | bool b => cases hc; rfl
    | str s => cases hc; rfl
    | num nn =>
      obtain ⟨tok, hf, rfl⟩ := canonValue_num_inv hc
      exact numsStable_num hf hns
    | list xs =>
      rw [canonValue_list] at hc
      obtain ⟨cs, hcs, rfl⟩ := exceptMap_eq_ok hc
      have hszxs : sizeOf xs < n := by
        have h := hsz
        simp only [Value.list.sizeOf_spec] at h
        omega
      exact (ih (sizeOf xs) hszxs).2.1 xs cs (Nat.le_refl _) hcs
        (show numsStableList xs = true from hns)
        (show nodupKeysList xs = true from hnd)
    | dict l =>
      rw [canonValue_dict] at hc
      obtain ⟨cl, hcl, rfl⟩ := exceptMap_eq_ok hc
      have hszl : sizeOf l < n := by
        have h := hsz
        simp only [Value.dict.sizeOf_spec] at h
        omega
      obtain ⟨hndk, hnde⟩ := nodupKeysV_dict_spec hnd
      have hE := (ih (sizeOf l) hszl).2.2 l cl (Nat.le_refl _) hcl
        (show numsStableEntries l = true from hns) hnde
      show cOk (.dict (sortByKey (canonSortEntries cl))) = true
      rw [cOk, Bool.and_eq_true, Bool.and_eq_true]
      refine ⟨⟨?_, ?_⟩, ?_⟩
      · exact pairwise_chainLe (pairwise_entries_keys (sortByKey_sorted _))
      · have hperm : ((sortByKey (canonSortEntries cl)).map Prod.fst).Perm
            (l.map Prod.fst) := by
          rw [← canonEntries_keys hcl, ← canonSortEntries_keys cl]
          exact (sortByKey_perm _).map _
        rw [nodupStr_iff] at hndk ⊢
        exact hperm.nodup_iff.mpr hndk
      · rw [cOkEntries_iff_forall]
        intro p hp
        exact (cOkEntries_iff_forall _).mp hE p
          ((sortByKey_perm _).mem_iff.mp hp)
  · intro xs cs hsz hc hns hnd
    cases xs with
    | nil => cases hc; rfl
    | cons x t =>
      obtain ⟨cv, ct, hcv, hct, rfl⟩ := canonList_cons_inv hc
      obtain ⟨hnsx, hnst⟩ := numsStableList_cons_spec hns
      obtain ⟨hndx, hndt⟩ := nodupKeysList_cons_spec hnd
      have hszx : sizeOf x < n := by
        have h := hsz
        simp only [List.cons.sizeOf_spec] at h
        omega
      have hszt : sizeOf t < n := by
        have h := hsz
        simp only [List.cons.sizeOf_spec] at h
        omega
      show (cOk (canonSort cv) && cOkList (canonSortList ct)) = true
      rw [Bool.and_eq_true]
      exact ⟨(ih (sizeOf x) hszx).1 x cv (Nat.le_refl _) hcv hnsx hndx,
        (ih (sizeOf t) hszt).2.1 t ct (Nat.le_refl _) hct hnst hndt⟩
  · intro l cl hsz hc hns hnd
    cases l with
    | nil => cases hc; rfl
    | cons p t =>
      cases p with
      | mk k v =>
        obtain ⟨cv, ct, hcv, hct, rfl⟩ := canonEntries_cons_inv hc
        obtain ⟨hnsv, hnst⟩ := numsStableEntries_cons_spec hns
        obtain ⟨hndv, hndt⟩ := nodupKeysEntries_cons_spec hnd
        have hszv : sizeOf v < n := by
          have h := hsz
          simp only [List.cons.sizeOf_spec, Prod.mk.sizeOf_spec] at h
          omega
        have hszt : sizeOf t < n := by
          have h := hsz
          simp only [List.cons.sizeOf_spec] at h
          omega
        show (cOk (canonSort cv) && cOkEntries (canonSortEntries ct)) = true
        rw [Bool.and_eq_true]
        exact ⟨(ih (sizeOf v) hszv).1 v cv (Nat.le_refl _) hcv hnsv hndv,
          (ih (sizeOf t) hszt).2.2 t ct (Nat.le_refl _) hct hnst hndt⟩

end Raid

namespace Raid

/-! ### The text is always long enough to fuel the scanner -/

theorem costBound : ∀ n : Nat,
    (∀ c : CValue, sizeOf c ≤ n → costV c ≤ (bjChars c).length) ∧
    (∀ xs : List CValue, sizeOf xs ≤ n →
      costL xs ≤ (tailCharsL xs).length) ∧
    (∀ l : List (String × CValue), sizeOf l ≤ n →
      costE l ≤ (tailCharsE l).length) := by
  intro n
  induction n using Nat.strong_induction_on with
  | _ n ih =>
  refine ⟨?_, ?_, ?_⟩
  · intro c hsz
    cases c with
    | null => exact Nat.zero_le _
    | bool b => exact Nat.zero_le _
    | str s => exact Nat.zero_le _
    | numTok s => exact Nat.zero_le _
    | list xs =>
      cases xs with
      | nil => exact Nat.zero_le _
      | cons x t =>
        have hszx : sizeOf x < n := by
          have h := hsz
          simp only [CValue.list.sizeOf_spec, List.cons.sizeOf_spec] at h
          omega
        have hszt : sizeOf t < n := by
          have h := hsz
          simp only [CValue.list.sizeOf_spec, List.cons.sizeOf_spec] at h
          omega
        have h1 := (ih (sizeOf x) hszx).1 x (Nat.le_refl _)
        have h2 := (ih (sizeOf t) hszt).2.1 t (Nat.le_refl _)
        have hlen : (bjChars (.list (x :: t))).length =
            1 + ((bjChars x).length + ((tailCharsL t).length + 1)) := by
          have h3 := bjChars_list_cons x t []
          rw [List.append_nil] at h3
          rw [h3]
          simp [List.length_append]
          omega
        rw [hlen, show costV (.list (x :: t)) =
          1 + max (costV x) (costL t) from rfl]
        have hm : max (costV x) (costL t) ≤
            (bjChars x).length + (tailCharsL t).length :=
          Nat.max_le.mpr ⟨by omega, by omega⟩
        omega
    | dict l =>
      cases l with
      | nil => exact Nat.zero_le _
      | cons p t =>
        cases p with
        | mk k v =>
          have hszv : sizeOf v < n := by
            have h := hsz
            simp only [CValue.dict.sizeOf_spec, List.cons.sizeOf_spec,
              Prod.mk.sizeOf_spec] at h
            omega
          have hszt : sizeOf t < n := by
            have h := hsz
            simp only [CValue.dict.sizeOf_spec, List.cons.sizeOf_spec] at h
            omega
          have h1 := (ih (sizeOf v) hszv).1 v (Nat.le_refl _)
          have h2 := (ih (sizeOf t) hszt).2.2 t (Nat.le_refl _)
          have hlen : (bjChars (.dict ((k, v) :: t))).length =
              2 + ((escList k.toList).length + (2 + ((bjChars v).length +
                ((tailCharsE t).length + 1)))) := by
            have h3 := bjChars_dict_cons k v t []
            rw [List.append_nil] at h3
            rw [h3]
            simp [List.length_append]
            omega
          rw [hlen, show costV (.dict ((k, v) :: t)) =
            1 + max (costV v) (costE t) from rfl]
          have hm : max (costV v) (costE t) ≤
              (bjChars v).length + (tailCharsE t).length :=
            Nat.max_le.mpr ⟨by omega, by omega⟩
          omega
  · intro xs hsz
    cases xs with
    | nil => exact Nat.zero_le _
    | cons x t =>
      have hszx : sizeOf x < n := by
        have h := hsz
        simp only [List.cons.sizeOf_spec] at h
        omega
      have hszt : sizeOf t < n := by
        have h := hsz
        simp only [List.cons.sizeOf_spec] at h
        omega
      have h1 := (ih (sizeOf x) hszx).1 x (Nat.le_refl _)
      have h2 := (ih (sizeOf t) hszt).2.1 t (Nat.le_refl _)
      rw [show costL (x :: t) = 1 + max (costV x) (costL t) from rfl,
        show tailCharsL (x :: t) = ',' :: bjChars x ++ tailCharsL t from rfl]
      have hm : max (costV x) (costL t) ≤
          (bjChars x).length + (tailCharsL t).length :=
        Nat.max_le.mpr ⟨by omega, by omega⟩
      simp only [List.length_cons, List.length_append]
      omega
  · intro l hsz
    cases l with
    | nil => exact Nat.zero_le _
    | cons p t =>
      cases p with
      | mk k v =>
        have hszv : sizeOf v < n := by
          have h := hsz
          simp only [List.cons.sizeOf_spec, Prod.mk.sizeOf_spec] at h
          omega
        have hszt : sizeOf t < n := by
          have h := hsz
          simp only [List.cons.sizeOf_spec] at h
          omega
        have h1 := (ih (sizeOf v) hszv).1 v (Nat.le_refl _)
        have h2 := (ih (sizeOf t) hszt).2.2 t (Nat.le_refl _)
        rw [show costE ((k, v) :: t) = 1 + max (costV v) (costE t) from rfl,
          show tailCharsE ((k, v) :: t) =
            ',' :: (pyJsonQuote k).toList ++ ':' :: bjChars v ++ tailCharsE t
            from rfl]
        have hm : max (costV v) (costE t) ≤
            (bjChars v).length + (tailCharsE t).length :=
          Nat.max_le.mpr ⟨by omega, by omega⟩
        simp only [List.length_cons, List.length_append]
        omega

end Raid

namespace Raid

/-- C4 (amended): canonicalization is idempotent on valid value trees
whose numeric leaves survive the parser's number conversion: for every
tree with no NaN/Infinity, duplicate-free mapping keys, and
parse-stable canonical numeric tokens (every `int` is stable; a
`Decimal` is stable exactly when `float(str(d))` round-trips its
canonical token, which 17-significant-digit decimals like
`0.30000000000000001` violate), `canonicalize` succeeds, `json.loads`
reparses the canonical text, and canonicalizing the reparsed tree
reproduces the identical canonical string. -/
theorem claim4_idempotent_on_parse_stable_trees (x : Value)
    (hv : validNums x = true) (hnd : nodupKeysV x = true)
    (hns : numsStable x = true) :
    ∃ s y, canonicalize x = .ok s ∧ jsonLoads s = some y ∧
      canonicalize y = .ok s := by
  obtain ⟨c0, hc0⟩ := (canonTotal (sizeOf x)).1 x (Nat.le_refl _) hv
  have hok : cOk (canonSort c0) = true :=
    (canonSort_cOk (sizeOf x)).1 x c0 (Nat.le_refl _) hc0 hns hnd
  have hcanon : canonicalize x = .ok (buildJson (canonSort c0)) := by
    simp [canonicalize, hc0]
  refine ⟨buildJson (canonSort c0), valueOfC (canonSort c0), hcanon, ?_, ?_⟩
  · rw [jsonLoads]
    have hfuel : costV (canonSort c0) <
        (buildJson (canonSort c0)).toList.length + 1 := by
      have h1 := (costBound (sizeOf (canonSort c0))).1 (canonSort c0)
        (Nat.le_refl _)
      have h2 : bjChars (canonSort c0) = (buildJson (canonSort c0)).toList :=
        rfl
      rw [h2] at h1
      omega
    have hpv := (pvRT ((buildJson (canonSort c0)).toList.length + 1)).1
      (canonSort c0) [] hfuel hok trivial
    rw [List.append_nil] at hpv
    rw [show bjChars (canonSort c0) = (buildJson (canonSort c0)).toList
      from rfl] at hpv
    rw [hpv]
    rfl
  · have hrt := (canonRT (sizeOf (canonSort c0))).1 (canonSort c0)
      (Nat.le_refl _) hok
    have hcy : canonicalize (valueOfC (canonSort c0)) =
        .ok (buildJson (canonSort (canonSort c0))) := by
      simp [canonicalize, hrt.1]
    rw [hcy, hrt.2]

set_option maxRecDepth 40000 in
/-- Witness: a template-like tree with an integer, a float-derived
decimal and a two-decimal threshold is parse-stable, and the amended
idempotence holds for it. -/
theorem claim4_idempotent_on_parse_stable_trees_witness :
    validNums c4GoodTree = true ∧ nodupKeysV c4GoodTree = true ∧
      numsStable c4GoodTree = true ∧
      ∃ s y, canonicalize c4GoodTree = .ok s ∧ jsonLoads s = some y ∧
        canonicalize y = .ok s :=
  ⟨by decide, by decide, by decide,
    claim4_idempotent_on_parse_stable_trees c4GoodTree (by decide)
      (by decide) (by decide)⟩

end Raid
